import Mathlib

/-!
# csc364asm: the instruction encoding engine

A shallow embedding of the assembler of `littlehawk93/csc364asm`
(`model/register.go`, `model/instruction.go`, `asm/parser.go`, `asm/errors.go`,
the driver loop of `cmd/root.go`, and `parseLine` with the functions it calls
in `csc364asm.go`), followed by the theorems that settle the statements of the
specification against that code.

Conventions of the embedding.

* A Go `string` is its sequence of bytes (`GoString`), a Go `byte` is a `Nat`
  below 256 and a `rune` is a `Nat`.  Arithmetic that can leave the byte range
  in Go carries an explicit `% 256`.
* A Go run-time panic (index or slice bounds out of range) is the `panic`
  constructor of `Run`.
* The functions of the Go standard library the program calls (`strings`,
  `unicode/utf8`, `strconv`, `bufio`, `fmt` verbs `%s` and `%d`) are embedded
  from their documented behaviour.  The Unicode case tables and `strconv.Quote` are not
  reproduced: they are the fields of `GoRuntime`, and every theorem holds for
  all values of them.
-/

namespace Csc364

/-! ## Go values -/

/-- A Go `string`: a sequence of bytes. -/
abbrev GoString := List Nat

/-- The result of running Go code that may panic. -/
inductive Run (α : Type) where
  | ret (a : α)
  | panic
  deriving DecidableEq, Repr

/-- The tables of the Go runtime the embedding takes as given: `unicode.ToLower`
and `unicode.ToUpper` on the runes above ASCII, and `strconv.Quote`. -/
structure GoRuntime where
  unicodeToLower : Nat → Nat
  unicodeToUpper : Nat → Nat
  quote : GoString → GoString

/-- `utf8.RuneError`. -/
def RuneError : Nat := 0xFFFD

/-- `utf8.RuneSelf`: bytes below it are single-byte runes. -/
def RuneSelf : Nat := 0x80

/-- `utf8.UTFMax`. -/
def UTFMax : Nat := 4

/-- `utf8.AppendRune`: the UTF-8 encoding of a rune; surrogates and runes above
`0x10FFFF` are encoded as `utf8.RuneError`. -/
def encodeRune (r : Nat) : GoString :=
  if r < 0x80 then [r]
  else if r < 0x800 then [0xC0 ||| (r >>> 6), 0x80 ||| (r &&& 0x3F)]
  else if 0x10FFFF < r ∨ (0xD800 ≤ r ∧ r ≤ 0xDFFF) then [0xEF, 0xBF, 0xBD]
  else if r < 0x10000 then
    [0xE0 ||| (r >>> 12), 0x80 ||| ((r >>> 6) &&& 0x3F), 0x80 ||| (r &&& 0x3F)]
  else
    [0xF0 ||| (r >>> 18), 0x80 ||| ((r >>> 12) &&& 0x3F), 0x80 ||| ((r >>> 6) &&& 0x3F),
      0x80 ||| (r &&& 0x3F)]

/-- The bytes of a string literal of the Go source (UTF-8). -/
def bytes (s : String) : GoString :=
  s.data.flatMap (fun c => encodeRune c.toNat)

/-- True when `b` is a UTF-8 continuation byte (`0x80..0xBF`). -/
def isCont (b : Nat) : Bool := 0x80 ≤ b && b ≤ 0xBF

/-- `utf8.DecodeRuneInString`: the first rune of `s` and its width in bytes;
`(RuneError, 0)` on the empty string and `(RuneError, 1)` on an invalid
encoding. -/
def DecodeRune (s : GoString) : Nat × Nat :=
  match s with
  | [] => (RuneError, 0)
  | s0 :: t =>
    if s0 < 0x80 then (s0, 1)
    else if s0 < 0xC2 ∨ 0xF4 < s0 then (RuneError, 1)
    else
      let sz := if s0 < 0xE0 then 2 else if s0 < 0xF0 then 3 else 4
      let lo := if s0 = 0xE0 then 0xA0 else if s0 = 0xF0 then 0x90 else 0x80
      let hi := if s0 = 0xED then 0x9F else if s0 = 0xF4 then 0x8F else 0xBF
      if s.length < sz then (RuneError, 1)
      else
        match t with
        | [] => (RuneError, 1)
        | s1 :: t1 =>
          if s1 < lo ∨ hi < s1 then (RuneError, 1)
          else if sz ≤ 2 then (((s0 &&& 0x1F) <<< 6) ||| (s1 &&& 0x3F), 2)
          else
            match t1 with
            | [] => (RuneError, 1)
            | s2 :: t2 =>
              if !isCont s2 then (RuneError, 1)
              else if sz ≤ 3 then
                (((s0 &&& 0x0F) <<< 12) ||| ((s1 &&& 0x3F) <<< 6) ||| (s2 &&& 0x3F), 3)
              else
                match t2 with
                | [] => (RuneError, 1)
                | s3 :: _ =>
                  if !isCont s3 then (RuneError, 1)
                  else
                    (((s0 &&& 0x07) <<< 18) ||| ((s1 &&& 0x3F) <<< 12) |||
                      ((s2 &&& 0x3F) <<< 6) ||| (s3 &&& 0x3F), 4)

/-- `utf8.RuneStart`: `b` is not a continuation byte. -/
def RuneStart (b : Nat) : Bool := (b &&& 0xC0) != 0x80

/-- The search loop of `utf8.DecodeLastRuneInString`: the candidate start
positions `start, start-1, ..` down to `lim`, `n` of them; the first one that
holds a rune start, else `lim - 1` (clamped at 0). -/
def lastRuneStart (s : GoString) (lim : Nat) : Nat → Nat → Nat
  | 0, _ => lim - 1
  | n + 1, start => if RuneStart (s.getD start 0) then start else lastRuneStart s lim n (start - 1)

/-- `utf8.DecodeLastRuneInString`: the last rune of `s` and its width. -/
def DecodeLastRune (s : GoString) : Nat × Nat :=
  let stop := s.length
  if stop = 0 then (RuneError, 0)
  else
    let r := s.getD (stop - 1) 0
    if r < RuneSelf then (r, 1)
    else
      let lim := stop - UTFMax
      let start := lastRuneStart s lim (stop - 1 - lim) (stop - 2)
      let d := DecodeRune (s.drop start)
      if start + d.2 ≠ stop then (RuneError, 1) else d

/-- `unicode.IsSpace`. -/
def IsSpace (r : Nat) : Bool :=
  if r ≤ 0xFF then
    r = 0x09 || r = 0x0A || r = 0x0B || r = 0x0C || r = 0x0D || r = 0x20 || r = 0x85 || r = 0xA0
  else
    r = 0x1680 || (0x2000 ≤ r && r ≤ 0x200A) || r = 0x2028 || r = 0x2029 || r = 0x202F ||
      r = 0x205F || r = 0x3000

/-- Width in bytes of the white-space rune at the front of `s`, or `0` when `s`
does not start with one. -/
def spaceWidth (s : GoString) : Nat :=
  let d := DecodeRune s
  if IsSpace d.1 then d.2 else 0

/-- `strings.TrimLeftFunc(s, unicode.IsSpace)`; `skip` counts the bytes still to
drop of the white-space rune being removed. -/
def trimLeft : Nat → GoString → GoString
  | _, [] => []
  | skip + 1, _ :: s => trimLeft skip s
  | 0, b :: s =>
    let w := spaceWidth (b :: s)
    if w = 0 then b :: s else trimLeft (w - 1) s

/-- `strings.TrimRightFunc(s, unicode.IsSpace)`: drops the white-space runes at
the end of `s`, each found by `DecodeLastRune`; `fuel` bounds the number of
rounds and `s.length` suffices. -/
def trimRight : Nat → GoString → GoString
  | 0, s => s
  | fuel + 1, s =>
    let d := DecodeLastRune s
    if d.2 ≠ 0 ∧ IsSpace d.1 then trimRight fuel (s.take (s.length - d.2)) else s

/-- `strings.TrimSpace`. -/
def TrimSpace (s : GoString) : GoString :=
  let l := trimLeft 0 s
  trimRight l.length l

/-- The loop of `strings.FieldsFunc(s, unicode.IsSpace)`: `cur` is the field
being read and `skip` counts the bytes still to pass of the current white-space
rune.  A byte that does not start a white-space rune belongs to the field. -/
def fieldsLoop : Nat → GoString → GoString → List GoString
  | _, cur, [] => if cur = [] then [] else [cur]
  | skip + 1, cur, _ :: s => fieldsLoop skip cur s
  | 0, cur, b :: s =>
    let w := spaceWidth (b :: s)
    if w = 0 then fieldsLoop 0 (cur ++ [b]) s
    else if cur = [] then fieldsLoop (w - 1) [] s
    else cur :: fieldsLoop (w - 1) [] s

/-- `strings.Fields`. -/
def Fields (s : GoString) : List GoString := fieldsLoop 0 [] s

/-- `unicode.ToLower` on one rune. -/
def toLowerRune (rt : GoRuntime) (r : Nat) : Nat :=
  if r < 0x80 then (if 0x41 ≤ r ∧ r ≤ 0x5A then r + 0x20 else r) else rt.unicodeToLower r

/-- `unicode.ToUpper` on one rune. -/
def toUpperRune (rt : GoRuntime) (r : Nat) : Nat :=
  if r < 0x80 then (if 0x61 ≤ r ∧ r ≤ 0x7A then r - 0x20 else r) else rt.unicodeToUpper r

/-- `strings.Map(mapping, s)`: every rune of `s` (an invalid byte reads as
`RuneError`) is replaced by the encoding of its image; `skip` counts the bytes
still to pass of the rune just mapped. -/
def Map (mapping : Nat → Nat) : Nat → GoString → GoString
  | _, [] => []
  | skip + 1, _ :: s => Map mapping skip s
  | 0, b :: s =>
    let d := DecodeRune (b :: s)
    encodeRune (mapping d.1) ++ Map mapping (d.2 - 1) s

/-- `strings.ToLower`. -/
def ToLower (rt : GoRuntime) (s : GoString) : GoString := Map (toLowerRune rt) 0 s

/-- `strings.ToUpper`. -/
def ToUpper (rt : GoRuntime) (s : GoString) : GoString := Map (toUpperRune rt) 0 s

/-- The verb `%d` of `fmt` on a non-negative integer. -/
def fmtInt (n : Nat) : GoString := (Nat.toDigits 10 n).map Char.toNat

/-! ## `strconv.ParseInt` -/

/-- The two sentinel errors a `strconv.NumError` wraps here. -/
inductive NumErrKind where
  | ErrSyntax
  | ErrRange
  deriving DecidableEq, Repr

/-- `strconv.NumError`. -/
structure NumError where
  Func : GoString
  Num : GoString
  Err : NumErrKind
  deriving DecidableEq, Repr

/-- The text of the wrapped sentinel error. -/
def NumErrKind.Error : NumErrKind → GoString
  | .ErrSyntax => bytes "invalid syntax"
  | .ErrRange => bytes "value out of range"

/-- `(*strconv.NumError).Error`. -/
def NumError.Error (rt : GoRuntime) (e : NumError) : GoString :=
  bytes "strconv." ++ e.Func ++ bytes ": parsing " ++ rt.quote e.Num ++ bytes ": " ++ e.Err.Error

/-- `strconv.lower`: `c | ('x' - 'X')`. -/
def lower (c : Nat) : Nat := c ||| 0x20

/-- The digit loop of `strconv.ParseUint` for an explicit base (2 to 36): the
value read so far is `n`; the result is the value and the sentinel error, if
any, with `maxVal` as value of a range error. -/
def parseUintLoop (base maxVal cutoff : Nat) : GoString → Nat → Nat × Option NumErrKind
  | [], n => (n, none)
  | c :: s, n =>
    if ¬ ((0x30 ≤ c ∧ c ≤ 0x39) ∨ (0x61 ≤ lower c ∧ lower c ≤ 0x7A)) then
      (0, some .ErrSyntax)
    else
      let d := if 0x30 ≤ c ∧ c ≤ 0x39 then c - 0x30 else lower c - 0x61 + 10
      if d ≥ base then (0, some .ErrSyntax)
      else if n ≥ cutoff then (maxVal, some .ErrRange)
      else
        let n0 := (n * base) % 2 ^ 64
        let n1 := (n0 + d) % 2 ^ 64
        if n1 < n0 ∨ n1 > maxVal then (maxVal, some .ErrRange)
        else parseUintLoop base maxVal cutoff s n1

/-- `strconv.ParseUint(s, base, bitSize)` for `2 ≤ base ≤ 36` and
`1 ≤ bitSize ≤ 64`, the only arguments this program passes. -/
def ParseUint (s : GoString) (base bitSize : Nat) : Nat × Option NumError :=
  if s = [] then (0, some ⟨bytes "ParseUint", s, .ErrSyntax⟩)
  else
    let r := parseUintLoop base (2 ^ bitSize - 1) ((2 ^ 64 - 1) / base + 1) s 0
    match r.2 with
    | some k => (r.1, some ⟨bytes "ParseUint", s, k⟩)
    | none => (r.1, none)

/-- `strconv.ParseInt(s, base, bitSize)` for `2 ≤ base ≤ 36` and
`1 ≤ bitSize ≤ 64`. -/
def ParseInt (s : GoString) (base bitSize : Nat) : Int × Option NumError :=
  match s with
  | [] => (0, some ⟨bytes "ParseInt", s, .ErrSyntax⟩)
  | c :: t =>
    let neg : Bool := c = 0x2D
    let u := ParseUint (if c = 0x2B ∨ c = 0x2D then t else s) base bitSize
    let cutoff := 2 ^ (bitSize - 1)
    match u.2 with
    | some ⟨_, _, .ErrSyntax⟩ => (0, some ⟨bytes "ParseInt", s, .ErrSyntax⟩)
    | _ =>
      if !neg ∧ u.1 ≥ cutoff then ((cutoff : Int) - 1, some ⟨bytes "ParseInt", s, .ErrRange⟩)
      else if neg ∧ u.1 > cutoff then (-(cutoff : Int), some ⟨bytes "ParseInt", s, .ErrRange⟩)
      else (if neg then -(u.1 : Int) else (u.1 : Int), none)

/-! ## `model/register.go` -/

namespace model

/-- The Go type `Register`, a `string`. -/
abbrev Register := GoString

def R0 : Register := bytes "r0"
def R1 : Register := bytes "r1"
def R2 : Register := bytes "r2"
def R3 : Register := bytes "r3"
def R4 : Register := bytes "r4"
def R5 : Register := bytes "r5"
def R6 : Register := bytes "r6"
def R7 : Register := bytes "r7"
def R8 : Register := bytes "r8"
def R9 : Register := bytes "r9"
def RA : Register := bytes "ra"
def RB : Register := bytes "rb"
def RC : Register := bytes "rc"
def RD : Register := bytes "rd"
def RE : Register := bytes "re"
def RF : Register := bytes "rf"
def R10 : Register := bytes "r10"
def R11 : Register := bytes "r11"
def R12 : Register := bytes "r12"
def R13 : Register := bytes "r13"
def R14 : Register := bytes "r14"
def R15 : Register := bytes "r15"
def RIN : Register := bytes "in"
def ROUT0 : Register := bytes "out0"
def ROUT1 : Register := bytes "out1"
def RPC : Register := bytes "pc"

/-- The Go map `registerMap`, as the list of its entries (the keys are
distinct). -/
def registerMap : List (Register × Nat) :=
  [(R0, 0x00), (R1, 0x01), (R2, 0x02), (R3, 0x03), (R4, 0x04), (R5, 0x05), (R6, 0x06),
   (R7, 0x07), (R8, 0x08), (R9, 0x09), (RA, 0x0A), (RB, 0x0B), (RC, 0x0C), (RD, 0x0D),
   (RE, 0x0E), (RF, 0x0F), (RIN, 0x06), (ROUT0, 0x0D), (ROUT1, 0x0E), (RPC, 0x0F),
   (R10, 0x0A), (R11, 0x0B), (R12, 0x0C), (R13, 0x0D), (R14, 0x0E), (R15, 0x0F)]

/-- `Register.GetValue`: the address and `true`, or the zero byte and `false`. -/
def Register.GetValue (me : Register) : Nat × Bool :=
  match registerMap.lookup me with
  | some v => (v, true)
  | none => (0, false)

/-! ## `model/instruction.go` -/

/-- The Go type `Instruction`, a `string`. -/
abbrev Instruction := GoString

/-- The Go type `InstructionParamType`, a `byte`. -/
abbrev InstructionParamType := Nat

def ParamRegister : InstructionParamType := 1
def ParamNumeric : InstructionParamType := 2

def MOV : Instruction := bytes "mov"
def NOT : Instruction := bytes "not"
def AND : Instruction := bytes "and"
def OR : Instruction := bytes "or"
def ADD : Instruction := bytes "add"
def SUB : Instruction := bytes "sub"
def ADDI : Instruction := bytes "addi"
def SUBI : Instruction := bytes "subi"
def SET : Instruction := bytes "set"
def SETH : Instruction := bytes "seth"
def INCZ : Instruction := bytes "incz"
def DECN : Instruction := bytes "decn"
def MOVZ : Instruction := bytes "movz"
def MOVX : Instruction := bytes "movx"
def MOVP : Instruction := bytes "movp"
def MOVN : Instruction := bytes "movn"
def MOVE : Instruction := bytes "move"
def INCIZ : Instruction := bytes "inciz"
def DECIN : Instruction := bytes "decin"
def MOVEZ : Instruction := bytes "movez"
def MOVEX : Instruction := bytes "movex"
def MOVEP : Instruction := bytes "movep"
def MOVEN : Instruction := bytes "moven"

/-- The Go map `instructionMap`, as the list of its entries. -/
def instructionMap : List (Instruction × Nat) :=
  [(MOV, 0x00), (NOT, 0x10), (AND, 0x20), (OR, 0x30), (ADD, 0x40), (SUB, 0x50),
   (ADDI, 0x60), (SUBI, 0x70), (SET, 0x80), (SETH, 0x90), (INCZ, 0xA0), (DECN, 0xB0),
   (MOVZ, 0xC0), (MOVX, 0xD0), (MOVP, 0xE0), (MOVN, 0xF0), (MOVE, 0x00), (INCIZ, 0xA0),
   (DECIN, 0xB0), (MOVEZ, 0xC0), (MOVEX, 0xD0), (MOVEP, 0xE0), (MOVEN, 0xF0)]

/-- The Go map `instructionParamMap`, as the list of its entries. -/
def instructionParamMap : List (Instruction × List InstructionParamType) :=
  [(MOV, [ParamRegister, ParamRegister]),
   (NOT, [ParamRegister, ParamRegister]),
   (AND, [ParamRegister, ParamRegister, ParamRegister]),
   (OR, [ParamRegister, ParamRegister, ParamRegister]),
   (ADD, [ParamRegister, ParamRegister, ParamRegister]),
   (SUB, [ParamRegister, ParamRegister, ParamRegister]),
   (ADDI, [ParamRegister, ParamRegister, ParamNumeric]),
   (SUBI, [ParamRegister, ParamRegister, ParamNumeric]),
   (SET, [ParamRegister, ParamNumeric, ParamNumeric]),
   (SETH, [ParamRegister, ParamNumeric, ParamNumeric]),
   (INCZ, [ParamRegister, ParamNumeric, ParamRegister]),
   (DECN, [ParamRegister, ParamNumeric, ParamRegister]),
   (MOVZ, [ParamRegister, ParamRegister, ParamRegister]),
   (MOVX, [ParamRegister, ParamRegister, ParamRegister]),
   (MOVP, [ParamRegister, ParamRegister, ParamRegister]),
   (MOVN, [ParamRegister, ParamRegister, ParamRegister]),
   (MOVE, [ParamRegister, ParamRegister]),
   (INCIZ, [ParamRegister, ParamNumeric, ParamRegister]),
   (DECIN, [ParamRegister, ParamNumeric, ParamRegister]),
   (MOVEZ, [ParamRegister, ParamRegister, ParamRegister]),
   (MOVEX, [ParamRegister, ParamRegister, ParamRegister]),
   (MOVEP, [ParamRegister, ParamRegister, ParamRegister]),
   (MOVEN, [ParamRegister, ParamRegister, ParamRegister])]

/-- `Instruction.GetValue`: the opcode byte and `true`, or the zero byte and
`false`. -/
def Instruction.GetValue (me : Instruction) : Nat × Bool :=
  match instructionMap.lookup me with
  | some v => (v, true)
  | none => (0, false)

/-- `Instruction.GetParams`: the schema, or `none` for the nil slice. -/
def Instruction.GetParams (me : Instruction) : Option (List InstructionParamType) :=
  match instructionParamMap.lookup me with
  | some p => some p
  | none => none

end model

/-! ## `bufio.Scanner` -/

/-- The constant `bufio.MaxScanTokenSize`: the size the buffer of a `Scanner`
grows to, and so the room it has for one line with its line feed. -/
def MaxScanTokenSize : Nat := 64 * 1024

/-- `dropCR` of `bufio`: the data without one trailing `\r`. -/
def dropCR (data : GoString) : GoString :=
  if data.getLast? = some 0x0D then data.dropLast else data

/-- `bufio.NewScanner(r)`, with its split function `ScanLines`, for the reader
`r` given by its lines (the bytes between the line feeds, a `\r` in front of a
line feed included): the texts the calls of `Scan` deliver, in order, before a
call returns `false`.  A line is delivered without its trailing `\r`.  A line of
`MaxScanTokenSize` bytes or more does not fit the buffer: `Scan` returns `false`
there with the error `ErrTooLong`, as it returns `false` at the end of the
input, and the lines after it are not read.  A call of `Scan` after one that
returned `false` is taken to return `false` again, as it does at the end of the
input; `runRootCommand` makes no such call. -/
def NewScanner (r : List GoString) : List GoString :=
  (r.takeWhile (fun line => decide (line.length < MaxScanTokenSize))).map dropCR

/-! ## `asm/errors.go` and `asm/parser.go` -/

namespace asm

/-- The constant `commentLeadingChar`, the byte of `#`. -/
def commentLeadingChar : Nat := 0x23

/-- The struct `SyntaxError`. -/
structure SyntaxError where
  Message : GoString
  LineNumber : Nat
  deriving DecidableEq, Repr

/-- `(*SyntaxError).Error`. -/
def SyntaxError.Error (me : SyntaxError) : GoString :=
  bytes "Syntax error on line " ++ fmtInt me.LineNumber ++ bytes ": " ++ me.Message

/-- The struct `Parser`: `reader` holds the lines the `bufio.Scanner` has yet to
deliver (each one the text `Scan` would produce) before `Scan` returns `false`,
`currentLine` the counter. -/
structure Parser where
  reader : List GoString
  currentLine : Nat
  deriving DecidableEq, Repr

/-- `NewParser`, on the lines of the reader `r`. -/
def NewParser (r : List GoString) : Parser := ⟨NewScanner r, 0⟩

/-- `parseRegister`: the byte and the error (`none` for nil). -/
def parseRegister (token : GoString) : Nat × Option GoString :=
  let r := model.Register.GetValue token
  if r.2 then (r.1, none)
  else (0, some (bytes "Invalid register value provided '" ++ token ++ bytes "'"))

/-- `parseNumeric`: the byte and the error (`none` for nil); the slice
expression `token[2:]` panics on a token shorter than two bytes. -/
def parseNumeric (rt : GoRuntime) (token : GoString) : Run (Nat × Option GoString) :=
  let base := if token.length > 2 ∧ token.take 2 = bytes "0x" then 16 else 10
  if token.length < 2 then .panic
  else
    let r := ParseInt (token.drop 2) base 8
    match r.2 with
    | some err =>
      .ret (0, some (bytes "Invalid numeric value provided '" ++ token ++ bytes "': " ++
        err.Error rt))
    | none =>
      if r.1 < 0 ∨ r.1 > 15 then
        .ret (0, some (bytes "Invalid numeric value provided '" ++ token ++
          bytes "': Value must be between 0 and 15 inclusive"))
      else .ret (r.1.toNat % 256, none)

/-- `compressData`: reading `d[0]` to `d[3]` panics on a shorter slice. -/
def compressData (d : List Nat) : Run (List Nat) :=
  match d[0]?, d[1]?, d[2]?, d[3]? with
  | some d0, some d1, some d2, some d3 =>
    .ret [(d0 &&& 0xF0) ||| (d1 &&& 0x0F), (((d2 &&& 0x0F) <<< 4) % 256) ||| (d3 &&& 0x0F)]
  | _, _, _, _ => .panic

/-- The three results of `Parser.Next`; the nil slice is `[]`, the nil error is
`none`. -/
structure NextResult where
  data : List Nat
  ok : Bool
  err : Option SyntaxError
  deriving DecidableEq, Repr

/-- The loop `for i, p := range params` of `Parser.Next`, from index `i` on:
the filled buffer `data`, or the syntax error of the first operand that fails. -/
def Parser.Next.loop (rt : GoRuntime) (currentLine : Nat) (tokens : List GoString) :
    List model.InstructionParamType → Nat → List Nat → Run (List Nat ⊕ SyntaxError)
  | [], _, data => .ret (.inl data)
  | p :: ps, i, data =>
    match tokens[i + 1]? with
    | none => .panic
    | some token =>
      match (if p = model.ParamRegister then .ret (parseRegister token)
             else parseNumeric rt token) with
      | .panic => .panic
      | .ret (_, some err) => .ret (.inr ⟨err, currentLine⟩)
      | .ret (tmp, none) =>
        if i + 1 < data.length then Parser.Next.loop rt currentLine tokens ps (i + 1)
          (data.set (i + 1) tmp)
        else .panic

/-- The part of `Parser.Next` after the blank-or-comment test, on the trimmed,
lower-cased `line`. -/
def Parser.Next.body (rt : GoRuntime) (currentLine : Nat) (line : GoString) : Run NextResult :=
  let tokens := Fields line
  match tokens[0]? with
  | none => .panic
  | some tok0 =>
    let v := model.Instruction.GetValue tok0
    if !v.2 then
      .ret ⟨[], true, some ⟨bytes "Invalid instruction provided '" ++ ToUpper rt tok0 ++
        bytes "'", currentLine⟩⟩
    else
      match model.Instruction.GetParams tok0 with
      | none =>
        .ret ⟨[], true, some ⟨bytes "Invalid instruction provided '" ++ ToUpper rt tok0 ++
          bytes "'", currentLine⟩⟩
      | some params =>
        if tokens.length - 1 ≠ params.length then
          .ret ⟨[], true, some ⟨bytes "Instruction '" ++ ToUpper rt tok0 ++ bytes "' expects " ++
            fmtInt params.length ++ bytes " parameters, " ++ fmtInt (tokens.length - 1) ++
            bytes " provided", currentLine⟩⟩
        else
          match Parser.Next.loop rt currentLine tokens params 0 [v.1, 0, 0, 0] with
          | .panic => .panic
          | .ret (.inr e) => .ret ⟨[], true, some e⟩
          | .ret (.inl data) =>
            match compressData data with
            | .panic => .panic
            | .ret w => .ret ⟨w, true, none⟩

/-- `Parser.Next` on the fields of the parser: the results and the parser
after the call.  When `Scan` returns `false`, at the end of the input or at a
line too long for the scanner, the results are `(nil, false, nil)`: the error of
the scanner is not read. -/
def Parser.Next.scan (rt : GoRuntime) : List GoString → Nat → Run NextResult × Parser
  | [], n => (.ret ⟨[], false, none⟩, ⟨[], n⟩)
  | text :: rest, n =>
    let line := ToLower rt (TrimSpace text)
    if line = [] ∨ line.head? = some commentLeadingChar then Parser.Next.scan rt rest (n + 1)
    else (Parser.Next.body rt (n + 1) line, ⟨rest, n + 1⟩)

/-- `(*Parser).Next`. -/
def Parser.Next (rt : GoRuntime) (me : Parser) : Run NextResult × Parser :=
  Parser.Next.scan rt me.reader me.currentLine

end asm

/-! ## The driver loop of `cmd/root.go` -/

namespace cmd

/-- A call the driver makes on the HEX `writer`. -/
inductive WriterCall where
  | Write (p : List Nat)
  | Close
  deriving DecidableEq, Repr

/-- How `runRootCommand` ends: it returns, `log.Fatal*` exits the process with
the given text, or a panic unwinds it. -/
inductive Exit where
  | returned
  | fatal (msg : GoString)
  | panicked
  deriving DecidableEq, Repr

/-- What a run of the driver does: its calls on `writer`, in order, and its
end. -/
structure RunResult where
  calls : List WriterCall
  exit : Exit
  deriving DecidableEq, Repr

/-- The loop `for d, ok, err := parser.Next(); ok; ...` of `runRootCommand`: the
buffer when `Next` reports the end of the input, or the text handed to
`log.Fatalln`.  The loop runs at most `fuel` calls of `Next`; `none` when that
is not enough. -/
def runRootCommand.loop (rt : GoRuntime) :
    Nat → asm.Parser → List Nat → Option (Run (List Nat ⊕ GoString))
  | 0, _, _ => none
  | fuel + 1, parser, buf =>
    match asm.Parser.Next rt parser with
    | (.panic, _) => some .panic
    | (.ret r, parser1) =>
      if !r.ok then some (.ret (.inl buf))
      else
        match r.err with
        | some e => some (.ret (.inr e.Error))
        | none => runRootCommand.loop rt fuel parser1 (buf ++ r.data)

/-- `runRootCommand` from `parser := asm.NewParser(inputReader)` on, for the
lines `input` of the reader; `writerWrite` is the error (`none` for nil) that
`writer.Write` of the HEX library returns.  `log.Fatal*` ends the process
without running the deferred `writer.Close()`; a panic runs it.  The loop ends
when `Next` returns `ok = false`, which is at the end of the input or at the
first line too long for the scanner; what is buffered by then is written. -/
def runRootCommand (rt : GoRuntime) (writerWrite : List Nat → Option GoString)
    (input : List GoString) : Option RunResult :=
  match runRootCommand.loop rt (input.length + 1) (asm.NewParser input) [] with
  | none => none
  | some .panic => some ⟨[.Close], .panicked⟩
  | some (.ret (.inr msg)) => some ⟨[], .fatal msg⟩
  | some (.ret (.inl buf)) =>
    match writerWrite buf with
    | some err =>
      some ⟨[.Write buf], .fatal (bytes "Error writing assembly binary file: " ++ err ++ [0x0A])⟩
    | none => some ⟨[.Write buf, .Close], .returned⟩

end cmd

/-! ## `csc364asm.go` -/

namespace main

/-- The Go map `RegisterMap`, as the list of its entries. -/
def RegisterMap : List (GoString × Nat) :=
  [(bytes "r0", 0x00), (bytes "r1", 0x01), (bytes "r2", 0x02), (bytes "r3", 0x03),
   (bytes "r4", 0x04), (bytes "r5", 0x05), (bytes "r6", 0x06), (bytes "r7", 0x07),
   (bytes "r8", 0x08), (bytes "r9", 0x09), (bytes "ra", 0x0A), (bytes "rb", 0x0B),
   (bytes "rc", 0x0C), (bytes "rd", 0x0D), (bytes "re", 0x0E), (bytes "rf", 0x0F),
   (bytes "in", 0x06), (bytes "out0", 0x0D), (bytes "out1", 0x0E), (bytes "pc", 0x0F),
   (bytes "r10", 0x0A), (bytes "r11", 0x0B), (bytes "r12", 0x0C), (bytes "r13", 0x0D),
   (bytes "r14", 0x0E), (bytes "r15", 0x0F)]

/-- The Go map `InstructionMap`, as the list of its entries. -/
def InstructionMap : List (GoString × Nat) :=
  [(bytes "mov", 0x00), (bytes "not", 0x10), (bytes "and", 0x20), (bytes "or", 0x30),
   (bytes "add", 0x40), (bytes "sub", 0x50), (bytes "addi", 0x60), (bytes "subi", 0x70),
   (bytes "set", 0x80), (bytes "seth", 0x90), (bytes "incz", 0xA0), (bytes "decn", 0xB0),
   (bytes "movz", 0xC0), (bytes "movx", 0xD0), (bytes "movp", 0xE0), (bytes "movn", 0xF0),
   (bytes "move", 0x00), (bytes "inciz", 0xA0), (bytes "decin", 0xB0), (bytes "movez", 0xC0),
   (bytes "movex", 0xD0), (bytes "movep", 0xE0), (bytes "moven", 0xF0)]

/-- The record types of the HEX library that the program names. -/
inductive RecordType where
  | RecordTypeData
  | RecordTypeEndOfFile
  deriving DecidableEq, Repr

/-- The struct `ihex.Record`, with the fields the program sets. -/
structure Record where
  RecordType : RecordType
  AddressOffset : Nat
  Data : List Nat
  deriving DecidableEq, Repr

/-- `parseRegister` of `csc364asm.go`: the byte and the error (`none` for nil). -/
def parseRegister (token : GoString) : Nat × Option GoString :=
  match RegisterMap.lookup token with
  | some val => (val, none)
  | none => (0, some (bytes "Unable to parse token: '" ++ token ++ bytes "' as register address"))

/-- `parseInstruction`: the opcode byte and the error. -/
def parseInstruction (token : GoString) : Nat × Option GoString :=
  match InstructionMap.lookup token with
  | some val => (val, none)
  | none => (0, some (bytes "Unable to parse token '" ++ token ++ bytes "' as instruction"))

/-- `parseHex`: the byte and the error; the error of `strconv.ParseInt` is kept
as its text. -/
def parseHex (rt : GoRuntime) (token : GoString) : Nat × Option GoString :=
  let r := ParseInt token 16 8
  match r.2 with
  | some err => (0, some (err.Error rt))
  | none =>
    if r.1 < 0 ∨ r.1 > 15 then
      (0, some (bytes "Invalid numeric value provided '" ++ token ++
        bytes "'. Must be between 0 and 15 inclusive"))
    else (r.1.toNat % 256, none)

/-- `parseDecimal`: the byte and the error. -/
def parseDecimal (rt : GoRuntime) (token : GoString) : Nat × Option GoString :=
  let r := ParseInt token 10 8
  match r.2 with
  | some err => (0, some (err.Error rt))
  | none =>
    if r.1 < 0 ∨ r.1 > 15 then
      (0, some (bytes "Invalid numeric value provided '" ++ token ++
        bytes "'. Must be between 0 and 15 inclusive"))
    else (r.1.toNat % 256, none)

/-- `parseValue`: the byte and the error.  The slices `token[0:2]` and
`token[2:]` are taken only when `len(token) > 2`, so they are within bounds. -/
def parseValue (rt : GoRuntime) (token : GoString) : Nat × Option GoString :=
  if token.length > 2 ∧ token.take 2 = bytes "0x" then
    let r := parseHex rt (token.drop 2)
    match r.2 with
    | some err => (r.1, some (bytes "Unable to parse token '" ++ token ++ bytes "': " ++ err))
    | none => (r.1, none)
  else
    let r := parseDecimal rt token
    match r.2 with
    | some err => (r.1, some (bytes "Unable to parse token '" ++ token ++ bytes "': " ++ err))
    | none => (r.1, none)

/-- `parseRegA`: the second argument of an instruction. -/
def parseRegA (rt : GoRuntime) (instruction : Nat) (token : GoString) : Nat × Option GoString :=
  if instruction = 0x80 ∨ instruction = 0x90 ∨ instruction = 0xA0 ∨ instruction = 0xB0 then
    parseValue rt token
  else parseRegister token

/-- `parseRegB`: the third argument of an instruction. -/
def parseRegB (rt : GoRuntime) (instruction : Nat) (token : GoString) : Nat × Option GoString :=
  if instruction = 0x60 ∨ instruction = 0x70 ∨ instruction = 0x80 ∨ instruction = 0x90 then
    parseValue rt token
  else parseRegister token

/-- The part of `parseLine` after the line is split, from the test of the
number of tokens on: the record (`none` for nil) and the error (`none` for nil);
an index out of the bounds of `tokens` would be a panic. -/
def parseLine.encode (rt : GoRuntime) (tokens : List GoString) (recordOffset : Nat) :
    Run (Option Record × Option GoString) :=
  if tokens.length < 3 ∨ tokens.length > 4 then
    .ret (none, some (bytes "Invalid number of tokens"))
  else
    match tokens[0]? with
    | none => .panic
    | some tok0 =>
      let i := parseInstruction tok0
      match i.2 with
      | some err => .ret (none, some err)
      | none =>
        if i.1 ≠ 0x00 ∧ i.1 ≠ 0x10 ∧ tokens.length < 4 then
          .ret (none, some (bytes "Not enough arguments provided for instruction"))
        else
          match tokens[1]? with
          | none => .panic
          | some tok1 =>
            let d := parseRegister tok1
            match d.2 with
            | some err => .ret (none, some err)
            | none =>
              match tokens[2]? with
              | none => .panic
              | some tok2 =>
                let a := parseRegA rt i.1 tok2
                match a.2 with
                | some err => .ret (none, some err)
                | none =>
                  if tokens.length > 3 then
                    match tokens[3]? with
                    | none => .panic
                    | some tok3 =>
                      let b := parseRegB rt i.1 tok3
                      match b.2 with
                      | some err => .ret (none, some err)
                      | none =>
                        .ret (some ⟨.RecordTypeData, recordOffset,
                          [i.1 ||| (d.1 &&& 0x0F),
                            ((a.1 <<< 4) % 256) ||| (b.1 &&& 0x0F)]⟩, none)
                  else
                    .ret (some ⟨.RecordTypeData, recordOffset,
                      [i.1 ||| (d.1 &&& 0x0F), ((a.1 <<< 4) % 256) ||| (0 &&& 0x0F)]⟩, none)

/-- `parseLine`: the record and the error, both `none` for a line that is
skipped. -/
def parseLine (rt : GoRuntime) (line : GoString) (recordOffset : Nat) :
    Run (Option Record × Option GoString) :=
  let line := TrimSpace line
  if line.length = 0 ∨ line.head? = some 0x23 then .ret (none, none)
  else parseLine.encode rt (Fields (ToLower rt line)) recordOffset

end main

/-! ## Definitions used to state and prove the claims -/

open model asm cmd

/-- A byte of a plain token: ASCII, not white space, not an upper-case letter. -/
def plainByte (b : Nat) : Bool := b < 0x80 && !IsSpace b && !(0x41 ≤ b && b ≤ 0x5A)

/-- A plain token: not empty, of plain bytes. -/
def plain (t : GoString) : Bool := t ≠ [] && t.all plainByte

/-- The line made of the given tokens with one space between them
(`strings.Join(tokens, " ")`). -/
def joinTokens : List GoString → GoString
  | [] => []
  | [t] => t
  | t :: u :: ts => t ++ 0x20 :: joinTokens (u :: ts)

/-- The test `line == "" || line[0] == commentLeadingChar` of `Parser.Next` on
the text of a line. -/
def skips (rt : GoRuntime) (text : GoString) : Prop :=
  ToLower rt (TrimSpace text) = [] ∨
    (ToLower rt (TrimSpace text)).head? = some commentLeadingChar

/-- The message of the arity error of `Parser.Next`. -/
def arityMessage (upper : GoString) (n k : Nat) : GoString :=
  bytes "Instruction '" ++ upper ++ bytes "' expects " ++ fmtInt n ++ bytes " parameters, " ++
    fmtInt k ++ bytes " provided"

/-- The operand token `t` at a schema position of kind `p` resolves to `r`. -/
def operandParses (rt : GoRuntime) (p : InstructionParamType) (t : GoString) (r : Nat) : Prop :=
  (p = ParamRegister ∧ parseRegister t = (r, none)) ∨
    (p ≠ ParamRegister ∧ parseNumeric rt t = .ret (r, none))

/-- The operand tokens `ts` resolve, position by position, to `rs`. -/
def operandsParse (rt : GoRuntime) :
    List InstructionParamType → List GoString → List Nat → Prop
  | [], [], [] => True
  | p :: ps, t :: ts, r :: rs => operandParses rt p t r ∧ operandsParse rt ps ts rs
  | _, _, _ => False

/-- The buffer `data` after the writes `data[j] = r`, `data[j+1] = ..` of `rs`. -/
def fill : List Nat → Nat → List Nat → List Nat
  | data, _, [] => data
  | data, j, r :: rs => fill (data.set j r) (j + 1) rs

/-- The ASCII upper-casing of a string of ASCII bytes. -/
def asciiUpper (s : GoString) : GoString :=
  s.map (fun b => if 0x61 ≤ b ∧ b ≤ 0x7A then b - 0x20 else b)

/-- The syntax error `e` with its line number replaced by `k`. -/
def atLine (k : Nat) (e : SyntaxError) : SyntaxError := ⟨e.Message, k⟩

/-- The result `r` of parsing a line, had the line counter been `k`. -/
def resultAtLine (k : Nat) : Run NextResult → Run NextResult
  | .panic => .panic
  | .ret r => .ret ⟨r.data, r.ok, r.err.map (atLine k)⟩

/-- The parser after `j` calls of `Next`. -/
def afterCalls (rt : GoRuntime) : Nat → Parser → Parser
  | 0, p => p
  | j + 1, p => (Parser.Next rt (afterCalls rt j p)).2

/-- A blank line or a comment line, in the words of the specification: the text
is empty once trimmed, or its first byte after the leading white space is `#`. -/
def blankOrComment (text : GoString) : Prop :=
  TrimSpace text = [] ∨ (TrimSpace text).head? = some commentLeadingChar

instance (text : GoString) : Decidable (blankOrComment text) := by
  unfold blankOrComment; exact inferInstance

instance (rt : GoRuntime) (text : GoString) : Decidable (skips rt text) := by
  unfold skips; exact inferInstance

/-- The word `Parser.Next` returns for the text `text` of a line, delivered on
its own, if it returns one. -/
def wordOf (rt : GoRuntime) (text : GoString) : Option (List Nat) :=
  match (Parser.Next rt ⟨[text], 0⟩).1 with
  | .ret r => if r.ok = true ∧ r.err = none then some r.data else none
  | .panic => none

/-- What the driver loop computes on the lines still to read, stated line by
line: a panic, the buffer at the end of the input, or the text of the first
syntax error. -/
def runLines (rt : GoRuntime) : List GoString → Nat → List Nat → Run (List Nat ⊕ GoString)
  | [], _, buf => .ret (.inl buf)
  | text :: rest, n, buf =>
    if skips rt text then runLines rt rest (n + 1) buf
    else
      match Parser.Next.body rt (n + 1) (ToLower rt (TrimSpace text)) with
      | .panic => .panic
      | .ret r =>
        match r.err with
        | some e => .ret (.inr e.Error)
        | none => runLines rt rest (n + 1) (buf ++ r.data)

/-- A line that is blank, a comment, or one for which `Parser.Next` returns a
word. -/
def goodLine (rt : GoRuntime) (text : GoString) : Prop :=
  blankOrComment text ∨ (wordOf rt text).isSome = true

/-- A text on which `Parser.Next`, when it is the only text delivered, neither
panics nor reports an error. -/
def encodes (rt : GoRuntime) (text : GoString) : Prop :=
  ∃ r, (Parser.Next rt ⟨[text], 0⟩).1 = .ret r ∧ r.err = none

/-- The lower-case hexadecimal digit of `r` (the table `lowerhex` of `strconv`). -/
def lowerhex (r : Nat) : Nat := (bytes "0123456789abcdef").getD r 0

/-- An operand token of kind `p` with value `r`, as C1 describes it: at a
Register position a register mnemonic resolving to `r`, at an Immediate position
`0x` followed by one or two lower-case hexadecimal digits of `r`, in 0..15. -/
def operandToken (p : InstructionParamType) (t : GoString) (r : Nat) : Prop :=
  (p = ParamRegister ∧ Register.GetValue t = (r, true)) ∨
    (p = ParamNumeric ∧ r < 16 ∧
      (t = bytes "0x" ++ [lowerhex r] ∨ t = bytes "0x" ++ [0x30, lowerhex r]))

/-- The operand tokens `ts` match the schema `s`, with the values `rs`. -/
def operandTokens : List InstructionParamType → List GoString → List Nat → Prop
  | [], [], [] => True
  | p :: ps, t :: ts, r :: rs => operandToken p t r ∧ operandTokens ps ts rs
  | _, _, _ => False

/-- An instruction line in the words of the specification, its immediates
written in hexadecimal: the white-space separated tokens of the trimmed,
lower-cased text are a mnemonic of the catalog followed by operand tokens that
match its schema (a register mnemonic at a Register position, `0x` and one or
two digits of a value in 0..15 at an Immediate position). -/
def instructionLine (rt : GoRuntime) (text : GoString) : Prop :=
  ∃ (m : GoString) (v : Nat) (s : List InstructionParamType) (ts : List GoString)
    (rs : List Nat), Fields (ToLower rt (TrimSpace text)) = m :: ts ∧
      Instruction.GetValue m = (v, true) ∧ Instruction.GetParams m = some s ∧
      operandTokens s ts rs

/-- A value of the runtime tables on which the definitions can be run; it agrees
with Go on ASCII text without quotes, backslashes or control bytes. -/
def asciiRuntime : GoRuntime := ⟨fun r => r, fun r => r, fun s => 0x22 :: s ++ [0x22]⟩

/-- The opcodes of a catalog, each once. -/
def opcodesOf (m : List (GoString × Nat)) : List Nat := (m.map Prod.snd).dedup

/-- The number of mnemonics of the catalog `m` with the opcode `v`. -/
def mnemonicCount (m : List (GoString × Nat)) (v : Nat) : Nat :=
  (m.filter (fun p => p.2 = v)).length

/-- The shape C12 gives to a catalog, with `k` aliased opcodes: sixteen distinct
opcodes, the values `0x0` to `0xF` in the high nibble over a zero low nibble,
each the opcode of one or two mnemonics, `k` of them of two (a canonical
mnemonic and an alias) and `16 - k` of one. -/
def catalogShape (m : List (GoString × Nat)) (k : Nat) : Prop :=
  (opcodesOf m).length = 16 ∧
  (∀ o < 16, (o <<< 4) ∈ opcodesOf m) ∧
  (∀ v ∈ opcodesOf m, v &&& 0x0F = 0 ∧ v < 256) ∧
  (∀ v ∈ opcodesOf m, mnemonicCount m v = 1 ∨ mnemonicCount m v = 2) ∧
  ((opcodesOf m).filter (fun v => mnemonicCount m v = 2)).length = k ∧
  ((opcodesOf m).filter (fun v => mnemonicCount m v = 1)).length = 16 - k

instance (m : List (GoString × Nat)) (k : Nat) : Decidable (catalogShape m k) := by
  unfold catalogShape; exact inferInstance

/-- The value of the digit byte `c` in `strconv.ParseUint`. -/
def digitOf (c : Nat) : Nat := if 0x30 ≤ c ∧ c ≤ 0x39 then c - 0x30 else lower c - 0x61 + 10

/-- The byte `c` is a digit of the base `base`: `0..9`, or a letter of either
case, with a value below the base. -/
def isDigitOf (base c : Nat) : Prop :=
  ((0x30 ≤ c ∧ c ≤ 0x39) ∨ (0x61 ≤ lower c ∧ lower c ≤ 0x7A)) ∧ digitOf c < base

instance (base c : Nat) : Decidable (isDigitOf base c) := by
  unfold isDigitOf; exact inferInstance

/-- The number a string of digits denotes in the base `base`, read after the
value `acc`. -/
def digitsValue (base : Nat) : Nat → GoString → Nat
  | acc, [] => acc
  | acc, c :: ds => digitsValue base (acc * base + digitOf c) ds

/-- The text of `n` in the base `base` (10 or 16), without sign or leading
zeros, in lower-case digits. -/
def natText (base n : Nat) : GoString := (Nat.toDigits base n).map Char.toNat

/-- The decimal text of the integer `n` (`strconv.Itoa`). -/
def intText (n : Int) : GoString :=
  if n < 0 then 0x2D :: natText 10 n.natAbs else natText 10 n.toNat

/-- The message of the range check of `parseHex` and `parseDecimal` on the text
`arg`. -/
def rangeMessage (arg : GoString) : GoString :=
  bytes "Invalid numeric value provided '" ++ arg ++
    bytes "'. Must be between 0 and 15 inclusive"

/-- The message `parseValue` makes of the message `msg` of a failure on `token`. -/
def wrapMessage (token msg : GoString) : GoString :=
  bytes "Unable to parse token '" ++ token ++ bytes "': " ++ msg

/-- The text `parseValue` hands to `parseHex` or `parseDecimal` for `token`. -/
def numericArg (token : GoString) : GoString :=
  if token.length > 2 ∧ token.take 2 = bytes "0x" then token.drop 2 else token

/-- `parseValue` fails on `token` through the range-check branch, with the
message that the value must be between 0 and 15 inclusive. -/
def failsRangeCheck (rt : GoRuntime) (token : GoString) : Prop :=
  main.parseValue rt token = (0, some (wrapMessage token (rangeMessage (numericArg token))))

instance (rt : GoRuntime) (token : GoString) : Decidable (failsRangeCheck rt token) := by
  unfold failsRangeCheck; exact inferInstance

/-- `parseValue` fails on `token` with the range error of `strconv.ParseInt`. -/
def failsStrconvRange (rt : GoRuntime) (token : GoString) : Prop :=
  main.parseValue rt token = (0, some (wrapMessage token
    (NumError.Error rt ⟨bytes "ParseInt", numericArg token, .ErrRange⟩)))

/-- The first byte of `s` and the continuation bytes right after it: the part
of `s` that `DecodeRune` reads. -/
def headCont : GoString → GoString
  | [] => []
  | s0 :: t => s0 :: t.takeWhile isCont

/-- The upper-case form of an ASCII letter; other bytes are unchanged. -/
def upperByte (b : Nat) : Nat := if 0x61 ≤ b ∧ b ≤ 0x7A then b - 0x20 else b

/-- The UTF-8 encoding of a sequence of runes. -/
def encodeRunes (rs : List Nat) : GoString := rs.flatMap encodeRune

/-- The ASCII white space of Go: tab, line feed, vertical tab, form feed,
carriage return and space. -/
def asciiSpace (b : Nat) : Bool :=
  b = 0x09 || b = 0x0A || b = 0x0B || b = 0x0C || b = 0x0D || b = 0x20

/-- White-space runes only (`unicode.IsSpace`), possibly none. -/
def spaceRunes (rs : List Nat) : Bool := rs.all IsSpace

/-- The runes of a run of white space between two texts of a line: at least
one rune, each of them white space, and white space still once `unicode.ToLower`
is applied to it (as every white-space rune is with the tables of Go, and every
ASCII white space with any tables). -/
def gapRunes (rt : GoRuntime) (rs : List Nat) : Bool :=
  !rs.isEmpty && rs.all (fun r => IsSpace r && IsSpace (toLowerRune rt r))

/-- The line that starts with the text `t0` and goes on with the pairs of `ps`,
each a run of white space followed by a text. -/
def layoutLine (t0 : GoString) : List (GoString × GoString) → GoString
  | [] => t0
  | p :: ps => t0 ++ p.1 ++ layoutLine p.2 ps

/-- The property of `unicode.ToLower` that the index `tokens[0]` of `Parser.Next`
relies on: the lower-case form of a rune is white space only when the rune is.
The case tables of Go have it (white space has no case, and no letter folds to
white space). -/
def keepsNonSpace (rt : GoRuntime) : Prop :=
  ∀ r : Nat, IsSpace (rt.unicodeToLower r) = true → IsSpace r = true

/-! ## Theorems -/

/-! ### The word encoder -/

theorem land_f0_shift (o : Nat) (h : o < 16) : (o <<< 4) &&& 0xF0 = o <<< 4 := by
  revert o; decide

theorem land_0f_nibble (a : Nat) (h : a < 16) : a &&& 0x0F = a := by
  revert a; decide

theorem nibble_shift_mod (x : Nat) : ((x &&& 0x0F) <<< 4) % 256 = (x &&& 0x0F) <<< 4 := by
  have h : x &&& 0x0F < 2 ^ 4 := Nat.and_lt_two_pow x (by norm_num)
  rw [Nat.shiftLeft_eq]
  apply Nat.mod_eq_of_lt
  norm_num at h ⊢
  omega

theorem nibble_shift_lt (x : Nat) : (x &&& 0x0F) <<< 4 < 2 ^ 8 := by
  have h : x &&& 0x0F < 2 ^ 4 := Nat.and_lt_two_pow x (by norm_num)
  rw [Nat.shiftLeft_eq]
  norm_num at h ⊢
  omega

theorem shift_nibble_low (b : Nat) (h : b < 16) : ((b <<< 4) ||| 0) &&& 0x0F = 0 := by
  revert b; decide

/-- C2: on a 4-byte slice `compressData` returns exactly two bytes,
`(d[0] AND 0xF0) OR (d[1] AND 0x0F)` and `((d[2] AND 0x0F) << 4) OR (d[3] AND 0x0F)`;
on `[o<<4, a, b, c]` with 4-bit `o, a, b, c` that is `[(o<<4)|a, (b<<4)|c]`, and
with a zero fourth byte the low nibble of the second byte is zero. -/
theorem compressData_layout (d0 d1 d2 d3 o a b c : Nat)
    (ho : o < 16) (ha : a < 16) (hb : b < 16) (hc : c < 16) :
    compressData [d0, d1, d2, d3] =
        .ret [(d0 &&& 0xF0) ||| (d1 &&& 0x0F), ((d2 &&& 0x0F) <<< 4) ||| (d3 &&& 0x0F)] ∧
      (d0 &&& 0xF0) ||| (d1 &&& 0x0F) < 256 ∧
      ((d2 &&& 0x0F) <<< 4) ||| (d3 &&& 0x0F) < 256 ∧
      compressData [o <<< 4, a, b, c] = .ret [(o <<< 4) ||| a, (b <<< 4) ||| c] ∧
      compressData [o <<< 4, a, b, 0] = .ret [(o <<< 4) ||| a, (b <<< 4) ||| 0] ∧
      ((b <<< 4) ||| 0) &&& 0x0F = 0 := by
  have key : ∀ x0 x1 x2 x3 : Nat, compressData [x0, x1, x2, x3] =
      .ret [(x0 &&& 0xF0) ||| (x1 &&& 0x0F), ((x2 &&& 0x0F) <<< 4) ||| (x3 &&& 0x0F)] := by
    intro x0 x1 x2 x3
    simp only [compressData, List.getElem?_cons_zero, List.getElem?_cons_succ, nibble_shift_mod]
  have h0 : (0 : Nat) &&& 0x0F = 0 := by decide
  have hb0 : (d0 &&& 0xF0) ||| (d1 &&& 0x0F) < 2 ^ 8 :=
    Nat.or_lt_two_pow (Nat.and_lt_two_pow d0 (by norm_num)) (Nat.and_lt_two_pow d1 (by norm_num))
  have hb1 : ((d2 &&& 0x0F) <<< 4) ||| (d3 &&& 0x0F) < 2 ^ 8 :=
    Nat.or_lt_two_pow (nibble_shift_lt d2) (Nat.and_lt_two_pow d3 (by norm_num))
  refine ⟨key _ _ _ _, hb0, hb1, ?_, ?_, shift_nibble_low b hb⟩
  · rw [key, land_f0_shift o ho, land_0f_nibble a ha, land_0f_nibble b hb, land_0f_nibble c hc]
  · rw [key, land_f0_shift o ho, land_0f_nibble a ha, land_0f_nibble b hb, h0]

/-- Witness of C2: the word of `add r2 r3 r4`. -/
theorem compressData_layout_witness :
    compressData [4 <<< 4, 2, 3, 4] = .ret [(4 <<< 4) ||| 2, (3 <<< 4) ||| 4] :=
  (compressData_layout 0 0 0 0 4 2 3 4 (by decide) (by decide) (by decide)
    (by decide)).2.2.2.1

/-! ### The catalogs -/

theorem lookup_none_of_not_mem {β : Type} (l : List (GoString × β)) (k : GoString)
    (h : k ∉ l.map Prod.fst) : l.lookup k = none := by
  rw [List.lookup_eq_none_iff]
  intro p hp
  simp only [bne_iff_ne, ne_eq]
  intro hk
  exact h (List.mem_map.mpr ⟨p, hp, hk.symm⟩)

/-- C10: `Instruction.GetParams` returns the schema of each opcode family and
nil for every string outside the 23 mnemonics. -/
theorem GetParams_schema :
    (∀ m ∈ [bytes "mov", bytes "move", bytes "not"],
      Instruction.GetParams m = some [ParamRegister, ParamRegister]) ∧
    (∀ m ∈ [bytes "and", bytes "or", bytes "add", bytes "sub", bytes "movz", bytes "movx",
        bytes "movp", bytes "movn", bytes "movez", bytes "movex", bytes "movep", bytes "moven"],
      Instruction.GetParams m = some [ParamRegister, ParamRegister, ParamRegister]) ∧
    (∀ m ∈ [bytes "addi", bytes "subi"],
      Instruction.GetParams m = some [ParamRegister, ParamRegister, ParamNumeric]) ∧
    (∀ m ∈ [bytes "set", bytes "seth"],
      Instruction.GetParams m = some [ParamRegister, ParamNumeric, ParamNumeric]) ∧
    (∀ m ∈ [bytes "incz", bytes "decn", bytes "inciz", bytes "decin"],
      Instruction.GetParams m = some [ParamRegister, ParamNumeric, ParamRegister]) ∧
    (∀ m : Instruction,
      m ∉ [bytes "mov", bytes "move", bytes "not", bytes "and", bytes "or", bytes "add",
        bytes "sub", bytes "movz", bytes "movx", bytes "movp", bytes "movn", bytes "movez",
        bytes "movex", bytes "movep", bytes "moven", bytes "addi", bytes "subi", bytes "set",
        bytes "seth", bytes "incz", bytes "decn", bytes "inciz", bytes "decin"] →
      Instruction.GetParams m = none) := by
  refine ⟨by decide, by decide, by decide, by decide, by decide, ?_⟩
  intro m hm
  have hnone : instructionParamMap.lookup m = none := by
    apply lookup_none_of_not_mem
    intro hmem
    apply hm
    have hperm : ∀ x, x ∈ instructionParamMap.map Prod.fst →
        x ∈ [bytes "mov", bytes "move", bytes "not", bytes "and", bytes "or", bytes "add",
        bytes "sub", bytes "movz", bytes "movx", bytes "movp", bytes "movn", bytes "movez",
        bytes "movex", bytes "movep", bytes "moven", bytes "addi", bytes "subi", bytes "set",
        bytes "seth", bytes "incz", bytes "decn", bytes "inciz", bytes "decin"] := by
      decide
    exact hperm m hmem
  simp only [Instruction.GetParams, hnone]

/-! ### Lines of plain tokens -/

theorem plainByte_lt {b : Nat} (h : plainByte b = true) : b < 0x80 := by
  simp only [plainByte, Bool.and_eq_true, decide_eq_true_eq] at h
  exact h.1.1

theorem plainByte_notSpace {b : Nat} (h : plainByte b = true) : IsSpace b = false := by
  simp only [plainByte, Bool.and_eq_true, Bool.not_eq_true'] at h
  exact h.1.2

theorem plainByte_notUpper {b : Nat} (h : plainByte b = true) : ¬ (0x41 ≤ b ∧ b ≤ 0x5A) := by
  simp only [plainByte, Bool.and_eq_true, Bool.not_eq_true', Bool.and_eq_false_imp,
    decide_eq_true_eq, decide_eq_false_iff_not] at h
  intro hc
  exact h.2 hc.1 hc.2

theorem DecodeRune_ascii (b : Nat) (s : GoString) (h : b < 0x80) :
    DecodeRune (b :: s) = (b, 1) := by
  simp only [DecodeRune, h, if_true]

theorem encodeRune_ascii (r : Nat) (h : r < 0x80) : encodeRune r = [r] := by
  simp only [encodeRune, h, if_true]

theorem spaceWidth_ascii (b : Nat) (s : GoString) (h : b < 0x80) :
    spaceWidth (b :: s) = if IsSpace b then 1 else 0 := by
  simp only [spaceWidth, DecodeRune_ascii b s h]

theorem spaceWidth_plain (b : Nat) (s : GoString) (h : plainByte b = true) :
    spaceWidth (b :: s) = 0 := by
  rw [spaceWidth_ascii b s (plainByte_lt h), plainByte_notSpace h]
  rfl

theorem spaceWidth_blank (s : GoString) : spaceWidth (0x20 :: s) = 1 := by
  rw [spaceWidth_ascii 0x20 s (by decide)]
  rfl

theorem Map_ascii_cons (f : Nat → Nat) (b : Nat) (s : GoString) (h : b < 0x80) :
    Map f 0 (b :: s) = encodeRune (f b) ++ Map f 0 s := by
  rw [Map, DecodeRune_ascii b s h]
  rfl

theorem ToLower_nil (rt : GoRuntime) : ToLower rt [] = [] := by
  simp only [ToLower, Map]

theorem toLowerRune_fixed (rt : GoRuntime) (b : Nat) (h : b < 0x80)
    (hu : ¬ (0x41 ≤ b ∧ b ≤ 0x5A)) : toLowerRune rt b = b := by
  simp only [toLowerRune, h, hu, if_true, if_false]

theorem ToLower_cons_fixed (rt : GoRuntime) (b : Nat) (s : GoString) (h : b < 0x80)
    (hu : ¬ (0x41 ≤ b ∧ b ≤ 0x5A)) : ToLower rt (b :: s) = b :: ToLower rt s := by
  simp only [ToLower]
  rw [Map_ascii_cons _ b s h, toLowerRune_fixed rt b h hu, encodeRune_ascii b h]
  rfl

theorem ToLower_fixed (rt : GoRuntime) (s : GoString)
    (h : ∀ b ∈ s, b < 0x80 ∧ ¬ (0x41 ≤ b ∧ b ≤ 0x5A)) : ToLower rt s = s := by
  induction s with
  | nil => exact ToLower_nil rt
  | cons b s ih =>
    rw [ToLower_cons_fixed rt b s (h b (List.mem_cons_self b s)).1
      (h b (List.mem_cons_self b s)).2, ih (fun c hc => h c (List.mem_cons_of_mem b hc))]

theorem trimLeft_plain (b : Nat) (s : GoString) (h : plainByte b = true) :
    trimLeft 0 (b :: s) = b :: s := by
  rw [trimLeft]
  simp only [spaceWidth_plain b s h, if_true]

theorem DecodeLastRune_ascii (s : GoString) (b : Nat) (h : b < 0x80) :
    DecodeLastRune (s ++ [b]) = (b, 1) := by
  have hget : (s ++ [b]).getD ((s ++ [b]).length - 1) 0 = b := by
    simp [List.getD_eq_getElem?_getD]
  simp only [DecodeLastRune, hget, RuneSelf, h, if_true]
  simp

theorem trimRight_plain (fuel : Nat) (s : GoString) (b : Nat) (h : plainByte b = true) :
    trimRight fuel (s ++ [b]) = s ++ [b] := by
  cases fuel with
  | zero => rfl
  | succ k =>
    rw [trimRight]
    simp only [DecodeLastRune_ascii s b (plainByte_lt h), plainByte_notSpace h]
    simp

theorem plain_ne_nil {t : GoString} (h : plain t = true) : t ≠ [] := by
  simp only [plain, Bool.and_eq_true, decide_eq_true_eq] at h
  exact h.1

theorem plain_bytes {t : GoString} (h : plain t = true) : ∀ b ∈ t, plainByte b = true := by
  simp only [plain, Bool.and_eq_true, List.all_eq_true] at h
  exact h.2

theorem fieldsLoop_plain (t : GoString) (ht : ∀ b ∈ t, plainByte b = true) :
    ∀ (cur s : GoString), fieldsLoop 0 cur (t ++ s) = fieldsLoop 0 (cur ++ t) s := by
  induction t with
  | nil => intro cur s; simp
  | cons b t ih =>
    intro cur s
    have hb : plainByte b = true := ht b (List.mem_cons_self b t)
    rw [List.cons_append, fieldsLoop]
    simp only [spaceWidth_plain b (t ++ s) hb, if_true]
    rw [ih (fun c hc => ht c (List.mem_cons_of_mem b hc)) (cur ++ [b]) s]
    simp

theorem fieldsLoop_blank (cur s : GoString) (hc : cur ≠ []) :
    fieldsLoop 0 cur (0x20 :: s) = cur :: fieldsLoop 0 [] s := by
  rw [fieldsLoop]
  simp only [spaceWidth_blank, hc, if_false]
  simp

theorem fieldsLoop_end (cur : GoString) (hc : cur ≠ []) : fieldsLoop 0 cur [] = [cur] := by
  rw [fieldsLoop]
  simp only [hc, if_false]

theorem Fields_joinTokens (toks : List GoString) (h : ∀ t ∈ toks, plain t = true) :
    Fields (joinTokens toks) = toks := by
  unfold Fields
  induction toks with
  | nil => rfl
  | cons t ts ih =>
    have ht : plain t = true := h t (List.mem_cons_self t ts)
    cases ts with
    | nil =>
      have h1 := fieldsLoop_plain t (plain_bytes ht) [] []
      simp only [List.append_nil, List.nil_append] at h1
      rw [joinTokens, h1, fieldsLoop_end t (plain_ne_nil ht)]
    | cons u us =>
      have h1 := fieldsLoop_plain t (plain_bytes ht) [] (0x20 :: joinTokens (u :: us))
      simp only [List.nil_append] at h1
      rw [joinTokens, h1, fieldsLoop_blank t _ (plain_ne_nil ht),
        ih (fun x hx => h x (List.mem_cons_of_mem t hx))]

theorem mem_joinTokens (toks : List GoString) (b : Nat) (hb : b ∈ joinTokens toks) :
    b = 0x20 ∨ ∃ t ∈ toks, b ∈ t := by
  induction toks with
  | nil => simp [joinTokens] at hb
  | cons t ts ih =>
    cases ts with
    | nil =>
      right
      exact ⟨t, List.mem_cons_self t [], by simpa [joinTokens] using hb⟩
    | cons u us =>
      rw [joinTokens, List.mem_append, List.mem_cons] at hb
      rcases hb with hb | hb | hb
      · right; exact ⟨t, List.mem_cons_self _ _, hb⟩
      · left; exact hb
      · rcases ih hb with h1 | ⟨x, hx, hbx⟩
        · left; exact h1
        · right; exact ⟨x, List.mem_cons_of_mem t hx, hbx⟩

theorem joinTokens_last (toks : List GoString) (hne : toks ≠ [])
    (h : ∀ t ∈ toks, plain t = true) :
    ∃ pre c, joinTokens toks = pre ++ [c] ∧ plainByte c = true := by
  induction toks with
  | nil => exact absurd rfl hne
  | cons t ts ih =>
    have ht : plain t = true := h t (List.mem_cons_self t ts)
    cases ts with
    | nil =>
      refine ⟨t.dropLast, t.getLast (plain_ne_nil ht), ?_, ?_⟩
      · rw [joinTokens, List.dropLast_append_getLast]
      · exact plain_bytes ht _ (List.getLast_mem _)
    | cons u us =>
      obtain ⟨pre, c, hj, hc⟩ := ih (List.cons_ne_nil u us)
        (fun x hx => h x (List.mem_cons_of_mem t hx))
      refine ⟨t ++ 0x20 :: pre, c, ?_, hc⟩
      rw [joinTokens, hj]
      simp

theorem joinTokens_head (t : GoString) (ts : List GoString) (b : Nat) (t1 : GoString)
    (ht : t = b :: t1) : ∃ s, joinTokens (t :: ts) = b :: s := by
  cases ts with
  | nil => exact ⟨t1, by rw [joinTokens, ht]⟩
  | cons u us => exact ⟨t1 ++ 0x20 :: joinTokens (u :: us), by rw [joinTokens, ht]; rfl⟩

theorem TrimSpace_joinTokens (toks : List GoString) (h : ∀ t ∈ toks, plain t = true) :
    TrimSpace (joinTokens toks) = joinTokens toks := by
  cases toks with
  | nil => rfl
  | cons t ts =>
    have ht : plain t = true := h t (List.mem_cons_self t ts)
    obtain ⟨b, t1, hbt⟩ := List.exists_cons_of_ne_nil (plain_ne_nil ht)
    obtain ⟨s, hs⟩ := joinTokens_head t ts b t1 hbt
    have hb : plainByte b = true := plain_bytes ht b (by rw [hbt]; exact List.mem_cons_self b t1)
    obtain ⟨pre, c, hj, hc⟩ := joinTokens_last (t :: ts) (List.cons_ne_nil t ts) h
    have hl : trimLeft 0 (joinTokens (t :: ts)) = joinTokens (t :: ts) := by
      rw [hs, trimLeft_plain b s hb]
    simp only [TrimSpace, hl]
    rw [hj, trimRight_plain _ pre c hc]

theorem ToLower_joinTokens (rt : GoRuntime) (toks : List GoString)
    (h : ∀ t ∈ toks, plain t = true) : ToLower rt (joinTokens toks) = joinTokens toks := by
  apply ToLower_fixed
  intro b hb
  rcases mem_joinTokens toks b hb with h1 | ⟨t, ht, hbt⟩
  · subst h1; decide
  · have hp := plain_bytes (h t ht) b hbt
    exact ⟨plainByte_lt hp, plainByte_notUpper hp⟩

/-- The trimmed, lower-cased text of a line of plain tokens is the line itself,
and its fields are the tokens. -/
theorem line_joinTokens (rt : GoRuntime) (toks : List GoString)
    (h : ∀ t ∈ toks, plain t = true) :
    ToLower rt (TrimSpace (joinTokens toks)) = joinTokens toks ∧
      Fields (ToLower rt (TrimSpace (joinTokens toks))) = toks := by
  rw [TrimSpace_joinTokens toks h, ToLower_joinTokens rt toks h]
  exact ⟨rfl, Fields_joinTokens toks h⟩

/-! ### One call of `Parser.Next` -/

theorem Next_skip (rt : GoRuntime) (text : GoString) (rest : List GoString) (n : Nat)
    (h : skips rt text) :
    Parser.Next rt ⟨text :: rest, n⟩ = Parser.Next rt ⟨rest, n + 1⟩ := by
  unfold skips at h
  simp only [Parser.Next, Parser.Next.scan, h, if_true]

theorem Next_body (rt : GoRuntime) (text : GoString) (rest : List GoString) (n : Nat)
    (h : ¬ skips rt text) :
    Parser.Next rt ⟨text :: rest, n⟩ =
      (Parser.Next.body rt (n + 1) (ToLower rt (TrimSpace text)), ⟨rest, n + 1⟩) := by
  unfold skips at h
  simp only [Parser.Next, Parser.Next.scan, h, if_false]

theorem Next_end (rt : GoRuntime) (n : Nat) :
    Parser.Next rt ⟨[], n⟩ = (.ret ⟨[], false, none⟩, ⟨[], n⟩) := rfl

theorem body_arity (rt : GoRuntime) (k : Nat) (line m : GoString) (ops : List GoString)
    (v : Nat) (s : List InstructionParamType) (ht : Fields line = m :: ops)
    (hv : Instruction.GetValue m = (v, true)) (hs : Instruction.GetParams m = some s)
    (hk : ops.length ≠ s.length) :
    Parser.Next.body rt k line =
      .ret ⟨[], true, some ⟨arityMessage (ToUpper rt m) s.length ops.length, k⟩⟩ := by
  simp [Parser.Next.body, ht, hv, hs, hk, arityMessage]

theorem body_operands (rt : GoRuntime) (k : Nat) (line m : GoString) (ops : List GoString)
    (v : Nat) (s : List InstructionParamType) (ht : Fields line = m :: ops)
    (hv : Instruction.GetValue m = (v, true)) (hs : Instruction.GetParams m = some s)
    (hk : ops.length = s.length) :
    Parser.Next.body rt k line =
      match Parser.Next.loop rt k (m :: ops) s 0 [v, 0, 0, 0] with
      | .panic => .panic
      | .ret (.inr e) => .ret ⟨[], true, some e⟩
      | .ret (.inl data) =>
        match compressData data with
        | .panic => .panic
        | .ret w => .ret ⟨w, true, none⟩ := by
  simp [Parser.Next.body, ht, hv, hs, hk]

theorem loop_fill (rt : GoRuntime) (k : Nat) (tokens : List GoString) :
    ∀ (ps : List InstructionParamType) (ts : List GoString) (rs : List Nat) (i : Nat)
      (data : List Nat), operandsParse rt ps ts rs → tokens.drop (i + 1) = ts →
      i + ps.length < data.length →
      Parser.Next.loop rt k tokens ps i data = .ret (.inl (fill data (i + 1) rs)) := by
  intro ps
  induction ps with
  | nil =>
    intro ts rs i data h _ _
    cases ts <;> cases rs <;> simp [operandsParse] at h
    simp [Parser.Next.loop, fill]
  | cons p ps ih =>
    intro ts rs i data h hd hlen
    cases ts with
    | nil => cases rs <;> simp [operandsParse] at h
    | cons t ts =>
      cases rs with
      | nil => simp [operandsParse] at h
      | cons r rs =>
        simp only [operandsParse] at h
        obtain ⟨h1, h2⟩ := h
        have htok : tokens[i + 1]? = some t := by
          have := congrArg List.head? hd
          simpa [List.head?_drop] using this
        have hd2 : tokens.drop (i + 1 + 1) = ts := by
          have := congrArg List.tail hd
          simpa [List.tail_drop] using this
        have hlen1 : i + 1 < data.length := by
          simp only [List.length_cons] at hlen; omega
        have hlen2 : i + 1 + ps.length < (data.set (i + 1) r).length := by
          simp only [List.length_cons, List.length_set] at hlen ⊢; omega
        have hrec := ih ts rs (i + 1) (data.set (i + 1) r) h2 hd2 hlen2
        rw [Parser.Next.loop]
        simp only [htok]
        rcases h1 with ⟨hp, hr⟩ | ⟨hp, hr⟩
        · simp only [hp, if_true, hr, hlen1, hrec, fill]
        · simp only [hp, if_false, hr, hlen1, if_true, hrec, fill]

/-! ### Facts of the catalogs -/

theorem lookup_mem {β : Type} (l : List (GoString × β)) (k : GoString) (v : β)
    (h : l.lookup k = some v) : (k, v) ∈ l := by
  obtain ⟨l1, l2, rfl, _⟩ := List.lookup_eq_some_iff.mp h
  simp

theorem GetValue_mem (m : Instruction) (v : Nat) (h : Instruction.GetValue m = (v, true)) :
    (m, v) ∈ instructionMap := by
  unfold Instruction.GetValue at h
  cases hl : instructionMap.lookup m with
  | none => rw [hl] at h; simp at h
  | some w =>
    rw [hl] at h
    simp only [Prod.mk.injEq, and_true] at h
    subst h
    exact lookup_mem _ _ _ hl

theorem GetParams_mem (m : Instruction) (s : List InstructionParamType)
    (h : Instruction.GetParams m = some s) : (m, s) ∈ instructionParamMap := by
  unfold Instruction.GetParams at h
  cases hl : instructionParamMap.lookup m with
  | none => rw [hl] at h; simp at h
  | some w =>
    rw [hl] at h
    simp only [Option.some.injEq] at h
    subst h
    exact lookup_mem _ _ _ hl

theorem Register_mem (t : Register) (r : Nat) (h : Register.GetValue t = (r, true)) :
    (t, r) ∈ registerMap := by
  unfold Register.GetValue at h
  cases hl : registerMap.lookup t with
  | none => rw [hl] at h; simp at h
  | some w =>
    rw [hl] at h
    simp only [Prod.mk.injEq, and_true] at h
    subst h
    exact lookup_mem _ _ _ hl

theorem instructionMap_facts : ∀ p ∈ instructionMap,
    plain p.1 = true ∧ p.1.head? ≠ some commentLeadingChar ∧ p.2 &&& 0xF0 = p.2 := by
  decide

theorem instructionParamMap_facts : ∀ p ∈ instructionParamMap,
    (p.2.length = 2 ∨ p.2.length = 3) ∧
      ∀ x ∈ p.2, x = ParamRegister ∨ x = ParamNumeric := by
  decide

theorem registerMap_facts : ∀ p ∈ registerMap, plain p.1 = true ∧ p.2 < 16 := by
  decide

theorem ToUpper_ascii (rt : GoRuntime) (s : GoString) (h : ∀ b ∈ s, b < 0x80) :
    ToUpper rt s = asciiUpper s := by
  induction s with
  | nil => simp [ToUpper, Map, asciiUpper]
  | cons b s ih =>
    have hb : b < 0x80 := h b (List.mem_cons_self b s)
    have ih1 := ih (fun c hc => h c (List.mem_cons_of_mem b hc))
    simp only [ToUpper] at ih1 ⊢
    rw [Map_ascii_cons _ b s hb, ih1]
    have hu : toUpperRune rt b = if 0x61 ≤ b ∧ b ≤ 0x7A then b - 0x20 else b := by
      simp only [toUpperRune, hb, if_true]
    have hlt : (if 0x61 ≤ b ∧ b ≤ 0x7A then b - 0x20 else b) < 0x80 := by
      split <;> omega
    rw [hu, encodeRune_ascii _ hlt]
    simp [asciiUpper]

theorem plain_ascii {t : GoString} (h : plain t = true) : ∀ b ∈ t, b < 0x80 :=
  fun b hb => plainByte_lt (plain_bytes h b hb)

/-! ### The word of a line of plain tokens -/

theorem operandsParse_length (rt : GoRuntime) :
    ∀ (ps : List InstructionParamType) (ts : List GoString) (rs : List Nat),
      operandsParse rt ps ts rs → ts.length = ps.length ∧ rs.length = ps.length := by
  intro ps
  induction ps with
  | nil =>
    intro ts rs h
    cases ts <;> cases rs <;> simp [operandsParse] at h
    simp
  | cons p ps ih =>
    intro ts rs h
    cases ts with
    | nil => cases rs <;> simp [operandsParse] at h
    | cons t ts =>
      cases rs with
      | nil => simp [operandsParse] at h
      | cons r rs =>
        simp only [operandsParse] at h
        have := ih ts rs h.2
        simp [this.1, this.2]

theorem not_skips_joinTokens (rt : GoRuntime) (m : GoString) (ts : List GoString)
    (hm : plain m = true) (hc : m.head? ≠ some commentLeadingChar)
    (hts : ∀ t ∈ ts, plain t = true) : ¬ skips rt (joinTokens (m :: ts)) := by
  have hall : ∀ t ∈ m :: ts, plain t = true := by
    intro t ht
    rcases List.mem_cons.mp ht with h | h
    · rw [h]; exact hm
    · exact hts t h
  obtain ⟨b, m1, hbm⟩ := List.exists_cons_of_ne_nil (plain_ne_nil hm)
  obtain ⟨s, hs⟩ := joinTokens_head m ts b m1 hbm
  unfold skips
  rw [(line_joinTokens rt (m :: ts) hall).1, hs]
  rw [hbm] at hc
  simpa using hc

/-- A line of plain tokens whose mnemonic is in the catalog and whose operand
tokens resolve to 4-bit values is encoded as the word of the bit layout. -/
theorem Next_word (rt : GoRuntime) (m : GoString) (ts : List GoString) (rs : List Nat)
    (v : Nat) (s : List InstructionParamType) (rest : List GoString) (n : Nat)
    (hv : Instruction.GetValue m = (v, true)) (hs : Instruction.GetParams m = some s)
    (hts : ∀ t ∈ ts, plain t = true) (hp : operandsParse rt s ts rs)
    (hr : ∀ r ∈ rs, r < 16) :
    Parser.Next rt ⟨joinTokens (m :: ts) :: rest, n⟩ =
      (.ret ⟨[v ||| rs.getD 0 0, (rs.getD 1 0 <<< 4) ||| rs.getD 2 0], true, none⟩,
        ⟨rest, n + 1⟩) := by
  obtain ⟨hm, hc, hv0⟩ := instructionMap_facts _ (GetValue_mem m v hv)
  simp only at hm hc hv0
  obtain ⟨hlen, _⟩ := instructionParamMap_facts _ (GetParams_mem m s hs)
  simp only at hlen
  have hall : ∀ t ∈ m :: ts, plain t = true := by
    intro t ht
    rcases List.mem_cons.mp ht with h | h
    · rw [h]; exact hm
    · exact hts t h
  obtain ⟨hl1, hl2⟩ := operandsParse_length rt s ts rs hp
  rw [Next_body rt _ rest n (not_skips_joinTokens rt m ts hm hc hts)]
  rw [body_operands rt (n + 1) _ m ts v s (line_joinTokens rt (m :: ts) hall).2 hv hs hl1]
  rw [loop_fill rt (n + 1) (m :: ts) s ts rs 0 [v, 0, 0, 0] hp (by simp)
    (by simp only [List.length_cons, List.length_nil]; omega)]
  have hsl : ∀ x : Nat, x < 16 → x <<< 4 < 256 := by decide
  rcases hlen with h2 | h3
  · match rs, hl2, hr with
    | [r1, r2], _, hr =>
      have hr1 := land_0f_nibble r1 (hr r1 (by simp))
      have hr2 := land_0f_nibble r2 (hr r2 (by simp))
      have hs2 := hsl r2 (hr r2 (by simp))
      simp [fill, compressData, hv0, hr1, hr2, hs2, Nat.mod_eq_of_lt hs2]
    | [], h, _ => simp [h2] at h
    | [_], h, _ => simp [h2] at h
    | _ :: _ :: _ :: _, h, _ => simp [h2] at h
  · match rs, hl2, hr with
    | [r1, r2, r3], _, hr =>
      have hr1 := land_0f_nibble r1 (hr r1 (by simp))
      have hr2 := land_0f_nibble r2 (hr r2 (by simp))
      have hr3 := land_0f_nibble r3 (hr r3 (by simp))
      have hs2 := hsl r2 (hr r2 (by simp))
      simp [fill, compressData, hv0, hr1, hr2, hr3, hs2, Nat.mod_eq_of_lt hs2]
    | [], h, _ => simp [h3] at h
    | [_], h, _ => simp [h3] at h
    | [_, _], h, _ => simp [h3] at h
    | _ :: _ :: _ :: _ :: _, h, _ => simp [h3] at h

/-! ### The line number in the results of `Parser.Next` -/

theorem loop_atLine (rt : GoRuntime) (k k1 : Nat) (tokens : List GoString) :
    ∀ (ps : List InstructionParamType) (i : Nat) (data : List Nat),
      Parser.Next.loop rt k1 tokens ps i data =
        match Parser.Next.loop rt k tokens ps i data with
        | .panic => .panic
        | .ret (.inl d) => .ret (.inl d)
        | .ret (.inr e) => .ret (.inr (atLine k1 e)) := by
  intro ps
  induction ps with
  | nil => intro i data; simp [Parser.Next.loop]
  | cons p ps ih =>
    intro i data
    rw [Parser.Next.loop, Parser.Next.loop]
    cases tokens[i + 1]? with
    | none => rfl
    | some token =>
      simp only
      cases (if p = ParamRegister then Run.ret (parseRegister token)
          else parseNumeric rt token) with
      | panic => rfl
      | ret x =>
        obtain ⟨tmp, err⟩ := x
        cases err with
        | some msg => rfl
        | none =>
          simp only
          by_cases hlen : i + 1 < data.length
          · simp only [hlen, if_true]
            exact ih (i + 1) (data.set (i + 1) tmp)
          · simp only [hlen, if_false]

theorem body_atLine (rt : GoRuntime) (k k1 : Nat) (line : GoString) :
    Parser.Next.body rt k1 line = resultAtLine k1 (Parser.Next.body rt k line) := by
  simp only [Parser.Next.body]
  generalize Fields line = tokens
  cases tokens with
  | nil => rfl
  | cons tok0 ops =>
    simp only [List.getElem?_cons_zero]
    by_cases hv : (Instruction.GetValue tok0).2 = true
    · simp only [hv, Bool.not_true, Bool.false_eq_true, if_false]
      cases Instruction.GetParams tok0 with
      | none => rfl
      | some params =>
        simp only
        by_cases hk : (tok0 :: ops).length - 1 ≠ params.length
        · simp only [hk, if_true, ne_eq, not_false_eq_true]
          rfl
        · simp only [hk, if_false]
          rw [loop_atLine rt k k1]
          cases Parser.Next.loop rt k (tok0 :: ops) params 0
              [(Instruction.GetValue tok0).1, 0, 0, 0] with
          | panic => rfl
          | ret x =>
            cases x with
            | inr e => rfl
            | inl data =>
              simp only
              cases compressData data with
              | panic => rfl
              | ret w => rfl
    · simp only [hv, Bool.not_false, if_true]
      rfl

theorem loop_error_line (rt : GoRuntime) (k : Nat) (tokens : List GoString) :
    ∀ (ps : List InstructionParamType) (i : Nat) (data : List Nat) (e : SyntaxError),
      Parser.Next.loop rt k tokens ps i data = .ret (.inr e) → e.LineNumber = k := by
  intro ps i data e h
  have h1 := loop_atLine rt k k tokens ps i data
  rw [h] at h1
  simp only [Run.ret.injEq, Sum.inr.injEq] at h1
  rw [h1]
  rfl

theorem compressData_length (d w : List Nat) (h : compressData d = .ret w) : w.length = 2 := by
  unfold compressData at h
  split at h
  · simp only [Run.ret.injEq] at h; rw [← h]; rfl
  · exact absurd h (by simp)

/-- The three shapes of the result of parsing a line: a panic, a syntax error and
no word, or a word of two bytes and no error. -/
theorem body_cases (rt : GoRuntime) (k : Nat) (line : GoString) :
    Parser.Next.body rt k line = .panic ∨
      (∃ e, Parser.Next.body rt k line = .ret ⟨[], true, some e⟩) ∨
      (∃ w, w.length = 2 ∧ Parser.Next.body rt k line = .ret ⟨w, true, none⟩) := by
  simp only [Parser.Next.body]
  generalize Fields line = tokens
  cases tokens with
  | nil => left; rfl
  | cons tok0 ops =>
    simp only [List.getElem?_cons_zero]
    by_cases hv : (Instruction.GetValue tok0).2 = true
    · simp only [hv, Bool.not_true, Bool.false_eq_true, if_false]
      cases Instruction.GetParams tok0 with
      | none => right; left; exact ⟨_, rfl⟩
      | some params =>
        simp only
        by_cases hk : (tok0 :: ops).length - 1 ≠ params.length
        · simp only [hk, if_true, ne_eq, not_false_eq_true]
          right; left; exact ⟨_, rfl⟩
        · simp only [hk, if_false]
          cases Parser.Next.loop rt k (tok0 :: ops) params 0
              [(Instruction.GetValue tok0).1, 0, 0, 0] with
          | panic => left; rfl
          | ret x =>
            cases x with
            | inr e => right; left; exact ⟨_, rfl⟩
            | inl data =>
              simp only
              cases hc : compressData data with
              | panic => left; rfl
              | ret w => right; right; exact ⟨w, compressData_length _ _ hc, rfl⟩
    · simp only [hv, Bool.not_false, if_true]
      right; left; exact ⟨_, rfl⟩

theorem body_ok (rt : GoRuntime) (k : Nat) (line : GoString) (r : NextResult)
    (h : Parser.Next.body rt k line = .ret r) : r.ok = true := by
  rcases body_cases rt k line with h1 | ⟨e, h1⟩ | ⟨w, _, h1⟩
  · rw [h1] at h; exact absurd h (by simp)
  · rw [h1] at h; simp only [Run.ret.injEq] at h; rw [← h]
  · rw [h1] at h; simp only [Run.ret.injEq] at h; rw [← h]

theorem body_word_length (rt : GoRuntime) (k : Nat) (line : GoString) (w : List Nat)
    (h : Parser.Next.body rt k line = .ret ⟨w, true, none⟩) : w.length = 2 := by
  rcases body_cases rt k line with h1 | ⟨e, h1⟩ | ⟨w1, hw, h1⟩
  · rw [h1] at h; exact absurd h (by simp)
  · rw [h1] at h; simp at h
  · rw [h1] at h
    simp only [Run.ret.injEq, NextResult.mk.injEq, and_true] at h
    rw [← h]; exact hw

theorem body_error_line (rt : GoRuntime) (k : Nat) (line : GoString) (r : NextResult)
    (e : SyntaxError) (h : Parser.Next.body rt k line = .ret r) (he : r.err = some e) :
    e.LineNumber = k := by
  have h1 := body_atLine rt k k line
  rw [h] at h1
  simp only [resultAtLine, Run.ret.injEq] at h1
  have h2 := congrArg NextResult.err h1
  simp only [he, Option.map_some'] at h2
  have h3 := congrArg SyntaxError.LineNumber (Option.some.inj h2)
  exact h3

/-! ### The texts the scanner delivers -/

theorem dropCR_nil : dropCR [] = [] := rfl

theorem dropCR_concat (pre : GoString) (c : Nat) :
    dropCR (pre ++ [c]) = if c = 0x0D then pre else pre ++ [c] := by
  unfold dropCR
  rw [List.getLast?_append_of_ne_nil _ (List.cons_ne_nil c []), List.getLast?_singleton,
    List.dropLast_concat]
  simp only [Option.some.injEq]

theorem dropCR_cases (t : GoString) : dropCR t = t ∨ t = dropCR t ++ [0x0D] := by
  rcases List.eq_nil_or_concat t with h | ⟨pre, c, h⟩
  · left; rw [h]; rfl
  · rw [h, List.concat_eq_append, dropCR_concat]
    by_cases hc : c = 0x0D
    · right; rw [if_pos hc, hc]
    · left; rw [if_neg hc]

theorem NewScanner_nil : NewScanner [] = [] := rfl

theorem NewScanner_short (t : GoString) (rest : List GoString)
    (h : t.length < MaxScanTokenSize) : NewScanner (t :: rest) = dropCR t :: NewScanner rest := by
  simp [NewScanner, List.takeWhile_cons, h]

theorem NewScanner_long (t : GoString) (rest : List GoString)
    (h : MaxScanTokenSize ≤ t.length) : NewScanner (t :: rest) = [] := by
  simp [NewScanner, List.takeWhile_cons, Nat.not_lt.mpr h]

theorem NewScanner_all_short (input : List GoString)
    (h : ∀ t ∈ input, t.length < MaxScanTokenSize) : NewScanner input = input.map dropCR := by
  induction input with
  | nil => rfl
  | cons t rest ih =>
    rw [NewScanner_short t rest (h t (List.mem_cons_self t rest)),
      ih (fun x hx => h x (List.mem_cons_of_mem t hx))]
    rfl

theorem NewScanner_length (input : List GoString) :
    (NewScanner input).length ≤ input.length := by
  induction input with
  | nil => simp [NewScanner_nil]
  | cons t rest ih =>
    by_cases h : t.length < MaxScanTokenSize
    · rw [NewScanner_short t rest h]
      simp only [List.length_cons]
      omega
    · rw [NewScanner_long t rest (Nat.not_lt.mp h)]
      simp

theorem NewScanner_drop : ∀ (input : List GoString) (k : Nat), k ≤ (NewScanner input).length →
    (NewScanner input).drop k = NewScanner (input.drop k) := by
  intro input
  induction input with
  | nil => intro k _; simp [NewScanner_nil]
  | cons t rest ih =>
    intro k hk
    cases k with
    | zero => rfl
    | succ k =>
      by_cases h : t.length < MaxScanTokenSize
      · rw [NewScanner_short t rest h] at hk ⊢
        simp only [List.length_cons, Nat.add_le_add_iff_right] at hk
        simp only [List.drop_succ_cons]
        exact ih k hk
      · rw [NewScanner_long t rest (Nat.not_lt.mp h)] at hk
        simp at hk

theorem NewScanner_getElem : ∀ (input : List GoString) (k : Nat) (text : GoString),
    (NewScanner input)[k]? = some text →
      ∃ line, input[k]? = some line ∧ line.length < MaxScanTokenSize ∧ text = dropCR line := by
  intro input
  induction input with
  | nil => intro k text h; simp [NewScanner_nil] at h
  | cons t rest ih =>
    intro k text h
    by_cases hs : t.length < MaxScanTokenSize
    · rw [NewScanner_short t rest hs] at h
      cases k with
      | zero =>
        simp only [List.getElem?_cons_zero, Option.some.injEq] at h
        exact ⟨t, by simp, hs, h.symm⟩
      | succ k =>
        simp only [List.getElem?_cons_succ] at h ⊢
        exact ih k text h
    · rw [NewScanner_long t rest (Nat.not_lt.mp hs)] at h
      simp at h

theorem NewParser_single (t : GoString) (hlen : t.length < MaxScanTokenSize)
    (hcr : dropCR t = t) : NewParser [t] = ⟨[t], 0⟩ := by
  rw [NewParser, NewScanner_short t [] hlen, hcr, NewScanner_nil]

theorem dropCR_plain_last (pre : GoString) (c : Nat) (hc : plainByte c = true) :
    dropCR (pre ++ [c]) = pre ++ [c] := by
  rw [dropCR_concat, if_neg]
  intro h
  rw [h] at hc
  exact absurd hc (by decide)

theorem joinTokens_length (B : Nat) : ∀ toks : List GoString, (∀ t ∈ toks, t.length ≤ B) →
    (joinTokens toks).length ≤ toks.length * (B + 1) := by
  intro toks
  induction toks with
  | nil => intro _; simp [joinTokens]
  | cons t ts ih =>
    intro h
    have ht := h t (List.mem_cons_self t ts)
    cases ts with
    | nil =>
      simp only [joinTokens, List.length_cons, List.length_nil]
      omega
    | cons u us =>
      have h1 := ih (fun x hx => h x (List.mem_cons_of_mem t hx))
      simp only [joinTokens, List.length_append, List.length_cons] at h1 ⊢
      rw [Nat.add_mul]
      omega

theorem instructionMap_length : ∀ p ∈ instructionMap, p.1.length ≤ 5 := by
  decide

theorem registerMap_length : ∀ p ∈ registerMap, p.1.length ≤ 5 := by
  decide

/-! ### Successive calls of `Parser.Next` -/

theorem blankOrComment_skips (rt : GoRuntime) (text : GoString) (h : blankOrComment text) :
    skips rt text := by
  unfold skips
  rcases h with h | h
  · left; rw [h]; exact ToLower_nil rt
  · right
    cases ht : TrimSpace text with
    | nil => rw [ht] at h; simp at h
    | cons b s =>
      rw [ht] at h
      simp only [List.head?_cons, Option.some.injEq] at h
      subst h
      rw [ToLower_cons_fixed rt commentLeadingChar s (by decide) (by decide)]
      rfl

theorem scan_spec (rt : GoRuntime) (input : List GoString) :
    ∀ (lines : List GoString) (n : Nat), input.drop n = lines → n ≤ input.length →
      (Parser.Next.scan rt lines n).2.currentLine ≤ input.length ∧
      input.drop (Parser.Next.scan rt lines n).2.currentLine =
        (Parser.Next.scan rt lines n).2.reader ∧
      ∀ r e, (Parser.Next.scan rt lines n).1 = .ret r → r.err = some e →
        1 ≤ e.LineNumber ∧ e.LineNumber = (Parser.Next.scan rt lines n).2.currentLine ∧
        ∃ text, input[e.LineNumber - 1]? = some text ∧ ¬ skips rt text ∧
          Parser.Next.body rt e.LineNumber (ToLower rt (TrimSpace text)) = .ret r := by
  intro lines
  induction lines with
  | nil =>
    intro n hd hn
    refine ⟨hn, hd, ?_⟩
    intro r e hr he
    simp only [Parser.Next.scan, Run.ret.injEq] at hr
    rw [← hr] at he
    simp at he
  | cons text rest ih =>
    intro n hd hn
    have hlt : n < input.length := by
      rcases Nat.lt_or_ge n input.length with h | h
      · exact h
      · rw [List.drop_of_length_le h] at hd
        simp at hd
    have htext : input[n]? = some text := by
      have := congrArg List.head? hd
      simpa [List.head?_drop] using this
    have hrest : input.drop (n + 1) = rest := by
      have := congrArg List.tail hd
      simpa [List.tail_drop] using this
    by_cases hs : skips rt text
    · have hscan : Parser.Next.scan rt (text :: rest) n = Parser.Next.scan rt rest (n + 1) := by
        unfold skips at hs
        simp only [Parser.Next.scan, hs, if_true]
      rw [hscan]
      exact ih (n + 1) hrest hlt
    · have hscan : Parser.Next.scan rt (text :: rest) n =
          (Parser.Next.body rt (n + 1) (ToLower rt (TrimSpace text)), ⟨rest, n + 1⟩) := by
        have hs1 := hs
        unfold skips at hs1
        simp only [Parser.Next.scan, hs1, if_false]
      rw [hscan]
      refine ⟨hlt, hrest, ?_⟩
      intro r e hr he
      have hline : e.LineNumber = n + 1 := body_error_line rt (n + 1) _ r e hr he
      refine ⟨by omega, hline, text, ?_, hs, ?_⟩
      · rw [hline]; simpa using htext
      · rw [hline]; exact hr

theorem afterCalls_inv (rt : GoRuntime) (input : List GoString) :
    ∀ j, (afterCalls rt j (NewParser input)).currentLine ≤ (NewScanner input).length ∧
      (NewScanner input).drop (afterCalls rt j (NewParser input)).currentLine =
        (afterCalls rt j (NewParser input)).reader := by
  intro j
  induction j with
  | zero => simp [afterCalls, NewParser]
  | succ j ih =>
    have h := scan_spec rt (NewScanner input) _ _ ih.2 ih.1
    exact ⟨h.1, h.2.1⟩

/-! ### The driver loop, line by line -/

theorem loop_eq_runLines (rt : GoRuntime) :
    ∀ (lines : List GoString) (n : Nat) (buf : List Nat) (fuel : Nat), lines.length < fuel →
      runRootCommand.loop rt fuel ⟨lines, n⟩ buf = some (runLines rt lines n buf) := by
  intro lines
  induction lines with
  | nil =>
    intro n buf fuel hf
    cases fuel with
    | zero => exact absurd hf (by simp)
    | succ f => simp [runRootCommand.loop, Next_end, runLines]
  | cons text rest ih =>
    intro n buf fuel hf
    cases fuel with
    | zero => exact absurd hf (by simp)
    | succ f =>
      simp only [List.length_cons, Nat.add_lt_add_iff_right] at hf
      by_cases hs : skips rt text
      · have h1 := ih (n + 1) buf (f + 1) (by omega)
        rw [runRootCommand.loop] at h1 ⊢
        rw [Next_skip rt text rest n hs, h1]
        simp only [runLines, hs, if_true]
      · rw [runRootCommand.loop, Next_body rt text rest n hs]
        simp only [runLines, hs, if_false]
        cases hb : Parser.Next.body rt (n + 1) (ToLower rt (TrimSpace text)) with
        | panic => rfl
        | ret r =>
          have hok := body_ok rt _ _ r hb
          simp only [hok, Bool.not_true, Bool.false_eq_true, if_false]
          cases r.err with
          | some e => rfl
          | none => exact ih (n + 1) (buf ++ r.data) f hf

/-- The run of the driver, from the result of its loop on the texts the scanner
delivers. -/
theorem runRootCommand_runLines (rt : GoRuntime) (writerWrite : List Nat → Option GoString)
    (input : List GoString) :
    runRootCommand rt writerWrite input =
      match runLines rt (NewScanner input) 0 [] with
      | .panic => some ⟨[.Close], .panicked⟩
      | .ret (.inr msg) => some ⟨[], .fatal msg⟩
      | .ret (.inl buf) =>
        match writerWrite buf with
        | some err =>
          some ⟨[.Write buf],
            .fatal (bytes "Error writing assembly binary file: " ++ err ++ [0x0A])⟩
        | none => some ⟨[.Write buf, .Close], .returned⟩ := by
  unfold runRootCommand
  rw [NewParser, loop_eq_runLines rt (NewScanner input) 0 [] _
    (Nat.lt_succ_of_le (NewScanner_length input))]
  cases runLines rt (NewScanner input) 0 [] with
  | panic => rfl
  | ret x => cases x <;> rfl

theorem wordOf_skips (rt : GoRuntime) (text : GoString) (h : skips rt text) :
    wordOf rt text = none := by
  unfold wordOf
  rw [Next_skip rt text [] 0 h, Next_end]
  simp

theorem wordOf_body (rt : GoRuntime) (text : GoString) (w : List Nat) (k : Nat)
    (hs : ¬ skips rt text)
    (hb : Parser.Next.body rt k (ToLower rt (TrimSpace text)) = .ret ⟨w, true, none⟩) :
    wordOf rt text = some w := by
  unfold wordOf
  rw [Next_body rt text [] 0 hs, body_atLine rt k (0 + 1), hb]
  simp [resultAtLine]

theorem body_wordOf (rt : GoRuntime) (text : GoString) (w : List Nat) (k : Nat)
    (h : wordOf rt text = some w) :
    ¬ skips rt text ∧
      Parser.Next.body rt k (ToLower rt (TrimSpace text)) = .ret ⟨w, true, none⟩ := by
  have hs : ¬ skips rt text := by
    intro hs
    rw [wordOf_skips rt text hs] at h
    exact absurd h (by simp)
  refine ⟨hs, ?_⟩
  unfold wordOf at h
  rw [Next_body rt text [] 0 hs] at h
  simp only at h
  rcases body_cases rt (0 + 1) (ToLower rt (TrimSpace text)) with h1 | ⟨e, h1⟩ | ⟨w1, _, h1⟩
  · rw [h1] at h; exact absurd h (by simp)
  · rw [h1] at h; simp at h
  · rw [h1] at h
    simp only [and_self, if_true, Option.some.injEq] at h
    rw [body_atLine rt (0 + 1) k, h1, ← h]
    simp [resultAtLine]

theorem goodLine_cases (rt : GoRuntime) (text : GoString) (h : goodLine rt text) :
    (blankOrComment text ∧ skips rt text ∧ wordOf rt text = none) ∨
      (¬ blankOrComment text ∧ ¬ skips rt text ∧ ∃ w, wordOf rt text = some w ∧ w.length = 2 ∧
        ∀ k, Parser.Next.body rt k (ToLower rt (TrimSpace text)) = .ret ⟨w, true, none⟩) := by
  by_cases hb : blankOrComment text
  · left
    exact ⟨hb, blankOrComment_skips rt text hb, wordOf_skips rt text (blankOrComment_skips rt text hb)⟩
  · right
    rcases h with h | h
    · exact absurd h hb
    · obtain ⟨w, hw⟩ := Option.isSome_iff_exists.mp h
      have h1 := body_wordOf rt text w
      exact ⟨hb, (h1 0 hw).1, w, hw, body_word_length rt 0 _ w (h1 0 hw).2,
        fun k => (h1 k hw).2⟩

theorem Next_good (rt : GoRuntime) :
    ∀ (lines : List GoString) (n : Nat), (∀ t ∈ lines, goodLine rt t) →
      ∃ lines1 n1, (∀ t ∈ lines1, goodLine rt t) ∧
        lines1.filterMap (wordOf rt) = (lines.filterMap (wordOf rt)).tail ∧
        Parser.Next rt ⟨lines, n⟩ =
          ((match (lines.filterMap (wordOf rt)).head? with
            | some w => .ret ⟨w, true, none⟩
            | none => .ret ⟨[], false, none⟩), ⟨lines1, n1⟩) := by
  intro lines
  induction lines with
  | nil =>
    intro n _
    exact ⟨[], n, by simp, by simp, by simp [Next_end]⟩
  | cons text rest ih =>
    intro n hg
    have hrest : ∀ t ∈ rest, goodLine rt t := fun t ht => hg t (List.mem_cons_of_mem text ht)
    rcases goodLine_cases rt text (hg text (List.mem_cons_self text rest)) with
      ⟨_, hs, hw⟩ | ⟨_, hs, w, hw, _, hbody⟩
    · obtain ⟨lines1, n1, h1, h2, h3⟩ := ih (n + 1) hrest
      refine ⟨lines1, n1, h1, ?_, ?_⟩
      · rw [List.filterMap_cons_none hw]; exact h2
      · rw [Next_skip rt text rest n hs, List.filterMap_cons_none hw]; exact h3
    · refine ⟨rest, n + 1, hrest, ?_, ?_⟩
      · rw [List.filterMap_cons_some hw]; rfl
      · rw [Next_body rt text rest n hs, List.filterMap_cons_some hw, hbody (n + 1)]
        rfl

theorem afterCalls_good (rt : GoRuntime) (lines : List GoString) (n : Nat)
    (hg : ∀ t ∈ lines, goodLine rt t) :
    ∀ j, ∃ lines1 n1, afterCalls rt j ⟨lines, n⟩ = ⟨lines1, n1⟩ ∧
      (∀ t ∈ lines1, goodLine rt t) ∧
      lines1.filterMap (wordOf rt) = (lines.filterMap (wordOf rt)).drop j := by
  intro j
  induction j with
  | zero => exact ⟨lines, n, rfl, hg, by simp⟩
  | succ j ih =>
    obtain ⟨lines1, n1, h1, h2, h3⟩ := ih
    obtain ⟨lines2, n2, g1, g2, g3⟩ := Next_good rt lines1 n1 h2
    refine ⟨lines2, n2, ?_, g1, ?_⟩
    · rw [afterCalls, h1, g3]
    · rw [g2, h3, List.tail_drop]

theorem runLines_good (rt : GoRuntime) :
    ∀ (lines : List GoString) (n : Nat) (buf : List Nat), (∀ t ∈ lines, goodLine rt t) →
      runLines rt lines n buf = .ret (.inl (buf ++ (lines.filterMap (wordOf rt)).flatten)) := by
  intro lines
  induction lines with
  | nil => intro n buf _; simp [runLines]
  | cons text rest ih =>
    intro n buf hg
    have hrest : ∀ t ∈ rest, goodLine rt t := fun t ht => hg t (List.mem_cons_of_mem text ht)
    rcases goodLine_cases rt text (hg text (List.mem_cons_self text rest)) with
      ⟨_, hs, hw⟩ | ⟨_, hs, w, hw, _, hbody⟩
    · simp only [runLines, hs, if_true]
      rw [ih (n + 1) buf hrest, List.filterMap_cons_none hw]
    · simp only [runLines, hs, if_false, hbody (n + 1)]
      rw [ih (n + 1) (buf ++ w) hrest, List.filterMap_cons_some hw]
      simp

theorem words_count (rt : GoRuntime) :
    ∀ (lines : List GoString), (∀ t ∈ lines, goodLine rt t) →
      (lines.filterMap (wordOf rt)).length =
        (lines.filter (fun t => decide (¬ blankOrComment t))).length ∧
      (lines.filterMap (wordOf rt)).flatten.length =
        2 * (lines.filter (fun t => decide (¬ blankOrComment t))).length ∧
      ∀ w ∈ lines.filterMap (wordOf rt), w.length = 2 := by
  intro lines
  induction lines with
  | nil => intro _; simp
  | cons text rest ih =>
    intro hg
    obtain ⟨i1, i2, i3⟩ := ih (fun t ht => hg t (List.mem_cons_of_mem text ht))
    rcases goodLine_cases rt text (hg text (List.mem_cons_self text rest)) with
      ⟨hb, _, hw⟩ | ⟨hb, _, w, hw, hlen, _⟩
    · rw [List.filterMap_cons_none hw]
      rw [List.filter_cons_of_neg (by simp [hb])]
      exact ⟨i1, i2, i3⟩
    · rw [List.filterMap_cons_some hw]
      rw [List.filter_cons_of_pos (by simp [hb])]
      refine ⟨by simp [i1], ?_, ?_⟩
      · simp only [List.flatten_cons, List.length_append, List.length_cons, hlen, i2]
        omega
      · intro x hx
        rcases List.mem_cons.mp hx with h | h
        · rw [h]; exact hlen
        · exact i3 x h

theorem runLines_buffer (rt : GoRuntime) :
    ∀ (lines : List GoString) (n : Nat) (buf b : List Nat),
      runLines rt lines n buf = .ret (.inl b) →
      (∀ t ∈ lines, encodes rt t) ∧ b = buf ++ (lines.filterMap (wordOf rt)).flatten := by
  intro lines
  induction lines with
  | nil =>
    intro n buf b h
    simp only [runLines, Run.ret.injEq, Sum.inl.injEq] at h
    simp [h]
  | cons text rest ih =>
    intro n buf b h
    by_cases hs : skips rt text
    · simp only [runLines, hs, if_true] at h
      obtain ⟨h1, h2⟩ := ih (n + 1) buf b h
      refine ⟨?_, ?_⟩
      · intro t ht
        rcases List.mem_cons.mp ht with h3 | h3
        · rw [h3]
          refine ⟨⟨[], false, none⟩, ?_, rfl⟩
          rw [Next_skip rt text [] 0 hs, Next_end]
        · exact h1 t h3
      · rw [List.filterMap_cons_none (wordOf_skips rt text hs)]; exact h2
    · simp only [runLines, hs, if_false] at h
      rcases body_cases rt (n + 1) (ToLower rt (TrimSpace text)) with hb | ⟨e, hb⟩ | ⟨w, _, hb⟩
      · rw [hb] at h; exact absurd h (by simp)
      · rw [hb] at h; simp at h
      · rw [hb] at h
        simp only at h
        obtain ⟨h1, h2⟩ := ih (n + 1) (buf ++ w) b h
        have hw := wordOf_body rt text w (n + 1) hs hb
        refine ⟨?_, ?_⟩
        · intro t ht
          rcases List.mem_cons.mp ht with h3 | h3
          · rw [h3]
            refine ⟨⟨w, true, none⟩, ?_, rfl⟩
            rw [Next_body rt text [] 0 hs, body_atLine rt (n + 1) (0 + 1), hb]
            rfl
          · exact h1 t h3
        · rw [List.filterMap_cons_some hw, h2]
          simp

/-! ### The claims on `Parser.Next` and the driver -/

theorem parseNumeric_hex (rt : GoRuntime) (r : Nat) (h : r < 16) :
    parseNumeric rt (bytes "0x" ++ [lowerhex r]) = .ret (r, none) ∧
      parseNumeric rt (bytes "0x" ++ [0x30, lowerhex r]) = .ret (r, none) := by
  interval_cases r <;> exact ⟨rfl, rfl⟩

theorem hex_plain (r : Nat) (h : r < 16) :
    plain (bytes "0x" ++ [lowerhex r]) = true ∧
      plain (bytes "0x" ++ [0x30, lowerhex r]) = true := by
  revert r; decide

theorem operandToken_parses (rt : GoRuntime) (p : InstructionParamType) (t : GoString)
    (r : Nat) (h : operandToken p t r) : operandParses rt p t r ∧ plain t = true ∧ r < 16 := by
  rcases h with ⟨hp, hr⟩ | ⟨hp, hr, ht⟩
  · obtain ⟨h1, h2⟩ := registerMap_facts _ (Register_mem t r hr)
    refine ⟨Or.inl ⟨hp, ?_⟩, h1, h2⟩
    simp only [parseRegister, hr, if_true]
  · have hne : p ≠ ParamRegister := by rw [hp]; decide
    rcases ht with ht | ht
    · rw [ht]
      exact ⟨Or.inr ⟨hne, (parseNumeric_hex rt r hr).1⟩, (hex_plain r hr).1, hr⟩
    · rw [ht]
      exact ⟨Or.inr ⟨hne, (parseNumeric_hex rt r hr).2⟩, (hex_plain r hr).2, hr⟩

theorem operandTokens_parse (rt : GoRuntime) :
    ∀ (ps : List InstructionParamType) (ts : List GoString) (rs : List Nat),
      operandTokens ps ts rs →
      operandsParse rt ps ts rs ∧ (∀ t ∈ ts, plain t = true) ∧ ∀ r ∈ rs, r < 16 := by
  intro ps
  induction ps with
  | nil =>
    intro ts rs h
    cases ts <;> cases rs <;> simp [operandTokens] at h
    simp [operandsParse]
  | cons p ps ih =>
    intro ts rs h
    cases ts with
    | nil => cases rs <;> simp [operandTokens] at h
    | cons t ts =>
      cases rs with
      | nil => simp [operandTokens] at h
      | cons r rs =>
        simp only [operandTokens] at h
        obtain ⟨h1, h2, h3⟩ := operandToken_parses rt p t r h.1
        obtain ⟨i1, i2, i3⟩ := ih ts rs h.2
        refine ⟨⟨h1, i1⟩, ?_, ?_⟩
        · intro x hx
          rcases List.mem_cons.mp hx with hx | hx
          · rw [hx]; exact h2
          · exact i2 x hx
        · intro x hx
          rcases List.mem_cons.mp hx with hx | hx
          · rw [hx]; exact h3
          · exact i3 x hx

theorem operandToken_length (p : InstructionParamType) (t : GoString) (r : Nat)
    (h : operandToken p t r) : t.length ≤ 5 := by
  rcases h with ⟨_, hr⟩ | ⟨_, _, ht⟩
  · exact registerMap_length _ (Register_mem t r hr)
  · have h2 : (bytes "0x").length = 2 := rfl
    rcases ht with ht | ht <;> rw [ht, List.length_append, h2] <;>
      simp only [List.length_cons, List.length_nil] <;> omega

theorem operandTokens_length :
    ∀ (ps : List InstructionParamType) (ts : List GoString) (rs : List Nat),
      operandTokens ps ts rs → ∀ t ∈ ts, t.length ≤ 5 := by
  intro ps
  induction ps with
  | nil =>
    intro ts rs h
    cases ts <;> cases rs <;> simp [operandTokens] at h
    simp
  | cons p ps ih =>
    intro ts rs h
    cases ts with
    | nil => simp
    | cons t ts =>
      cases rs with
      | nil => simp [operandTokens] at h
      | cons r rs =>
        simp only [operandTokens] at h
        intro x hx
        rcases List.mem_cons.mp hx with hx | hx
        · rw [hx]; exact operandToken_length p t r h.1
        · exact ih ts rs h.2 x hx

/-- A line of a catalog mnemonic and operand tokens matching its schema, with one
space between the tokens, is delivered by the scanner as it is. -/
theorem NewParser_joinTokens (m : GoString) (v : Nat) (s : List InstructionParamType)
    (ts : List GoString) (rs : List Nat) (hv : Instruction.GetValue m = (v, true))
    (hs : Instruction.GetParams m = some s) (hops : operandTokens s ts rs) :
    NewParser [joinTokens (m :: ts)] = ⟨[joinTokens (m :: ts)], 0⟩ := by
  obtain ⟨hm, _, _⟩ := instructionMap_facts _ (GetValue_mem m v hv)
  simp only at hm
  have hml := instructionMap_length _ (GetValue_mem m v hv)
  simp only at hml
  obtain ⟨hlen, _⟩ := instructionParamMap_facts _ (GetParams_mem m s hs)
  simp only at hlen
  obtain ⟨p1, p2, _⟩ := operandTokens_parse asciiRuntime s ts rs hops
  obtain ⟨hl1, _⟩ := operandsParse_length asciiRuntime s ts rs p1
  have hall : ∀ t ∈ m :: ts, plain t = true := by
    intro t ht
    rcases List.mem_cons.mp ht with h | h
    · rw [h]; exact hm
    · exact p2 t h
  have hl5 : ∀ t ∈ m :: ts, t.length ≤ 5 := by
    intro t ht
    rcases List.mem_cons.mp ht with h | h
    · rw [h]; exact hml
    · exact operandTokens_length s ts rs hops t h
  have hjl := joinTokens_length 5 (m :: ts) hl5
  simp only [List.length_cons] at hjl
  obtain ⟨pre, c, hj, hc⟩ := joinTokens_last (m :: ts) (List.cons_ne_nil m ts) hall
  apply NewParser_single
  · unfold MaxScanTokenSize
    omega
  · rw [hj]
    exact dropCR_plain_last pre c hc

/-- C1: for a catalog mnemonic `m` with opcode byte `v` and schema `s`, and
operand tokens matching the schema (register mnemonics, and `0x` literals of one
or two lower-case digits with a value in 0..15), `Parser.Next` on the single
line `m t1 .. tn` returns the word `[v | r1, (r2 << 4) | r3]` (`r3 = 0` for two
operands), `true` and a nil error; so `mov r0 r1`, `add r2 r3 r4` and
`set pc 0x0f 0x00` give `[0x00, 0x10]`, `[0x42, 0x34]` and `[0x8F, 0xF0]`. -/
theorem Next_encodes_line (rt : GoRuntime) (m : GoString) (v : Nat)
    (s : List InstructionParamType) (ts : List GoString) (rs : List Nat)
    (hv : Instruction.GetValue m = (v, true)) (hs : Instruction.GetParams m = some s)
    (hops : operandTokens s ts rs) :
    Parser.Next rt (NewParser [joinTokens (m :: ts)]) =
        (.ret ⟨[v ||| rs.getD 0 0, (rs.getD 1 0 <<< 4) ||| rs.getD 2 0], true, none⟩,
          ⟨[], 1⟩) ∧
      Parser.Next rt (NewParser [bytes "mov r0 r1"]) =
        (.ret ⟨[0x00, 0x10], true, none⟩, ⟨[], 1⟩) ∧
      Parser.Next rt (NewParser [bytes "add r2 r3 r4"]) =
        (.ret ⟨[0x42, 0x34], true, none⟩, ⟨[], 1⟩) ∧
      Parser.Next rt (NewParser [bytes "set pc 0x0f 0x00"]) =
        (.ret ⟨[0x8F, 0xF0], true, none⟩, ⟨[], 1⟩) := by
  have gen : ∀ (m1 : GoString) (v1 : Nat) (s1 : List InstructionParamType)
      (ts1 : List GoString) (rs1 : List Nat), Instruction.GetValue m1 = (v1, true) →
      Instruction.GetParams m1 = some s1 → operandTokens s1 ts1 rs1 →
      Parser.Next rt (NewParser [joinTokens (m1 :: ts1)]) =
        (.ret ⟨[v1 ||| rs1.getD 0 0, (rs1.getD 1 0 <<< 4) ||| rs1.getD 2 0], true, none⟩,
          ⟨[], 1⟩) := by
    intro m1 v1 s1 ts1 rs1 h1 h2 h3
    obtain ⟨p1, p2, p3⟩ := operandTokens_parse rt s1 ts1 rs1 h3
    rw [NewParser_joinTokens m1 v1 s1 ts1 rs1 h1 h2 h3]
    exact Next_word rt m1 ts1 rs1 v1 s1 [] 0 h1 h2 p2 p1 p3
  refine ⟨gen m v s ts rs hv hs hops, ?_, ?_, ?_⟩
  · exact gen (bytes "mov") 0x00 [ParamRegister, ParamRegister] [bytes "r0", bytes "r1"] [0, 1]
      (by decide) (by decide) ⟨Or.inl ⟨rfl, by decide⟩, Or.inl ⟨rfl, by decide⟩, trivial⟩
  · exact gen (bytes "add") 0x40 [ParamRegister, ParamRegister, ParamRegister]
      [bytes "r2", bytes "r3", bytes "r4"] [2, 3, 4] (by decide) (by decide)
      ⟨Or.inl ⟨rfl, by decide⟩, Or.inl ⟨rfl, by decide⟩, Or.inl ⟨rfl, by decide⟩, trivial⟩
  · exact gen (bytes "set") 0x80 [ParamRegister, ParamNumeric, ParamNumeric]
      [bytes "pc", bytes "0x0f", bytes "0x00"] [15, 15, 0] (by decide) (by decide)
      ⟨Or.inl ⟨rfl, by decide⟩, Or.inr ⟨rfl, by decide, Or.inr (by decide)⟩,
        Or.inr ⟨rfl, by decide, Or.inr (by decide)⟩, trivial⟩

/-- Witness of C1: `subi ra r3 0xc` is encoded as `[0x7A, 0x3C]`. -/
theorem Next_encodes_line_witness :
    Parser.Next asciiRuntime (NewParser [bytes "subi ra r3 0xc"]) =
      (.ret ⟨[0x7A, 0x3C], true, none⟩, ⟨[], 1⟩) :=
  (Next_encodes_line asciiRuntime (bytes "subi") 0x70
    [ParamRegister, ParamRegister, ParamNumeric] [bytes "ra", bytes "r3", bytes "0xc"]
    [10, 3, 12] (by decide) (by decide)
    ⟨Or.inl ⟨rfl, by decide⟩, Or.inl ⟨rfl, by decide⟩,
      Or.inr ⟨rfl, by decide, Or.inl (by decide)⟩, trivial⟩).1

theorem fieldsLoop_head (s : GoString) :
    ∀ cur : GoString, cur ≠ [] → ∃ t r, fieldsLoop 0 cur s = (cur ++ t) :: r := by
  induction s with
  | nil =>
    intro cur hc
    exact ⟨[], [], by rw [fieldsLoop_end cur hc]; simp⟩
  | cons b s ih =>
    intro cur hc
    rw [fieldsLoop]
    by_cases hw : spaceWidth (b :: s) = 0
    · simp only [hw, if_true]
      obtain ⟨t, r, h⟩ := ih (cur ++ [b]) (by simp)
      exact ⟨b :: t, r, by rw [h]; simp⟩
    · simp only [hw, hc, if_false]
      exact ⟨[], fieldsLoop (spaceWidth (b :: s) - 1) [] s, by simp⟩

theorem Fields_comment (s m : GoString) (ops : List GoString)
    (h : Fields (commentLeadingChar :: s) = m :: ops) : m.head? = some commentLeadingChar := by
  unfold Fields at h
  rw [fieldsLoop] at h
  have hw : spaceWidth (commentLeadingChar :: s) = 0 := by
    rw [spaceWidth_ascii _ s (by decide)]; rfl
  simp only [hw, if_true, List.nil_append] at h
  obtain ⟨t, r, ht⟩ := fieldsLoop_head s [commentLeadingChar] (by simp)
  rw [ht] at h
  simp only [List.cons.injEq] at h
  rw [← h.1]
  rfl

theorem not_skips_of_mnemonic (rt : GoRuntime) (text m : GoString) (ops : List GoString)
    (v : Nat) (ht : Fields (ToLower rt (TrimSpace text)) = m :: ops)
    (hv : Instruction.GetValue m = (v, true)) : ¬ skips rt text := by
  obtain ⟨_, hc, _⟩ := instructionMap_facts _ (GetValue_mem m v hv)
  simp only at hc
  intro hs
  rcases hs with hs | hs
  · rw [hs] at ht
    simp [Fields, fieldsLoop] at ht
  · cases hl : ToLower rt (TrimSpace text) with
    | nil => rw [hl] at hs; simp at hs
    | cons b s =>
      rw [hl] at hs ht
      simp only [List.head?_cons, Option.some.injEq] at hs
      subst hs
      exact hc (Fields_comment s m ops ht)

/-- C6: when the first token of a line is a catalog mnemonic `m` with a schema of
`n` operands and the line has `k ≠ n` operand tokens, `Parser.Next` returns no
word and the `SyntaxError` of that line with the message
`Instruction '<M>' expects n parameters, k provided`, `<M>` being `m` in upper
case, whatever the operand tokens are. -/
theorem Next_arity_error (rt : GoRuntime) (text : GoString) (rest : List GoString) (n : Nat)
    (m : GoString) (ops : List GoString) (v : Nat) (s : List InstructionParamType)
    (ht : Fields (ToLower rt (TrimSpace text)) = m :: ops)
    (hv : Instruction.GetValue m = (v, true)) (hs : Instruction.GetParams m = some s)
    (hk : ops.length ≠ s.length) :
    Parser.Next rt ⟨text :: rest, n⟩ =
      (.ret ⟨[], true, some ⟨bytes "Instruction '" ++ asciiUpper m ++ bytes "' expects " ++
        fmtInt s.length ++ bytes " parameters, " ++ fmtInt ops.length ++ bytes " provided",
        n + 1⟩⟩, ⟨rest, n + 1⟩) := by
  obtain ⟨hm, _, _⟩ := instructionMap_facts _ (GetValue_mem m v hv)
  simp only at hm
  rw [Next_body rt text rest n (not_skips_of_mnemonic rt text m ops v ht hv),
    body_arity rt (n + 1) _ m ops v s ht hv hs hk, ToUpper_ascii rt m (plain_ascii hm)]
  rfl

/-- Witness of C6: `mov r0 r1 r2` on the third line of an input. -/
theorem Next_arity_error_witness :
    Parser.Next asciiRuntime ⟨[bytes "  MOV r0 r1 r2", bytes "not r1 r2"], 2⟩ =
      (.ret ⟨[], true, some ⟨bytes "Instruction 'MOV' expects 2 parameters, 3 provided", 3⟩⟩,
        ⟨[bytes "not r1 r2"], 3⟩) :=
  Next_arity_error asciiRuntime (bytes "  MOV r0 r1 r2") [bytes "not r1 r2"] 2 (bytes "mov")
    [bytes "r0", bytes "r1", bytes "r2"] 0x00 [ParamRegister, ParamRegister]
    (by decide) (by decide) (by decide) (by decide)

/-! ### `parseNumeric` on decimal text -/

theorem addi_line_tokens (digits : GoString) (hd : plain digits = true) :
    ∀ t ∈ [bytes "addi", bytes "r1", bytes "r2", digits], plain t = true := by
  intro t ht
  simp only [List.mem_cons, List.mem_singleton, List.not_mem_nil, or_false] at ht
  rcases ht with h | h | h | h <;> rw [h]
  · decide
  · decide
  · decide
  · exact hd

/-- C3, the code at the failing inputs: on the decimal text `5` the slice
expression `token[2:]` is out of bounds and `parseNumeric` panics; on the
decimal text `15` it parses the empty remainder and returns the `strconv`
syntax error instead of 15.  The hexadecimal texts `0x5` and `0xf` parse to 5
and 15. -/
theorem parseNumeric_decimal_in_range (rt : GoRuntime) :
    parseNumeric rt (bytes "5") = .panic ∧
    parseNumeric rt (bytes "15") =
      .ret (0, some (bytes "Invalid numeric value provided '" ++ bytes "15" ++ bytes "': " ++
        NumError.Error rt ⟨bytes "ParseInt", [], .ErrSyntax⟩)) ∧
    parseNumeric rt (bytes "0x5") = .ret (5, none) ∧
    parseNumeric rt (bytes "0xf") = .ret (15, none) :=
  ⟨rfl, rfl, rfl, rfl⟩

/-- C4, the code at the failing inputs: on the decimal texts `105` and `-15`,
both outside 0..15, `parseNumeric` drops the first two bytes and returns the
value 5 with a nil error, and `Parser.Next` encodes `addi r1 r2 105` as the word
of `addi r1 r2 0x5`. -/
theorem parseNumeric_decimal_out_of_range (rt : GoRuntime) :
    parseNumeric rt (bytes "105") = .ret (5, none) ∧
    parseNumeric rt (bytes "-15") = .ret (5, none) ∧
    Parser.Next rt (NewParser [bytes "addi r1 r2 105"]) =
      (.ret ⟨[0x61, 0x25], true, none⟩, ⟨[], 1⟩) := by
  refine ⟨rfl, rfl, ?_⟩
  rw [show NewParser [bytes "addi r1 r2 105"] = ⟨[bytes "addi r1 r2 105"], 0⟩ from rfl]
  exact Next_word rt (bytes "addi") [bytes "r1", bytes "r2", bytes "105"] [1, 2, 5] 0x60
    [ParamRegister, ParamRegister, ParamNumeric] [] 0 (by decide) (by decide) (by decide)
    ⟨Or.inl ⟨rfl, by decide⟩, Or.inl ⟨rfl, by decide⟩, Or.inr ⟨by decide, rfl⟩, trivial⟩
    (by decide)

/-- C5, the code at the failing input: `parseNumeric` panics on the one-byte
token `5`, so `Parser.Next` panics on the line `addi r1 r2 5` instead of
returning a `SyntaxError`, and the run of the driver ends in that panic. -/
theorem parseNumeric_short_token_panics (rt : GoRuntime)
    (writerWrite : List Nat → Option GoString) :
    parseNumeric rt (bytes "5") = .panic ∧
    Parser.Next rt (NewParser [bytes "addi r1 r2 5"]) = (.panic, ⟨[], 1⟩) ∧
    runRootCommand rt writerWrite [bytes "addi r1 r2 5"] = some ⟨[.Close], .panicked⟩ := by
  have hj : bytes "addi r1 r2 5" =
      joinTokens [bytes "addi", bytes "r1", bytes "r2", bytes "5"] := by decide
  have hall := addi_line_tokens (bytes "5") (by decide)
  have hs : ¬ skips rt (bytes "addi r1 r2 5") := by
    rw [hj]
    exact not_skips_joinTokens rt (bytes "addi") [bytes "r1", bytes "r2", bytes "5"]
      (by decide) (by decide) (fun t ht => hall t (List.mem_cons_of_mem _ ht))
  have hloop : ∀ k, Parser.Next.loop rt k [bytes "addi", bytes "r1", bytes "r2", bytes "5"]
      [ParamRegister, ParamRegister, ParamNumeric] 0 [0x60, 0, 0, 0] = .panic :=
    fun _ => rfl
  have hbody : ∀ k, Parser.Next.body rt k (ToLower rt (TrimSpace (bytes "addi r1 r2 5"))) =
      .panic := by
    intro k
    rw [body_operands rt k _ (bytes "addi") [bytes "r1", bytes "r2", bytes "5"] 0x60
      [ParamRegister, ParamRegister, ParamNumeric]
      (by rw [hj]; exact (line_joinTokens rt _ hall).2) (by decide) (by decide) rfl, hloop k]
  have hN : NewScanner [bytes "addi r1 r2 5"] = [bytes "addi r1 r2 5"] := rfl
  refine ⟨rfl, ?_, ?_⟩
  · rw [NewParser, hN, Next_body rt _ [] 0 hs, hbody]
  · rw [runRootCommand_runLines, hN]
    simp only [runLines, hs, if_false, hbody]

/-! ### The catalogs: aliases -/

theorem instructionMap_schema_of_opcode : ∀ p ∈ instructionMap, ∀ q ∈ instructionMap,
    p.2 = q.2 → Instruction.GetParams p.1 = Instruction.GetParams q.1 := by
  decide

/-- C11: two mnemonics of the instruction catalog with the same opcode have the
same operand schema, in particular the pairs mov/move, incz/inciz, decn/decin,
movz/movez, movx/movex, movp/movep and movn/moven. -/
theorem GetParams_of_shared_opcode (m1 m2 : Instruction) (v : Nat)
    (h1 : Instruction.GetValue m1 = (v, true)) (h2 : Instruction.GetValue m2 = (v, true)) :
    Instruction.GetParams m1 = Instruction.GetParams m2 ∧
    (∀ p ∈ [(bytes "mov", bytes "move"), (bytes "incz", bytes "inciz"),
        (bytes "decn", bytes "decin"), (bytes "movz", bytes "movez"),
        (bytes "movx", bytes "movex"), (bytes "movp", bytes "movep"),
        (bytes "movn", bytes "moven")],
      Instruction.GetValue p.1 = Instruction.GetValue p.2 ∧
        (Instruction.GetValue p.1).2 = true ∧
        Instruction.GetParams p.1 = Instruction.GetParams p.2) :=
  ⟨instructionMap_schema_of_opcode _ (GetValue_mem m1 v h1) _ (GetValue_mem m2 v h2) rfl,
    by decide⟩

/-- Witness of C11: `decn` and `decin`. -/
theorem GetParams_of_shared_opcode_witness :
    Instruction.GetParams (bytes "decn") = Instruction.GetParams (bytes "decin") :=
  (GetParams_of_shared_opcode (bytes "decn") (bytes "decin") 0xB0 (by decide) (by decide)).1

/-- C12 as stated fails: the instruction catalog does not have ten aliased
opcodes. -/
theorem catalog_not_ten_aliases : ¬ catalogShape instructionMap 10 := by
  decide

/-- C12, amended: `instructionMap` (and `InstructionMap` of `csc364asm.go`) holds
exactly sixteen distinct opcodes, `0x0` to `0xF` in the high nibble with a zero
low nibble, each the opcode of one canonical mnemonic, and exactly seven of them
have one alias mnemonic as well: seven opcodes are the value of two mnemonics
and nine of one. -/
theorem catalog_seven_aliases :
    catalogShape instructionMap 7 ∧ catalogShape main.InstructionMap 7 ∧
      instructionMap = main.InstructionMap ∧ instructionMap.length = 23 := by
  decide

/-- C13: `Register.GetValue` gives an alias the address of its canonical form
(`in` and `r6`, `out0` and `rd`, `out1` and `re`, `pc` and `rf`, `r10..r15` and
`ra..rf`), gives `r0..r9` the addresses 0 to 9, and reports not-found, with
`ok = false`, on every string outside the 26 mnemonics. -/
theorem Register_GetValue_aliases :
    (∀ p ∈ [(bytes "in", bytes "r6", 0x6), (bytes "out0", bytes "rd", 0xD),
        (bytes "out1", bytes "re", 0xE), (bytes "pc", bytes "rf", 0xF),
        (bytes "r10", bytes "ra", 0xA), (bytes "r11", bytes "rb", 0xB),
        (bytes "r12", bytes "rc", 0xC), (bytes "r13", bytes "rd", 0xD),
        (bytes "r14", bytes "re", 0xE), (bytes "r15", bytes "rf", 0xF)],
      Register.GetValue p.1 = (p.2.2, true) ∧ Register.GetValue p.2.1 = (p.2.2, true)) ∧
    (∀ p ∈ [(bytes "r0", 0), (bytes "r1", 1), (bytes "r2", 2), (bytes "r3", 3), (bytes "r4", 4),
        (bytes "r5", 5), (bytes "r6", 6), (bytes "r7", 7), (bytes "r8", 8), (bytes "r9", 9)],
      Register.GetValue p.1 = (p.2, true)) ∧
    (∀ t : Register,
      t ∉ [bytes "r0", bytes "r1", bytes "r2", bytes "r3", bytes "r4", bytes "r5", bytes "r6",
        bytes "r7", bytes "r8", bytes "r9", bytes "ra", bytes "rb", bytes "rc", bytes "rd",
        bytes "re", bytes "rf", bytes "in", bytes "out0", bytes "out1", bytes "pc", bytes "r10",
        bytes "r11", bytes "r12", bytes "r13", bytes "r14", bytes "r15"] →
      Register.GetValue t = (0, false)) := by
  refine ⟨by decide, by decide, ?_⟩
  intro t ht
  have hnone : registerMap.lookup t = none := by
    apply lookup_none_of_not_mem
    intro hmem
    apply ht
    have hkeys : ∀ x, x ∈ registerMap.map Prod.fst →
        x ∈ [bytes "r0", bytes "r1", bytes "r2", bytes "r3", bytes "r4", bytes "r5", bytes "r6",
        bytes "r7", bytes "r8", bytes "r9", bytes "ra", bytes "rb", bytes "rc", bytes "rd",
        bytes "re", bytes "rf", bytes "in", bytes "out0", bytes "out1", bytes "pc", bytes "r10",
        bytes "r11", bytes "r12", bytes "r13", bytes "r14", bytes "r15"] := by
      decide
    exact hkeys t hmem
  simp only [Register.GetValue, hnone]

/-! ### `strconv.ParseInt` on strings of digits -/

theorem digitsValue_ge (base : Nat) : ∀ (ds : GoString) (acc : Nat), 1 ≤ base →
    acc ≤ digitsValue base acc ds := by
  intro ds
  induction ds with
  | nil => intro acc _; exact Nat.le_refl _
  | cons c ds ih =>
    intro acc hb
    have h1 := ih (acc * base + digitOf c) hb
    have h2 : acc ≤ acc * base := Nat.le_mul_of_pos_right acc hb
    simp only [digitsValue]
    omega

theorem digitsValue_append (base : Nat) : ∀ (ds es : GoString) (acc : Nat),
    digitsValue base acc (ds ++ es) = digitsValue base (digitsValue base acc ds) es := by
  intro ds
  induction ds with
  | nil => intro es acc; rfl
  | cons c ds ih =>
    intro es acc
    rw [List.cons_append]
    simp only [digitsValue]
    exact ih es _

theorem parseUintLoop_digits (base : Nat) (hb : base = 10 ∨ base = 16) :
    ∀ (ds : GoString) (acc : Nat), (∀ c ∈ ds, isDigitOf base c) → acc ≤ 255 →
      parseUintLoop base (2 ^ 8 - 1) ((2 ^ 64 - 1) / base + 1) ds acc =
        if digitsValue base acc ds ≤ 255 then (digitsValue base acc ds, none)
        else (255, some .ErrRange) := by
  intro ds
  induction ds with
  | nil =>
    intro acc _ hacc
    simp [parseUintLoop, digitsValue, hacc]
  | cons c ds ih =>
    intro acc hd hacc
    have hc := hd c (List.mem_cons_self c ds)
    have hrest : ∀ x ∈ ds, isDigitOf base x := fun x hx => hd x (List.mem_cons_of_mem c hx)
    unfold isDigitOf at hc
    obtain ⟨hc1, hc2⟩ := hc
    have hdig : digitOf c < base := hc2
    rw [parseUintLoop]
    simp only [hc1, not_true_eq_false, if_false]
    have hd' : (if 0x30 ≤ c ∧ c ≤ 0x39 then c - 0x30 else lower c - 0x61 + 10) = digitOf c := rfl
    simp only [hd']
    have hnb : ¬ digitOf c ≥ base := by omega
    simp only [hnb, if_false]
    have hcut : ¬ acc ≥ (2 ^ 64 - 1) / base + 1 := by
      rcases hb with h | h <;> subst h <;> norm_num <;> omega
    simp only [hcut, if_false]
    have hsmall : acc * base + digitOf c < 2 ^ 64 := by
      rcases hb with h | h <;> subst h <;> omega
    have hmul : acc * base < 2 ^ 64 := by omega
    rw [Nat.mod_eq_of_lt hmul, Nat.mod_eq_of_lt hsmall]
    by_cases hbig : acc * base + digitOf c > 2 ^ 8 - 1
    · have hge := digitsValue_ge base ds (acc * base + digitOf c) (by rcases hb with h | h <;> omega)
      have h1 : ¬ digitsValue base acc (c :: ds) ≤ 255 := by
        simp only [digitsValue]
        norm_num at hbig
        omega
      simp only [hbig, or_true, if_true, h1, if_false]
      rfl
    · have hlt : ¬ acc * base + digitOf c < acc * base := by omega
      simp only [hlt, hbig, or_self, if_false]
      rw [ih (acc * base + digitOf c) hrest (by norm_num at hbig; omega)]
      rfl

theorem ParseUint_digits (base : Nat) (hb : base = 10 ∨ base = 16) (ds : GoString)
    (hne : ds ≠ []) (hd : ∀ c ∈ ds, isDigitOf base c) :
    ParseUint ds base 8 =
      if digitsValue base 0 ds ≤ 255 then (digitsValue base 0 ds, none)
      else (255, some ⟨bytes "ParseUint", ds, .ErrRange⟩) := by
  unfold ParseUint
  simp only [hne, if_false]
  rw [parseUintLoop_digits base hb ds 0 hd (by norm_num)]
  by_cases h : digitsValue base 0 ds ≤ 255
  · simp only [h, if_true]
  · simp only [h, if_false]

theorem digit_not_sign (base c : Nat) (h : isDigitOf base c) : c ≠ 0x2B ∧ c ≠ 0x2D := by
  unfold isDigitOf at h
  constructor
  · intro hc; subst hc; exact absurd h.1 (by decide)
  · intro hc; subst hc; exact absurd h.1 (by decide)

/-- `strconv.ParseInt` on a non-empty string of digits: its value when that is
at most 127, else the range error. -/
theorem ParseInt_digits (base : Nat) (hb : base = 10 ∨ base = 16) (ds : GoString)
    (hne : ds ≠ []) (hd : ∀ c ∈ ds, isDigitOf base c) :
    ParseInt ds base 8 =
      if digitsValue base 0 ds ≤ 127 then
        (((digitsValue base 0 ds : Nat) : Int), (none : Option NumError))
      else (127, some ⟨bytes "ParseInt", ds, .ErrRange⟩) := by
  obtain ⟨c, t, rfl⟩ := List.exists_cons_of_ne_nil hne
  obtain ⟨h1, h2⟩ := digit_not_sign base c (hd c (List.mem_cons_self c t))
  unfold ParseInt
  simp only [h1, h2, or_self, if_false, decide_False]
  rw [ParseUint_digits base hb (c :: t) hne hd]
  by_cases h255 : digitsValue base 0 (c :: t) ≤ 255
  · simp only [h255, if_true]
    by_cases h127 : digitsValue base 0 (c :: t) ≤ 127
    · simp [h127]
      omega
    · simp [h127]
      omega
  · have h127 : ¬ digitsValue base 0 (c :: t) ≤ 127 := by omega
    simp [h255, h127]

/-- `strconv.ParseInt` on `-` followed by a non-empty string of digits. -/
theorem ParseInt_neg_digits (base : Nat) (hb : base = 10 ∨ base = 16) (ds : GoString)
    (hne : ds ≠ []) (hd : ∀ c ∈ ds, isDigitOf base c) :
    ParseInt (0x2D :: ds) base 8 =
      if digitsValue base 0 ds ≤ 128 then
        (-((digitsValue base 0 ds : Nat) : Int), (none : Option NumError))
      else (-128, some ⟨bytes "ParseInt", 0x2D :: ds, .ErrRange⟩) := by
  unfold ParseInt
  simp only [or_true, if_true, decide_True]
  rw [ParseUint_digits base hb ds hne hd]
  by_cases h255 : digitsValue base 0 ds ≤ 255
  · simp only [h255, if_true]
    by_cases h128 : digitsValue base 0 ds ≤ 128
    · simp [h128]
    · simp [h128]
  · have h128 : ¬ digitsValue base 0 ds ≤ 128 := by omega
    simp [h255, h128]

theorem digitChar_facts : ∀ v < 16,
    isDigitOf 16 (Nat.digitChar v).toNat ∧ digitOf (Nat.digitChar v).toNat = v := by
  decide

theorem digitChar_isDigitOf (b v : Nat) (hb : b ≤ 16) (hv : v < b) :
    isDigitOf b (Nat.digitChar v).toNat ∧ digitOf (Nat.digitChar v).toNat = v := by
  obtain ⟨h1, h2⟩ := digitChar_facts v (by omega)
  unfold isDigitOf at h1 ⊢
  exact ⟨⟨h1.1, by omega⟩, h2⟩

theorem toDigitsCore_spec (b : Nat) (hb : b = 10 ∨ b = 16) :
    ∀ (fuel n : Nat) (ds : List Char), n < fuel → (∀ c ∈ ds, isDigitOf b c.toNat) →
      (∀ c ∈ Nat.toDigitsCore b fuel n ds, isDigitOf b c.toNat) ∧
      Nat.toDigitsCore b fuel n ds ≠ [] ∧
      digitsValue b 0 ((Nat.toDigitsCore b fuel n ds).map Char.toNat) =
        digitsValue b n (ds.map Char.toNat) := by
  intro fuel
  induction fuel with
  | zero => intro n ds h; exact absurd h (by omega)
  | succ fuel ih =>
    intro n ds hn hds
    have hb16 : b ≤ 16 := by rcases hb with h | h <;> omega
    have hbpos : 0 < b := by rcases hb with h | h <;> omega
    obtain ⟨d1, d2⟩ := digitChar_isDigitOf b (n % b) hb16 (Nat.mod_lt n hbpos)
    have hcons : ∀ c ∈ Nat.digitChar (n % b) :: ds, isDigitOf b c.toNat := by
      intro c hc
      rcases List.mem_cons.mp hc with h | h
      · rw [h]; exact d1
      · exact hds c h
    simp only [Nat.toDigitsCore]
    by_cases h0 : n / b = 0
    · simp only [h0, if_true]
      refine ⟨hcons, by simp, ?_⟩
      have hnb : n % b = n := by
        rcases hb with h | h <;> subst h <;> omega
      rw [hnb] at d2
      simp only [hnb, List.map_cons, digitsValue, d2, Nat.zero_mul, Nat.zero_add]
    · simp only [h0, if_false]
      have hlt : n / b < fuel := by
        rcases hb with h | h <;> subst h <;> omega
      obtain ⟨i1, i2, i3⟩ := ih (n / b) (Nat.digitChar (n % b) :: ds) hlt hcons
      refine ⟨i1, i2, ?_⟩
      rw [i3]
      simp only [List.map_cons, digitsValue, d2]
      rw [Nat.div_add_mod' n b]

/-- The text of `n` in base 10 or 16 is a non-empty string of digits of that
base that denotes `n`. -/
theorem natText_spec (b : Nat) (hb : b = 10 ∨ b = 16) (n : Nat) :
    natText b n ≠ [] ∧ (∀ c ∈ natText b n, isDigitOf b c) ∧ digitsValue b 0 (natText b n) = n := by
  obtain ⟨h1, h2, h3⟩ := toDigitsCore_spec b hb (n + 1) n [] (Nat.lt_succ_self n) (by simp)
  unfold natText Nat.toDigits
  refine ⟨by simpa using h2, ?_, ?_⟩
  · intro c hc
    obtain ⟨x, hx, rfl⟩ := List.mem_map.mp hc
    exact h1 x hx
  · rw [h3]; rfl

/-! ### `parseValue` of `csc364asm.go` -/

theorem decimal_digit_range (c : Nat) (h : isDigitOf 10 c) : 0x30 ≤ c ∧ c ≤ 0x39 := by
  unfold isDigitOf digitOf at h
  by_cases hc : 0x30 ≤ c ∧ c ≤ 0x39
  · exact hc
  · simp only [hc, if_false] at h
    omega

theorem numericArg_decimal (ds : GoString) (hd : ∀ c ∈ ds, isDigitOf 10 c) :
    ¬ (ds.length > 2 ∧ ds.take 2 = bytes "0x") ∧
      ¬ ((0x2D :: ds).length > 2 ∧ (0x2D :: ds).take 2 = bytes "0x") := by
  have hx : bytes "0x" = [0x30, 0x78] := by decide
  constructor
  · rintro ⟨_, h⟩
    rw [hx] at h
    match ds, hd, h with
    | _ :: c :: _, hd, h =>
      simp only [List.take_succ_cons, List.take_zero, List.cons.injEq, and_true] at h
      have := decimal_digit_range c (hd c (by simp))
      omega
  · rintro ⟨_, h⟩
    rw [hx] at h
    match ds, h with
    | _ :: _, h => simp at h

theorem parseDecimal_digits (rt : GoRuntime) (ds : GoString) (hne : ds ≠ [])
    (hd : ∀ c ∈ ds, isDigitOf 10 c) :
    main.parseDecimal rt ds =
      if digitsValue 10 0 ds ≤ 15 then (digitsValue 10 0 ds, none)
      else if digitsValue 10 0 ds ≤ 127 then (0, some (rangeMessage ds))
      else (0, some (NumError.Error rt ⟨bytes "ParseInt", ds, .ErrRange⟩)) := by
  unfold main.parseDecimal
  rw [ParseInt_digits 10 (Or.inl rfl) ds hne hd]
  by_cases h127 : digitsValue 10 0 ds ≤ 127
  · by_cases h15 : digitsValue 10 0 ds ≤ 15
    · have hmod : digitsValue 10 0 ds % 256 = digitsValue 10 0 ds := by omega
      simp [h127, h15, hmod]
    · simp only [h127, h15, if_true, if_false]
      simp [rangeMessage]
      omega
  · have h15 : ¬ digitsValue 10 0 ds ≤ 15 := by omega
    simp [h127, h15]

theorem parseDecimal_neg_digits (rt : GoRuntime) (ds : GoString) (hne : ds ≠ [])
    (hd : ∀ c ∈ ds, isDigitOf 10 c) (hpos : 0 < digitsValue 10 0 ds) :
    main.parseDecimal rt (0x2D :: ds) =
      if digitsValue 10 0 ds ≤ 128 then (0, some (rangeMessage (0x2D :: ds)))
      else (0, some (NumError.Error rt ⟨bytes "ParseInt", 0x2D :: ds, .ErrRange⟩)) := by
  unfold main.parseDecimal
  rw [ParseInt_neg_digits 10 (Or.inl rfl) ds hne hd]
  by_cases h128 : digitsValue 10 0 ds ≤ 128
  · simp [h128, rangeMessage]
    omega
  · simp [h128]

theorem parseHex_digits (rt : GoRuntime) (ds : GoString) (hne : ds ≠ [])
    (hd : ∀ c ∈ ds, isDigitOf 16 c) :
    main.parseHex rt ds =
      if digitsValue 16 0 ds ≤ 15 then (digitsValue 16 0 ds, none)
      else if digitsValue 16 0 ds ≤ 127 then (0, some (rangeMessage ds))
      else (0, some (NumError.Error rt ⟨bytes "ParseInt", ds, .ErrRange⟩)) := by
  unfold main.parseHex
  rw [ParseInt_digits 16 (Or.inr rfl) ds hne hd]
  by_cases h127 : digitsValue 16 0 ds ≤ 127
  · by_cases h15 : digitsValue 16 0 ds ≤ 15
    · have hmod : digitsValue 16 0 ds % 256 = digitsValue 16 0 ds := by omega
      simp [h127, h15, hmod]
    · simp only [h127, h15, if_true, if_false]
      simp [rangeMessage]
      omega
  · have h15 : ¬ digitsValue 16 0 ds ≤ 15 := by omega
    simp [h127, h15]

theorem parseValue_decimal (rt : GoRuntime) (ds : GoString) (hne : ds ≠ [])
    (hd : ∀ c ∈ ds, isDigitOf 10 c) :
    numericArg ds = ds ∧
    main.parseValue rt ds =
      if digitsValue 10 0 ds ≤ 15 then (digitsValue 10 0 ds, none)
      else if digitsValue 10 0 ds ≤ 127 then (0, some (wrapMessage ds (rangeMessage ds)))
      else (0, some (wrapMessage ds (NumError.Error rt ⟨bytes "ParseInt", ds, .ErrRange⟩))) := by
  have hbr := (numericArg_decimal ds hd).1
  refine ⟨by simp only [numericArg, hbr, if_false], ?_⟩
  unfold main.parseValue
  simp only [hbr, if_false]
  rw [parseDecimal_digits rt ds hne hd]
  by_cases h15 : digitsValue 10 0 ds ≤ 15
  · simp only [h15, if_true]
  · by_cases h127 : digitsValue 10 0 ds ≤ 127
    · simp only [h15, h127, if_true, if_false, wrapMessage]
    · simp only [h15, h127, if_false, wrapMessage]

theorem parseValue_neg_decimal (rt : GoRuntime) (ds : GoString) (hne : ds ≠ [])
    (hd : ∀ c ∈ ds, isDigitOf 10 c) (hpos : 0 < digitsValue 10 0 ds) :
    numericArg (0x2D :: ds) = 0x2D :: ds ∧
    main.parseValue rt (0x2D :: ds) =
      if digitsValue 10 0 ds ≤ 128 then
        (0, some (wrapMessage (0x2D :: ds) (rangeMessage (0x2D :: ds))))
      else (0, some (wrapMessage (0x2D :: ds)
        (NumError.Error rt ⟨bytes "ParseInt", 0x2D :: ds, .ErrRange⟩))) := by
  have hbr := (numericArg_decimal ds hd).2
  refine ⟨by simp only [numericArg, hbr, if_false], ?_⟩
  unfold main.parseValue
  simp only [hbr, if_false]
  rw [parseDecimal_neg_digits rt ds hne hd hpos]
  by_cases h128 : digitsValue 10 0 ds ≤ 128
  · simp only [h128, if_true, wrapMessage]
  · simp only [h128, if_false, wrapMessage]

theorem parseValue_hex (rt : GoRuntime) (hs : GoString) (hne : hs ≠ [])
    (hd : ∀ c ∈ hs, isDigitOf 16 c) :
    numericArg (bytes "0x" ++ hs) = hs ∧
    main.parseValue rt (bytes "0x" ++ hs) =
      if digitsValue 16 0 hs ≤ 15 then (digitsValue 16 0 hs, none)
      else if digitsValue 16 0 hs ≤ 127 then
        (0, some (wrapMessage (bytes "0x" ++ hs) (rangeMessage hs)))
      else (0, some (wrapMessage (bytes "0x" ++ hs)
        (NumError.Error rt ⟨bytes "ParseInt", hs, .ErrRange⟩))) := by
  have hx : bytes "0x" = [0x30, 0x78] := by decide
  obtain ⟨c, t, rfl⟩ := List.exists_cons_of_ne_nil hne
  have hbr : (bytes "0x" ++ c :: t).length > 2 ∧ (bytes "0x" ++ c :: t).take 2 = bytes "0x" := by
    rw [hx]; simp
  have hdrop : (bytes "0x" ++ c :: t).drop 2 = c :: t := by rw [hx]; rfl
  refine ⟨by simp only [numericArg, hbr, and_self, if_true, hdrop], ?_⟩
  unfold main.parseValue
  simp only [hbr, and_self, if_true, hdrop]
  rw [parseHex_digits rt (c :: t) hne hd]
  by_cases h15 : digitsValue 16 0 (c :: t) ≤ 15
  · simp only [h15, if_true]
  · by_cases h127 : digitsValue 16 0 (c :: t) ≤ 127
    · simp only [h15, h127, if_true, if_false, wrapMessage]
    · simp only [h15, h127, if_false, wrapMessage]

/-- C14: `parseValue` of `csc364asm.go` succeeds on the decimal text of an integer
`n` exactly when `0 ≤ n ≤ 15`, and then returns `n`; it succeeds on `0x`
followed by the lower-case hexadecimal text of `k ≥ 0` exactly when `k ≤ 15`,
and then returns `k`; so both texts of an in-range value parse to that value. -/
theorem parseValue_decimal_hex (rt : GoRuntime) (n : Int) (k : Nat) :
    ((main.parseValue rt (intText n)).2 = none ↔ 0 ≤ n ∧ n ≤ 15) ∧
    ((main.parseValue rt (intText n)).2 = none →
      main.parseValue rt (intText n) = (n.toNat, none)) ∧
    ((main.parseValue rt (bytes "0x" ++ natText 16 k)).2 = none ↔ k ≤ 15) ∧
    ((main.parseValue rt (bytes "0x" ++ natText 16 k)).2 = none →
      main.parseValue rt (bytes "0x" ++ natText 16 k) = (k, none)) ∧
    (k ≤ 15 → main.parseValue rt (intText (k : Int)) = (k, none) ∧
      main.parseValue rt (bytes "0x" ++ natText 16 k) = (k, none)) := by
  have hdec : ∀ m : Nat, main.parseValue rt (natText 10 m) =
      if m ≤ 15 then (m, none)
      else if m ≤ 127 then (0, some (wrapMessage (natText 10 m) (rangeMessage (natText 10 m))))
      else (0, some (wrapMessage (natText 10 m)
        (NumError.Error rt ⟨bytes "ParseInt", natText 10 m, .ErrRange⟩))) := by
    intro m
    obtain ⟨t1, t2, t3⟩ := natText_spec 10 (Or.inl rfl) m
    have := (parseValue_decimal rt (natText 10 m) t1 t2).2
    rw [t3] at this
    exact this
  have hhex : main.parseValue rt (bytes "0x" ++ natText 16 k) =
      if k ≤ 15 then (k, none)
      else if k ≤ 127 then
        (0, some (wrapMessage (bytes "0x" ++ natText 16 k) (rangeMessage (natText 16 k))))
      else (0, some (wrapMessage (bytes "0x" ++ natText 16 k)
        (NumError.Error rt ⟨bytes "ParseInt", natText 16 k, .ErrRange⟩))) := by
    obtain ⟨t1, t2, t3⟩ := natText_spec 16 (Or.inr rfl) k
    have := (parseValue_hex rt (natText 16 k) t1 t2).2
    rw [t3] at this
    exact this
  have hint : (main.parseValue rt (intText n)).2 = none ↔ 0 ≤ n ∧ n ≤ 15 := by
    by_cases hneg : n < 0
    · obtain ⟨t1, t2, t3⟩ := natText_spec 10 (Or.inl rfl) n.natAbs
      have hpos : 0 < digitsValue 10 0 (natText 10 n.natAbs) := by rw [t3]; omega
      have := (parseValue_neg_decimal rt (natText 10 n.natAbs) t1 t2 hpos).2
      simp only [intText, hneg, if_true]
      rw [this]
      constructor
      · intro h; split at h <;> simp at h
      · intro h; omega
    · simp only [intText, hneg, if_false]
      rw [hdec n.toNat]
      constructor
      · intro h
        split at h
        · omega
        · split at h <;> simp at h
      · intro h
        have : n.toNat ≤ 15 := by omega
        simp only [this, if_true]
  refine ⟨hint, ?_, ?_, ?_, ?_⟩
  · intro h
    have hr := hint.mp h
    have hneg : ¬ n < 0 := by omega
    have : n.toNat ≤ 15 := by omega
    simp only [intText, hneg, if_false]
    rw [hdec n.toNat]
    simp only [this, if_true]
  · rw [hhex]
    constructor
    · intro h
      split at h
      · assumption
      · split at h <;> simp at h
    · intro h; simp only [h, if_true]
  · intro h
    rw [hhex] at h ⊢
    split at h
    · rename_i h15; simp only [h15, if_true]
    · split at h <;> simp at h
  · intro h
    have hneg : ¬ ((k : Int) < 0) := by omega
    refine ⟨?_, by rw [hhex]; simp only [h, if_true]⟩
    simp only [intText, hneg, if_false, Int.toNat_ofNat]
    rw [hdec k]
    simp only [h, if_true]

theorem rangeMessage_ne_strconv (rt : GoRuntime) (arg : GoString) (e : NumError) :
    rangeMessage arg ≠ NumError.Error rt e := by
  intro h
  have h1 : (rangeMessage arg).head? = some 0x49 := by
    unfold rangeMessage
    rw [List.append_assoc, List.head?_append_of_ne_nil _ (by decide)]
    decide
  have h2 : (NumError.Error rt e).head? = some 0x73 := by
    unfold NumError.Error
    rw [List.append_assoc, List.append_assoc, List.append_assoc, List.append_assoc,
      List.head?_append_of_ne_nil _ (by decide)]
    decide
  rw [h, h2] at h1
  simp at h1

theorem strconvRange_not_rangeCheck (rt : GoRuntime) (token : GoString)
    (h : failsStrconvRange rt token) : ¬ failsRangeCheck rt token := by
  unfold failsStrconvRange at h
  unfold failsRangeCheck
  rw [h]
  intro hc
  simp only [Prod.mk.injEq, Option.some.injEq, true_and, wrapMessage,
    List.append_cancel_left_eq] at hc
  exact rangeMessage_ne_strconv rt _ _ hc.symm

/-- C17 as stated fails: `200` is a well-formed decimal literal of a value above
15 and `parseValue` does not fail on it through the range-check branch. -/
theorem parseValue_200_not_range_check :
    (∀ c ∈ bytes "200", isDigitOf 10 c) ∧ digitsValue 10 0 (bytes "200") = 200 ∧
      ¬ failsRangeCheck asciiRuntime (bytes "200") ∧
      failsStrconvRange asciiRuntime (bytes "200") := by
  refine ⟨by decide, by decide, by decide, ?_⟩
  unfold failsStrconvRange
  decide

/-- C17, amended: for a well-formed numeric literal (decimal digits, `-` and
decimal digits, or `0x` and hexadecimal digits) that denotes an integer from
-128 to -1 or from 16 to 127, `parseValue` fails through the range-check branch,
with the message that the value must be between 0 and 15 inclusive; for one
that denotes an integer below -128 or above 127 it fails with the range error of
`strconv.ParseInt` instead. -/
theorem parseValue_out_of_range (rt : GoRuntime) (ds : GoString) (hne : ds ≠ []) :
    ((∀ c ∈ ds, isDigitOf 10 c) →
      (15 < digitsValue 10 0 ds → digitsValue 10 0 ds ≤ 127 → failsRangeCheck rt ds) ∧
      (127 < digitsValue 10 0 ds → failsStrconvRange rt ds ∧ ¬ failsRangeCheck rt ds) ∧
      (0 < digitsValue 10 0 ds → digitsValue 10 0 ds ≤ 128 →
        failsRangeCheck rt (0x2D :: ds)) ∧
      (128 < digitsValue 10 0 ds →
        failsStrconvRange rt (0x2D :: ds) ∧ ¬ failsRangeCheck rt (0x2D :: ds))) ∧
    ((∀ c ∈ ds, isDigitOf 16 c) →
      (15 < digitsValue 16 0 ds → digitsValue 16 0 ds ≤ 127 →
        failsRangeCheck rt (bytes "0x" ++ ds)) ∧
      (127 < digitsValue 16 0 ds →
        failsStrconvRange rt (bytes "0x" ++ ds) ∧ ¬ failsRangeCheck rt (bytes "0x" ++ ds))) := by
  constructor
  · intro hd
    obtain ⟨a1, a2⟩ := parseValue_decimal rt ds hne hd
    have hstr : 127 < digitsValue 10 0 ds → failsStrconvRange rt ds := by
      intro h
      have h15 : ¬ digitsValue 10 0 ds ≤ 15 := by omega
      have h127 : ¬ digitsValue 10 0 ds ≤ 127 := by omega
      unfold failsStrconvRange
      rw [a1, a2]
      simp only [h15, h127, if_false]
    have hneg : 128 < digitsValue 10 0 ds → failsStrconvRange rt (0x2D :: ds) := by
      intro h
      obtain ⟨b1, b2⟩ := parseValue_neg_decimal rt ds hne hd (by omega)
      have h128 : ¬ digitsValue 10 0 ds ≤ 128 := by omega
      unfold failsStrconvRange
      rw [b1, b2]
      simp only [h128, if_false]
    refine ⟨?_, fun h => ⟨hstr h, strconvRange_not_rangeCheck rt _ (hstr h)⟩, ?_,
      fun h => ⟨hneg h, strconvRange_not_rangeCheck rt _ (hneg h)⟩⟩
    · intro h1 h2
      have h15 : ¬ digitsValue 10 0 ds ≤ 15 := by omega
      unfold failsRangeCheck
      rw [a1, a2]
      simp only [h15, h2, if_true, if_false]
    · intro h1 h2
      obtain ⟨b1, b2⟩ := parseValue_neg_decimal rt ds hne hd h1
      unfold failsRangeCheck
      rw [b1, b2]
      simp only [h2, if_true]
  · intro hd
    obtain ⟨a1, a2⟩ := parseValue_hex rt ds hne hd
    have hstr : 127 < digitsValue 16 0 ds → failsStrconvRange rt (bytes "0x" ++ ds) := by
      intro h
      have h15 : ¬ digitsValue 16 0 ds ≤ 15 := by omega
      have h127 : ¬ digitsValue 16 0 ds ≤ 127 := by omega
      unfold failsStrconvRange
      rw [a1, a2]
      simp only [h15, h127, if_false]
    refine ⟨?_, fun h => ⟨hstr h, strconvRange_not_rangeCheck rt _ (hstr h)⟩⟩
    intro h1 h2
    have h15 : ¬ digitsValue 16 0 ds ≤ 15 := by omega
    unfold failsRangeCheck
    rw [a1, a2]
    simp only [h15, h2, if_true, if_false]

/-- Witness of C17, amended: `16` and `-1` fail through the range check. -/
theorem parseValue_out_of_range_witness :
    failsRangeCheck asciiRuntime (bytes "16") ∧ failsRangeCheck asciiRuntime (bytes "-1") :=
  have h := (parseValue_out_of_range asciiRuntime (bytes "16") (by decide)).1 (by decide)
  have g := (parseValue_out_of_range asciiRuntime (bytes "1") (by decide)).1 (by decide)
  ⟨h.1 (by decide) (by decide), g.2.2.1 (by decide) (by decide)⟩

/-! ### `parseLine` of `csc364asm.go` -/

theorem parseLine_skip (rt : GoRuntime) (text : GoString) (off : Nat)
    (h : blankOrComment text) : main.parseLine rt text off = .ret (none, none) := by
  unfold blankOrComment at h
  have h1 : (TrimSpace text).length = 0 ∨ (TrimSpace text).head? = some 0x23 := by
    rcases h with h | h
    · left; rw [h]; rfl
    · right; exact h
  simp only [main.parseLine, h1, if_true]

theorem parseLine_encode (rt : GoRuntime) (text : GoString) (off : Nat)
    (h : ¬ blankOrComment text) :
    main.parseLine rt text off =
      main.parseLine.encode rt (Fields (ToLower rt (TrimSpace text))) off := by
  have h1 : ¬ ((TrimSpace text).length = 0 ∨ (TrimSpace text).head? = some 0x23) := by
    intro hc
    apply h
    rcases hc with hc | hc
    · left; exact List.length_eq_zero.mp hc
    · right; exact hc
  simp only [main.parseLine, h1, if_false]

theorem blankOrComment_joinTokens (m : GoString) (ts : List GoString)
    (hall : ∀ t ∈ m :: ts, plain t = true) (hc : m.head? ≠ some commentLeadingChar) :
    ¬ blankOrComment (joinTokens (m :: ts)) := by
  have hm : plain m = true := hall m (List.mem_cons_self m ts)
  obtain ⟨b, m1, hbm⟩ := List.exists_cons_of_ne_nil (plain_ne_nil hm)
  obtain ⟨s, hs⟩ := joinTokens_head m ts b m1 hbm
  unfold blankOrComment
  rw [TrimSpace_joinTokens (m :: ts) hall, hs]
  rw [hbm] at hc
  simpa using hc

/-- A line of plain tokens: `parseLine` works on these tokens. -/
theorem parseLine_joinTokens (rt : GoRuntime) (m : GoString) (ts : List GoString) (off : Nat)
    (hall : ∀ t ∈ m :: ts, plain t = true) (hc : m.head? ≠ some commentLeadingChar) :
    main.parseLine rt (joinTokens (m :: ts)) off = main.parseLine.encode rt (m :: ts) off := by
  rw [parseLine_encode rt _ off (blankOrComment_joinTokens m ts hall hc),
    (line_joinTokens rt (m :: ts) hall).2]

theorem encode_four (rt : GoRuntime) (tok0 tok1 tok2 tok3 : GoString) (off v d a b : Nat)
    (hi : main.parseInstruction tok0 = (v, none)) (hd : main.parseRegister tok1 = (d, none))
    (ha : main.parseRegA rt v tok2 = (a, none)) (hb : main.parseRegB rt v tok3 = (b, none)) :
    main.parseLine.encode rt [tok0, tok1, tok2, tok3] off =
      .ret (some ⟨.RecordTypeData, off,
        [v ||| (d &&& 0x0F), ((a <<< 4) % 256) ||| (b &&& 0x0F)]⟩, none) := by
  simp [main.parseLine.encode, hi, hd, ha, hb]

theorem encode_three (rt : GoRuntime) (tok0 tok1 tok2 : GoString) (off v d a : Nat)
    (hi : main.parseInstruction tok0 = (v, none)) (hv : v = 0x00 ∨ v = 0x10)
    (hd : main.parseRegister tok1 = (d, none)) (ha : main.parseRegA rt v tok2 = (a, none)) :
    main.parseLine.encode rt [tok0, tok1, tok2] off =
      .ret (some ⟨.RecordTypeData, off,
        [v ||| (d &&& 0x0F), ((a <<< 4) % 256) ||| (0 &&& 0x0F)]⟩, none) := by
  rcases hv with hv | hv <;> subst hv <;> simp [main.parseLine.encode, hi, hd, ha]

theorem encode_count (rt : GoRuntime) (tokens : List GoString) (off : Nat)
    (h : tokens.length < 3 ∨ tokens.length > 4) :
    main.parseLine.encode rt tokens off =
      .ret (none, some (bytes "Invalid number of tokens")) := by
  simp only [main.parseLine.encode, h, if_true]

theorem encode_unknown (rt : GoRuntime) (tok0 : GoString) (rest : List GoString) (off : Nat)
    (hlen : rest.length = 2 ∨ rest.length = 3) (hcat : main.InstructionMap.lookup tok0 = none) :
    main.parseLine.encode rt (tok0 :: rest) off =
      .ret (none, some (bytes "Unable to parse token '" ++ tok0 ++ bytes "' as instruction")) := by
  have h : ¬ ((tok0 :: rest).length < 3 ∨ (tok0 :: rest).length > 4) := by
    simp only [List.length_cons]; omega
  simp only [main.parseLine.encode, h, if_false, List.getElem?_cons_zero, main.parseInstruction,
    hcat]

theorem mov_line_tokens (t1 t2 t3 : GoString) (h1 : plain t1 = true) (h2 : plain t2 = true)
    (h3 : plain t3 = true) : ∀ t ∈ [bytes "mov", t1, t2, t3], plain t = true := by
  intro t ht
  simp only [List.mem_cons, List.mem_singleton, List.not_mem_nil, or_false] at ht
  rcases ht with h | h | h | h <;> rw [h]
  · decide
  · exact h1
  · exact h2
  · exact h3

/-- C15, the code at the failing input: `parseLine` accepts `mov r0 r1 r2`, four
tokens for the two-operand `mov`, and emits the record `[0x00, 0x12]`, whose
second byte has the low nibble 2; it accepts `not r1 r2 r3` likewise.  The
instructions of three operands do need four tokens. -/
theorem parseLine_mov_extra_operand (rt : GoRuntime) (off : Nat) :
    main.parseLine rt (bytes "mov r0 r1 r2") off =
      .ret (some ⟨.RecordTypeData, off, [0x00, 0x12]⟩, none) ∧
    Instruction.GetParams (bytes "mov") = some [ParamRegister, ParamRegister] ∧
    (0x12 : Nat) &&& 0x0F = 2 ∧
    main.parseLine rt (bytes "not r1 r2 r3") off =
      .ret (some ⟨.RecordTypeData, off, [0x11, 0x23]⟩, none) ∧
    main.parseLine rt (bytes "add r1 r2") off =
      .ret (none, some (bytes "Not enough arguments provided for instruction")) := by
  have h1 : bytes "mov r0 r1 r2" = joinTokens [bytes "mov", bytes "r0", bytes "r1", bytes "r2"] := by
    decide
  have h2 : bytes "not r1 r2 r3" = joinTokens [bytes "not", bytes "r1", bytes "r2", bytes "r3"] := by
    decide
  have h3 : bytes "add r1 r2" = joinTokens [bytes "add", bytes "r1", bytes "r2"] := by
    decide
  refine ⟨?_, by decide, by decide, ?_, ?_⟩
  · rw [h1, parseLine_joinTokens rt _ _ off (by decide) (by decide)]
    exact encode_four rt _ _ _ _ off 0x00 0 1 2 (by decide) (by decide) rfl rfl
  · rw [h2, parseLine_joinTokens rt _ _ off (by decide) (by decide)]
    exact encode_four rt _ _ _ _ off 0x10 1 2 3 (by decide) (by decide) rfl rfl
  · rw [h3, parseLine_joinTokens rt _ _ off (by decide) (by decide)]
    have hi : main.parseInstruction (bytes "add") = (0x40, none) := by decide
    simp [main.parseLine.encode, hi]

/-- C16 as stated fails: `jmp r0` is neither blank nor a comment, its first token
`jmp` is not a catalog mnemonic, and `parseLine` returns the error
`Invalid number of tokens`, which does not name `jmp`. -/
theorem parseLine_jmp_r0_message :
    ¬ blankOrComment (bytes "jmp r0") ∧
    Fields (ToLower asciiRuntime (TrimSpace (bytes "jmp r0"))) = [bytes "jmp", bytes "r0"] ∧
    main.InstructionMap.lookup (bytes "jmp") = none ∧
    main.parseLine asciiRuntime (bytes "jmp r0") 0 =
      .ret (none, some (bytes "Invalid number of tokens")) ∧
    ¬ (bytes "jmp" <:+: bytes "Invalid number of tokens") := by
  decide

/-- C16, amended: for a line that is neither blank nor a comment and whose first
token is not a catalog mnemonic, `parseLine` returns an error; when the line has
3 or 4 tokens its message, `Unable to parse token '<token>' as instruction`,
names that token, and when it has fewer than 3 or more than 4 tokens the message
is `Invalid number of tokens`. -/
theorem parseLine_unknown_mnemonic (rt : GoRuntime) (text : GoString) (off : Nat)
    (tok0 : GoString) (rest : List GoString) (hnb : ¬ blankOrComment text)
    (ht : Fields (ToLower rt (TrimSpace text)) = tok0 :: rest)
    (hcat : main.InstructionMap.lookup tok0 = none) :
    (rest.length = 2 ∨ rest.length = 3 →
      main.parseLine rt text off =
        .ret (none, some (bytes "Unable to parse token '" ++ tok0 ++ bytes "' as instruction")) ∧
      tok0 <:+: bytes "Unable to parse token '" ++ tok0 ++ bytes "' as instruction") ∧
    (rest.length < 2 ∨ rest.length > 3 →
      main.parseLine rt text off = .ret (none, some (bytes "Invalid number of tokens"))) := by
  rw [parseLine_encode rt text off hnb, ht]
  constructor
  · intro hlen
    exact ⟨encode_unknown rt tok0 rest off hlen hcat, ⟨_, _, rfl⟩⟩
  · intro hlen
    exact encode_count rt (tok0 :: rest) off (by simp only [List.length_cons]; omega)

/-- Witness of C16, amended: `jmp r0 r1`. -/
theorem parseLine_unknown_mnemonic_witness :
    main.parseLine asciiRuntime (bytes "jmp r0 r1") 7 =
      .ret (none, some (bytes "Unable to parse token 'jmp' as instruction")) :=
  ((parseLine_unknown_mnemonic asciiRuntime (bytes "jmp r0 r1") 7 (bytes "jmp")
    [bytes "r0", bytes "r1"] (by decide) (by decide) (by decide)).1 (Or.inl rfl)).1

theorem Next_addi_short_panics (rt : GoRuntime) :
    Parser.Next rt (NewParser [bytes "addi r1 r2 5"]) = (.panic, ⟨[], 1⟩) := by
  have hj : bytes "addi r1 r2 5" =
      joinTokens [bytes "addi", bytes "r1", bytes "r2", bytes "5"] := by decide
  have hall := addi_line_tokens (bytes "5") (by decide)
  have hs : ¬ skips rt (bytes "addi r1 r2 5") := by
    rw [hj]
    exact not_skips_joinTokens rt (bytes "addi") [bytes "r1", bytes "r2", bytes "5"]
      (by decide) (by decide) (fun t ht => hall t (List.mem_cons_of_mem _ ht))
  have hloop : Parser.Next.loop rt 1 [bytes "addi", bytes "r1", bytes "r2", bytes "5"]
      [ParamRegister, ParamRegister, ParamNumeric] 0 [0x60, 0, 0, 0] = .panic := rfl
  rw [show NewParser [bytes "addi r1 r2 5"] = ⟨[bytes "addi r1 r2 5"], 0⟩ from rfl,
    Next_body rt _ [] 0 hs,
    body_operands rt (0 + 1) _ (bytes "addi") [bytes "r1", bytes "r2", bytes "5"] 0x60
      [ParamRegister, ParamRegister, ParamNumeric]
      (by rw [hj]; exact (line_joinTokens rt _ hall).2) (by decide) (by decide) rfl, hloop]

/-- C19, the code at the failing inputs: on `addi r1 r2 5` `parseLine` produces
the record `[0x61, 0x25]` and `Parser.Next` panics; on `addi r1 r2 105`
`parseLine` fails and `Parser.Next` returns the word `[0x61, 0x25]`; on
`mov r0 r1 r2` `parseLine` produces the record `[0x00, 0x12]` and `Parser.Next`
returns the arity error. -/
theorem paths_disagree (rt : GoRuntime) (off : Nat) :
    (main.parseLine rt (bytes "addi r1 r2 5") off =
        .ret (some ⟨.RecordTypeData, off, [0x61, 0x25]⟩, none) ∧
      Parser.Next rt (NewParser [bytes "addi r1 r2 5"]) = (.panic, ⟨[], 1⟩)) ∧
    (main.parseLine rt (bytes "addi r1 r2 105") off =
        .ret (none, some (wrapMessage (bytes "105") (rangeMessage (bytes "105")))) ∧
      Parser.Next rt (NewParser [bytes "addi r1 r2 105"]) =
        (.ret ⟨[0x61, 0x25], true, none⟩, ⟨[], 1⟩)) ∧
    (main.parseLine rt (bytes "mov r0 r1 r2") off =
        .ret (some ⟨.RecordTypeData, off, [0x00, 0x12]⟩, none) ∧
      Parser.Next rt (NewParser [bytes "mov r0 r1 r2"]) =
        (.ret ⟨[], true, some ⟨bytes "Instruction 'MOV' expects 2 parameters, 3 provided", 1⟩⟩,
          ⟨[], 1⟩)) := by
  have h1 : bytes "addi r1 r2 5" =
      joinTokens [bytes "addi", bytes "r1", bytes "r2", bytes "5"] := by decide
  have h2 : bytes "addi r1 r2 105" =
      joinTokens [bytes "addi", bytes "r1", bytes "r2", bytes "105"] := by decide
  have h3 : bytes "mov r0 r1 r2" =
      joinTokens [bytes "mov", bytes "r0", bytes "r1", bytes "r2"] := by decide
  refine ⟨⟨?_, Next_addi_short_panics rt⟩, ⟨?_, ?_⟩, ⟨?_, ?_⟩⟩
  · rw [h1, parseLine_joinTokens rt _ _ off (by decide) (by decide)]
    exact encode_four rt _ _ _ _ off 0x60 1 2 5 (by decide) (by decide) rfl rfl
  · rw [h2, parseLine_joinTokens rt _ _ off (by decide) (by decide)]
    have hi : main.parseInstruction (bytes "addi") = (0x60, none) := by decide
    have hd : main.parseRegister (bytes "r1") = (1, none) := by decide
    have ha : main.parseRegA rt 0x60 (bytes "r2") = (2, none) := rfl
    have hb : main.parseRegB rt 0x60 (bytes "105") =
        (0, some (wrapMessage (bytes "105") (rangeMessage (bytes "105")))) := rfl
    simp [main.parseLine.encode, hi, hd, ha, hb]
  · rw [show NewParser [bytes "addi r1 r2 105"] = ⟨[bytes "addi r1 r2 105"], 0⟩ from rfl]
    exact Next_word rt (bytes "addi") [bytes "r1", bytes "r2", bytes "105"] [1, 2, 5] 0x60
      [ParamRegister, ParamRegister, ParamNumeric] [] 0 (by decide) (by decide) (by decide)
      ⟨Or.inl ⟨rfl, by decide⟩, Or.inl ⟨rfl, by decide⟩, Or.inr ⟨by decide, rfl⟩, trivial⟩
      (by decide)
  · rw [h3, parseLine_joinTokens rt _ _ off (by decide) (by decide)]
    exact encode_four rt _ _ _ _ off 0x00 0 1 2 (by decide) (by decide) rfl rfl
  · have hall := mov_line_tokens (bytes "r0") (bytes "r1") (bytes "r2") (by decide) (by decide)
      (by decide)
    have hs : ¬ skips rt (bytes "mov r0 r1 r2") := by
      rw [h3]
      exact not_skips_joinTokens rt (bytes "mov") [bytes "r0", bytes "r1", bytes "r2"]
        (by decide) (by decide) (fun t ht => hall t (List.mem_cons_of_mem _ ht))
    rw [show NewParser [bytes "mov r0 r1 r2"] = ⟨[bytes "mov r0 r1 r2"], 0⟩ from rfl,
      Next_body rt _ [] 0 hs,
      body_arity rt (0 + 1) _ (bytes "mov") [bytes "r0", bytes "r1", bytes "r2"] 0x00
        [ParamRegister, ParamRegister]
        (by rw [h3]; exact (line_joinTokens rt _ hall).2) (by decide) (by decide) (by decide),
      ToUpper_ascii rt (bytes "mov") (by decide)]
    rfl

/-! ### The four-bit invariant -/

theorem parseRegister_lt (tok : GoString) (r : Nat) (h : asm.parseRegister tok = (r, none)) :
    r < 16 := by
  unfold asm.parseRegister at h
  by_cases hv : (Register.GetValue tok).2 = true
  · simp only [hv, if_true, Prod.mk.injEq, and_true] at h
    have hm : Register.GetValue tok = (r, true) := by
      rw [← h, ← hv]
    exact (registerMap_facts _ (Register_mem tok r hm)).2
  · simp only [hv, if_false] at h
    simp at h

theorem parseNumeric_lt (rt : GoRuntime) (tok : GoString) (r : Nat)
    (h : parseNumeric rt tok = .ret (r, none)) : r < 16 := by
  simp only [parseNumeric] at h
  generalize (if tok.length > 2 ∧ tok.take 2 = bytes "0x" then 16 else 10) = base at h
  by_cases hlen : tok.length < 2
  · simp only [hlen, if_true] at h
    exact absurd h (by simp)
  · simp only [hlen, if_false] at h
    cases he : (ParseInt (tok.drop 2) base 8).2 with
    | some err => rw [he] at h; simp at h
    | none =>
      rw [he] at h
      simp only at h
      by_cases hr : (ParseInt (tok.drop 2) base 8).1 < 0 ∨ (ParseInt (tok.drop 2) base 8).1 > 15
      · simp only [hr, if_true] at h
        simp at h
      · simp only [hr, if_false, Run.ret.injEq, Prod.mk.injEq, and_true] at h
        rw [← h]
        omega

/-- The buffer of `Parser.Next`: four bytes, an opcode with a zero low nibble and
three 4-bit values. -/
theorem loop_nibbles (rt : GoRuntime) (k : Nat) (tokens : List GoString) :
    ∀ (ps : List InstructionParamType) (i : Nat) (d0 d1 d2 d3 : Nat) (out : List Nat),
      d1 < 16 → d2 < 16 → d3 < 16 →
      Parser.Next.loop rt k tokens ps i [d0, d1, d2, d3] = .ret (.inl out) →
      ∃ e1 e2 e3, out = [d0, e1, e2, e3] ∧ e1 < 16 ∧ e2 < 16 ∧ e3 < 16 := by
  intro ps
  induction ps with
  | nil =>
    intro i d0 d1 d2 d3 out h1 h2 h3 h
    simp only [Parser.Next.loop, Run.ret.injEq, Sum.inl.injEq] at h
    exact ⟨d1, d2, d3, h.symm, h1, h2, h3⟩
  | cons p ps ih =>
    intro i d0 d1 d2 d3 out h1 h2 h3 h
    rw [Parser.Next.loop] at h
    cases htok : tokens[i + 1]? with
    | none => rw [htok] at h; exact absurd h (by simp)
    | some token =>
      rw [htok] at h
      simp only at h
      have hval : ∀ tmp, (if p = ParamRegister then Run.ret (asm.parseRegister token)
          else parseNumeric rt token) = .ret (tmp, none) → tmp < 16 := by
        intro tmp hv
        by_cases hp : p = ParamRegister
        · simp only [hp, if_true, Run.ret.injEq] at hv
          exact parseRegister_lt token tmp hv
        · simp only [hp, if_false] at hv
          exact parseNumeric_lt rt token tmp hv
      cases hr : (if p = ParamRegister then Run.ret (asm.parseRegister token)
          else parseNumeric rt token) with
      | panic => rw [hr] at h; exact absurd h (by simp)
      | ret x =>
        obtain ⟨tmp, err⟩ := x
        rw [hr] at h
        cases err with
        | some msg => simp at h
        | none =>
          have htmp := hval tmp hr
          simp only at h
          by_cases hlen : i + 1 < [d0, d1, d2, d3].length
          · simp only [hlen, if_true] at h
            simp only [List.length_cons, List.length_nil] at hlen
            have hi : i = 0 ∨ i = 1 ∨ i = 2 := by omega
            rcases hi with hi | hi | hi <;> subst hi
            · exact ih _ d0 tmp d2 d3 out htmp h2 h3 h
            · exact ih _ d0 d1 tmp d3 out h1 htmp h3 h
            · exact ih _ d0 d1 d2 tmp out h1 h2 htmp h
          · simp only [hlen, if_false] at h
            exact absurd h (by simp)

theorem scan_body (rt : GoRuntime) : ∀ (lines : List GoString) (n : Nat) (r : NextResult),
    (Parser.Next.scan rt lines n).1 = .ret r → r.ok = true →
    ∃ k line, Parser.Next.body rt k line = .ret r := by
  intro lines
  induction lines with
  | nil =>
    intro n r h hok
    simp only [Parser.Next.scan, Run.ret.injEq] at h
    rw [← h] at hok
    simp at hok
  | cons text rest ih =>
    intro n r h hok
    by_cases hs : skips rt text
    · unfold skips at hs
      simp only [Parser.Next.scan, hs, if_true] at h
      exact ih (n + 1) r h hok
    · have hs1 := hs
      unfold skips at hs1
      simp only [Parser.Next.scan, hs1, if_false] at h
      exact ⟨_, _, h⟩

theorem body_buffer (rt : GoRuntime) (k : Nat) (line : GoString) (w : List Nat)
    (h : Parser.Next.body rt k line = .ret ⟨w, true, none⟩) :
    ∃ tok0 ops params d1 d2 d3,
      Fields line = tok0 :: ops ∧ Instruction.GetParams tok0 = some params ∧
      Parser.Next.loop rt k (tok0 :: ops) params 0 [(Instruction.GetValue tok0).1, 0, 0, 0] =
        .ret (.inl [(Instruction.GetValue tok0).1, d1, d2, d3]) ∧
      compressData [(Instruction.GetValue tok0).1, d1, d2, d3] = .ret w ∧
      (Instruction.GetValue tok0).1 &&& 0xF0 = (Instruction.GetValue tok0).1 ∧
      d1 &&& 0x0F = d1 ∧ d2 &&& 0x0F = d2 ∧ d3 &&& 0x0F = d3 ∧
      w = [(Instruction.GetValue tok0).1 ||| d1, (d2 <<< 4) ||| d3] := by
  simp only [Parser.Next.body] at h
  generalize hF : Fields line = tokens at h
  cases tokens with
  | nil => simp at h
  | cons tok0 ops =>
    simp only [List.getElem?_cons_zero] at h
    by_cases hv : (Instruction.GetValue tok0).2 = true
    · simp only [hv, Bool.not_true, Bool.false_eq_true, if_false] at h
      have hmem : (tok0, (Instruction.GetValue tok0).1) ∈ instructionMap :=
        GetValue_mem tok0 _ (by rw [← hv])
      have hv0 := (instructionMap_facts _ hmem).2.2
      simp only at hv0
      cases hp : Instruction.GetParams tok0 with
      | none => rw [hp] at h; simp at h
      | some params =>
        rw [hp] at h
        simp only at h
        by_cases hk : (tok0 :: ops).length - 1 ≠ params.length
        · simp only [hk, if_true, ne_eq, not_false_eq_true] at h
          simp at h
        · simp only [hk, if_false] at h
          cases hl : Parser.Next.loop rt k (tok0 :: ops) params 0
              [(Instruction.GetValue tok0).1, 0, 0, 0] with
          | panic => rw [hl] at h; simp at h
          | ret x =>
            rw [hl] at h
            cases x with
            | inr e => simp at h
            | inl data =>
              simp only at h
              obtain ⟨e1, e2, e3, hd, b1, b2, b3⟩ := loop_nibbles rt k (tok0 :: ops) params 0
                _ 0 0 0 data (by decide) (by decide) (by decide) hl
              cases hc : compressData data with
              | panic => rw [hc] at h; simp at h
              | ret w1 =>
                rw [hc] at h
                simp only [Run.ret.injEq, NextResult.mk.injEq, and_true] at h
                subst h
                subst hd
                have n1 := land_0f_nibble e1 b1
                have n2 := land_0f_nibble e2 b2
                have n3 := land_0f_nibble e3 b3
                refine ⟨tok0, ops, params, e1, e2, e3, rfl, hp, hl, hc, hv0, n1, n2, n3, ?_⟩
                have hsl : ∀ x : Nat, x < 16 → x <<< 4 < 256 := by decide
                have hs2 := hsl e2 b2
                simp [compressData, hv0, n1, n2, n3, Nat.mod_eq_of_lt hs2] at hc
                exact hc.symm
    · simp only [hv, Bool.not_false, if_true] at h
      simp at h

/-- C20: every value `parseRegister` and `parseNumeric` return without error is
in 0..15 and every opcode byte `Instruction.GetValue` returns has a zero low
nibble; so, for every word `w` that `Parser.Next` returns, the buffer that its
loop over the operands has filled and that it gives to `compressData` is the
opcode byte, equal to its `0xF0` mask, and three bytes equal to their `0x0F`
masks: the masks discard no set bit and `w` is the buffer packed as it is. -/
theorem four_bit_invariant (rt : GoRuntime) :
    (∀ (tok : GoString) (r : Nat), asm.parseRegister tok = (r, none) → r < 16) ∧
    (∀ (tok : GoString) (r : Nat), Register.GetValue tok = (r, true) → r < 16) ∧
    (∀ (tok : GoString) (r : Nat), parseNumeric rt tok = .ret (r, none) → r < 16) ∧
    (∀ (m : GoString) (v : Nat), Instruction.GetValue m = (v, true) →
      v &&& 0x0F = 0 ∧ v &&& 0xF0 = v) ∧
    (∀ (p : Parser) (w : List Nat), (Parser.Next rt p).1 = .ret ⟨w, true, none⟩ →
      ∃ k line, Parser.Next.body rt k line = .ret ⟨w, true, none⟩) ∧
    (∀ (k : Nat) (line : GoString) (w : List Nat),
      Parser.Next.body rt k line = .ret ⟨w, true, none⟩ →
      ∃ tok0 ops params d1 d2 d3,
        Fields line = tok0 :: ops ∧ Instruction.GetParams tok0 = some params ∧
        Parser.Next.loop rt k (tok0 :: ops) params 0 [(Instruction.GetValue tok0).1, 0, 0, 0] =
          .ret (.inl [(Instruction.GetValue tok0).1, d1, d2, d3]) ∧
        compressData [(Instruction.GetValue tok0).1, d1, d2, d3] = .ret w ∧
        (Instruction.GetValue tok0).1 &&& 0xF0 = (Instruction.GetValue tok0).1 ∧
        d1 &&& 0x0F = d1 ∧ d2 &&& 0x0F = d2 ∧ d3 &&& 0x0F = d3 ∧
        w = [(Instruction.GetValue tok0).1 ||| d1, (d2 <<< 4) ||| d3]) := by
  refine ⟨parseRegister_lt, ?_, parseNumeric_lt rt, ?_, ?_, body_buffer rt⟩
  · intro tok r h
    exact (registerMap_facts _ (Register_mem tok r h)).2
  · intro m v h
    have hall : ∀ p ∈ instructionMap, p.2 &&& 0x0F = 0 ∧ p.2 &&& 0xF0 = p.2 := by decide
    exact hall _ (GetValue_mem m v h)
  · intro p w h
    exact scan_body rt p.reader p.currentLine _ h rfl

/-! ### Letter case and white-space layout -/

theorem isCont_false {b : Nat} (h : isCont b = false) : b < 0x80 ∨ 0xBF < b := by
  by_cases h1 : 0x80 ≤ b
  · by_cases h2 : b ≤ 0xBF
    · simp [isCont, h1, h2] at h
    · omega
  · omega

theorem isCont_true {b : Nat} (h : isCont b = true) : 0x80 ≤ b ∧ b ≤ 0xBF := by
  simpa only [isCont, Bool.and_eq_true, decide_eq_true_eq] using h

theorem headCont_nil : headCont [] = [] := rfl

theorem headCont_cons (s0 : Nat) (t : GoString) :
    headCont (s0 :: t) = s0 :: t.takeWhile isCont := rfl

/-- What `DecodeRune` returns depends on the first byte and on the continuation
bytes right after it only. -/
theorem DecodeRune_headCont (s : GoString) : DecodeRune s = DecodeRune (headCont s) := by
  rcases s with _ | ⟨s0, _ | ⟨s1, t⟩⟩
  · rw [headCont_nil]
  · rw [headCont_cons]; rfl
  by_cases h0 : s0 < 0x80
  · simp only [headCont, DecodeRune, h0, if_true]
  have hlo : 0x80 ≤ (if s0 = 0xE0 then 0xA0 else if s0 = 0xF0 then 0x90 else 0x80) := by
    split_ifs <;> omega
  have hhi : (if s0 = 0xED then 0x9F else if s0 = 0xF4 then 0x8F else 0xBF) ≤ 0xBF := by
    split_ifs <;> omega
  have hsz : (if s0 < 0xE0 then 2 else if s0 < 0xF0 then 3 else 4) ≤ 4 := by
    split_ifs <;> omega
  cases c1 : isCont s1 with
  | false =>
    have := isCont_false c1
    simp only [headCont, List.takeWhile, c1, DecodeRune, h0, if_false, List.length_cons,
      List.length_nil]
    generalize (if s0 = 0xE0 then 0xA0 else if s0 = 0xF0 then 0x90 else 0x80) = lo at hlo ⊢
    generalize (if s0 = 0xED then 0x9F else if s0 = 0xF4 then 0x8F else 0xBF) = hi at hhi ⊢
    generalize (if s0 < 0xE0 then 2 else if s0 < 0xF0 then 3 else 4) = sz at hsz ⊢
    split_ifs <;> first | omega | rfl
  | true =>
    have := isCont_true c1
    rcases t with _ | ⟨s2, t2⟩
    · simp only [headCont, List.takeWhile, c1]
    cases c2 : isCont s2 with
    | false =>
      simp only [headCont, List.takeWhile, c1, c2, DecodeRune, h0, if_false, List.length_cons,
        List.length_nil, Bool.not_false, Bool.not_true]
      generalize (if s0 = 0xE0 then 0xA0 else if s0 = 0xF0 then 0x90 else 0x80) = lo at hlo ⊢
      generalize (if s0 = 0xED then 0x9F else if s0 = 0xF4 then 0x8F else 0xBF) = hi at hhi ⊢
      generalize (if s0 < 0xE0 then 2 else if s0 < 0xF0 then 3 else 4) = sz at hsz ⊢
      split_ifs <;> first | omega | rfl
    | true =>
      rcases t2 with _ | ⟨s3, t3⟩
      · simp only [headCont, List.takeWhile, c1, c2]
      cases c3 : isCont s3 with
      | false =>
        simp only [headCont, List.takeWhile, c1, c2, c3, DecodeRune, h0, if_false,
          List.length_cons, List.length_nil, Bool.not_false, Bool.not_true]
        generalize (if s0 = 0xE0 then 0xA0 else if s0 = 0xF0 then 0x90 else 0x80) = lo at hlo ⊢
        generalize (if s0 = 0xED then 0x9F else if s0 = 0xF4 then 0x8F else 0xBF) = hi at hhi ⊢
        generalize (if s0 < 0xE0 then 2 else if s0 < 0xF0 then 3 else 4) = sz at hsz ⊢
        split_ifs <;> first | omega | rfl
      | true =>
        simp only [headCont, List.takeWhile, c1, c2, c3, DecodeRune, h0, if_false,
          List.length_cons, List.length_nil, Bool.not_false, Bool.not_true]
        generalize (if s0 = 0xE0 then 0xA0 else if s0 = 0xF0 then 0x90 else 0x80) = lo at hlo ⊢
        generalize (if s0 = 0xED then 0x9F else if s0 = 0xF4 then 0x8F else 0xBF) = hi at hhi ⊢
        generalize (if s0 < 0xE0 then 2 else if s0 < 0xF0 then 3 else 4) = sz at hsz ⊢
        split_ifs <;> first | omega | rfl

/-- The width `DecodeRune` returns is within the string, at most 4, and not 0
on a string that is not empty. -/
theorem DecodeRune_width (s : GoString) :
    (DecodeRune s).2 ≤ s.length ∧ (DecodeRune s).2 ≤ 4 ∧ (s ≠ [] → 1 ≤ (DecodeRune s).2) := by
  rcases s with _ | ⟨s0, t⟩
  · simp [DecodeRune]
  by_cases h0 : s0 < 0x80
  · simp [DecodeRune_ascii s0 t h0]
  have hsz : 2 ≤ (if s0 < 0xE0 then 2 else if s0 < 0xF0 then 3 else 4) := by
    split_ifs <;> omega
  rcases t with _ | ⟨s1, _ | ⟨s2, _ | ⟨s3, t3⟩⟩⟩ <;>
  · simp only [DecodeRune, h0, if_false, List.length_cons, List.length_nil]
    generalize (if s0 = 0xE0 then 0xA0 else if s0 = 0xF0 then 0x90 else 0x80) = lo
    generalize (if s0 = 0xED then 0x9F else if s0 = 0xF4 then 0x8F else 0xBF) = hi
    generalize (if s0 < 0xE0 then 2 else if s0 < 0xF0 then 3 else 4) = sz at hsz ⊢
    split_ifs <;> simp

theorem takeWhile_isCont_append (t : GoString) (c : Nat) (rest : GoString)
    (hc : isCont c = false) :
    (t ++ c :: rest).takeWhile isCont = t.takeWhile isCont := by
  induction t with
  | nil => simp only [List.nil_append, List.takeWhile, hc]
  | cons x t ih =>
    cases hx : isCont x with
    | false => simp [List.takeWhile_cons, hx]
    | true => simp [List.takeWhile_cons, hx, ih]

theorem isCont_ascii {c : Nat} (h : c < 0x80) : isCont c = false := by
  cases hc : isCont c with
  | false => rfl
  | true => have := isCont_true hc; omega

/-- A byte that is not a continuation byte, and what follows it, is not read by
`DecodeRune` on the text before it. -/
theorem DecodeRune_append (u : GoString) (c : Nat) (rest : GoString) (hu : u ≠ [])
    (hc : isCont c = false) : DecodeRune (u ++ c :: rest) = DecodeRune u := by
  rcases u with _ | ⟨s0, t⟩
  · exact absurd rfl hu
  rw [DecodeRune_headCont, DecodeRune_headCont (s0 :: t), List.cons_append, headCont_cons,
    headCont_cons, takeWhile_isCont_append t c rest hc]

theorem spaceWidth_append (u : GoString) (c : Nat) (rest : GoString) (hu : u ≠ [])
    (hc : isCont c = false) : spaceWidth (u ++ c :: rest) = spaceWidth u := by
  simp only [spaceWidth, DecodeRune_append u c rest hu hc]

theorem spaceWidth_le (s : GoString) : spaceWidth s ≤ s.length := by
  simp only [spaceWidth]
  split_ifs
  · exact (DecodeRune_width s).1
  · exact Nat.zero_le _

theorem trimLeft_append (c : Nat) (y : GoString) (hc : isCont c = false) :
    ∀ (x : GoString) (k : Nat), k ≤ x.length →
      trimLeft k (x ++ c :: y) =
        if trimLeft k x = [] then trimLeft 0 (c :: y) else trimLeft k x ++ c :: y := by
  intro x
  induction x with
  | nil =>
    intro k hk
    have : k = 0 := by simpa using hk
    subst this
    simp [trimLeft]
  | cons b s ih =>
    intro k hk
    cases k with
    | succ k =>
      simp only [List.cons_append]
      simp only [trimLeft]
      exact ih k (by simpa using hk)
    | zero =>
      have hw := spaceWidth_append (b :: s) c y (List.cons_ne_nil b s) hc
      have hle := spaceWidth_le (b :: s)
      simp only [List.cons_append] at hw
      simp only [List.cons_append]
      simp only [trimLeft, hw]
      by_cases h : spaceWidth (b :: s) = 0
      · simp [h]
      · have hk2 : spaceWidth (b :: s) - 1 ≤ s.length := by
          simp only [List.length_cons] at hle; omega
        simp only [h, if_false]
        exact ih _ hk2

theorem Map_append (f : Nat → Nat) (c : Nat) (y : GoString) (hc : isCont c = false) :
    ∀ (x : GoString) (k : Nat), k ≤ x.length →
      Map f k (x ++ c :: y) = Map f k x ++ Map f 0 (c :: y) := by
  intro x
  induction x with
  | nil =>
    intro k hk
    have : k = 0 := by simpa using hk
    subst this
    simp [Map]
  | cons b s ih =>
    intro k hk
    cases k with
    | succ k =>
      simp only [List.cons_append]
      simp only [Map]
      exact ih k (by simpa using hk)
    | zero =>
      have hw := DecodeRune_append (b :: s) c y (List.cons_ne_nil b s) hc
      have hle := (DecodeRune_width (b :: s)).1
      simp only [List.cons_append] at hw
      have hk2 : (DecodeRune (b :: s)).2 - 1 ≤ s.length := by
        simp only [List.length_cons] at hle; omega
      simp only [List.cons_append]
      rw [Map, Map, hw, ih _ hk2, List.append_assoc]

theorem DecodeLastRune_width (s : GoString) : (DecodeLastRune s).2 ≤ s.length := by
  simp only [DecodeLastRune]
  split_ifs with h1 h2 h3
  · exact Nat.zero_le _
  · exact Nat.one_le_iff_ne_zero.mpr h1
  · exact Nat.one_le_iff_ne_zero.mpr h1
  · simp only [ne_eq, not_not] at h3
    omega

/-- The result of `trimRight` does not depend on the fuel, once there is as much
of it as the string is long. -/
theorem trimRight_fuel : ∀ (f g : Nat) (s : GoString), s.length ≤ f → s.length ≤ g →
    trimRight f s = trimRight g s := by
  intro f
  induction f with
  | zero =>
    intro g s hf hg
    have hs : s = [] := List.length_eq_zero.mp (Nat.le_zero.mp hf)
    subst hs
    cases g with
    | zero => rfl
    | succ g => simp [trimRight, DecodeLastRune]
  | succ f ih =>
    intro g s hf hg
    cases g with
    | zero =>
      have hs : s = [] := List.length_eq_zero.mp (Nat.le_zero.mp hg)
      subst hs
      simp [trimRight, DecodeLastRune]
    | succ g =>
      simp only [trimRight]
      by_cases hc : (DecodeLastRune s).2 ≠ 0 ∧ IsSpace (DecodeLastRune s).1 = true
      · rw [if_pos hc, if_pos hc]
        have hw := DecodeLastRune_width s
        have h0 := hc.1
        apply ih <;> simp only [List.length_take] <;> omega
      · rw [if_neg hc, if_neg hc]

theorem trimRight_length (s : GoString) :
    trimRight s.length s =
      if (DecodeLastRune s).2 ≠ 0 ∧ IsSpace (DecodeLastRune s).1 = true then
        trimRight (s.take (s.length - (DecodeLastRune s).2)).length
          (s.take (s.length - (DecodeLastRune s).2))
      else s := by
  rcases Nat.eq_zero_or_pos s.length with h | h
  · have hs : s = [] := List.length_eq_zero.mp h
    subst hs
    simp [trimRight, DecodeLastRune]
  · obtain ⟨f, hf⟩ : ∃ f, s.length = f + 1 := ⟨s.length - 1, by omega⟩
    have hw := DecodeLastRune_width s
    rw [show trimRight s.length s = trimRight (f + 1) s from by rw [hf]]
    simp only [trimRight]
    by_cases hc : (DecodeLastRune s).2 ≠ 0 ∧ IsSpace (DecodeLastRune s).1 = true
    · rw [if_pos hc, if_pos hc]
      have h0 := hc.1
      apply trimRight_fuel <;> simp only [List.length_take] <;> omega
    · rw [if_neg hc, if_neg hc]

theorem DecodeRune_invalid (s0 : Nat) (t : GoString) (h0 : ¬ s0 < 0x80)
    (h : s0 < 0xC2 ∨ 0xF4 < s0) : DecodeRune (s0 :: t) = (RuneError, 1) := by
  simp only [DecodeRune, h0, h, if_true, if_false]

theorem RuneStart_ascii {c : Nat} (h : c < 0x80) : RuneStart c = true := by
  have := Nat.and_le_left (n := c) (m := 0xC0)
  simp only [RuneStart, bne_iff_ne, ne_eq]
  omega

theorem DecodeRune_notStart (b : Nat) (t : GoString) (h : RuneStart b = false) :
    DecodeRune (b :: t) = (RuneError, 1) := by
  have hle := Nat.and_le_left (n := b) (m := 0xC0)
  simp only [RuneStart, bne_eq_false_iff_eq] at h
  have h0 : ¬ b < 0x80 := by omega
  apply DecodeRune_invalid b t h0
  by_contra hc
  have h1 : 0xC2 ≤ b := by omega
  have h2 : b ≤ 0xF4 := by omega
  interval_cases b <;> exact absurd h (by decide)

theorem getD_append_add (q l : GoString) (k : Nat) :
    (q ++ l).getD (q.length + k) 0 = l.getD k 0 := by
  simp [List.getD_eq_getElem?_getD, List.getElem?_append_right]

/-- What `DecodeLastRune` returns on a string of four bytes or more, from its
last four bytes. -/
theorem DecodeLastRune_four (q : GoString) (x3 x2 x1 r : Nat) :
    DecodeLastRune (q ++ [x3, x2, x1, r]) =
      if r < 0x80 then (r, 1)
      else if RuneStart x1 then
        (if (DecodeRune [x1, r]).2 ≠ 2 then (RuneError, 1) else DecodeRune [x1, r])
      else if RuneStart x2 then
        (if (DecodeRune [x2, x1, r]).2 ≠ 3 then (RuneError, 1) else DecodeRune [x2, x1, r])
      else if RuneStart x3 then
        (if (DecodeRune [x3, x2, x1, r]).2 ≠ 4 then (RuneError, 1)
          else DecodeRune [x3, x2, x1, r])
      else (RuneError, 1) := by
  have hlen : (q ++ [x3, x2, x1, r]).length = q.length + 4 := by simp
  have g3 : (q ++ [x3, x2, x1, r]).getD (q.length + 3) 0 = r := by
    rw [getD_append_add]; rfl
  have g2 : (q ++ [x3, x2, x1, r]).getD (q.length + 2) 0 = x1 := by
    rw [getD_append_add]; rfl
  have g1 : (q ++ [x3, x2, x1, r]).getD (q.length + 1) 0 = x2 := by
    rw [getD_append_add]; rfl
  have g0 : (q ++ [x3, x2, x1, r]).getD q.length 0 = x3 := by
    have := getD_append_add q [x3, x2, x1, r] 0
    simpa using this
  have d2 : (q ++ [x3, x2, x1, r]).drop (q.length + 2) = [x1, r] := by
    rw [List.drop_append]; rfl
  have d1 : (q ++ [x3, x2, x1, r]).drop (q.length + 1) = [x2, x1, r] := by
    rw [List.drop_append]; rfl
  have d0 : (q ++ [x3, x2, x1, r]).drop q.length = [x3, x2, x1, r] := by
    simp
  have e1 : q.length + 4 - 1 = q.length + 3 := by omega
  have e2 : q.length + 4 - UTFMax = q.length := by simp [UTFMax]
  have e3 : q.length + 3 - q.length = 3 := by omega
  have e4 : q.length + 4 - 2 = q.length + 2 := by omega
  have e5 : q.length + 2 - 1 = q.length + 1 := by omega
  have e6 : q.length + 1 - 1 = q.length := by omega
  simp only [DecodeLastRune, hlen, e1, e2, e3, e4, g3, RuneSelf]
  simp only [lastRuneStart, e5, e6, g2, g1, g0]
  by_cases hr : r < 0x80
  · simp [hr]
  by_cases h1 : RuneStart x1 = true
  · simp only [hr, h1, if_true, if_false, d2, Nat.add_eq_zero, OfNat.ofNat_ne_zero, and_false]
    by_cases hd : (DecodeRune [x1, r]).2 = 2
    · simp [hd]
    · have : ¬ q.length + 2 + (DecodeRune [x1, r]).2 = q.length + 4 := by omega
      simp [hd, this]
  by_cases h2 : RuneStart x2 = true
  · simp only [hr, h1, h2, if_true, if_false, d1, Nat.add_eq_zero, OfNat.ofNat_ne_zero,
      and_false]
    by_cases hd : (DecodeRune [x2, x1, r]).2 = 3
    · simp [hd]
    · have : ¬ q.length + 1 + (DecodeRune [x2, x1, r]).2 = q.length + 4 := by omega
      simp [hd, this]
  by_cases h3 : RuneStart x3 = true
  · simp only [hr, h1, h2, h3, if_true, if_false, d0, Nat.add_eq_zero, OfNat.ofNat_ne_zero,
      and_false]
    by_cases hd : (DecodeRune [x3, x2, x1, r]).2 = 4
    · simp [hd]
    · have : ¬ q.length + (DecodeRune [x3, x2, x1, r]).2 = q.length + 4 := by omega
      simp [hd, this]
  simp only [hr, h1, h2, h3, if_false, Nat.add_eq_zero, OfNat.ofNat_ne_zero, and_false]
  have hw := (DecodeRune_width (List.drop (q.length - 1) (q ++ [x3, x2, x1, r]))).2.1
  rcases Nat.eq_zero_or_pos q.length with hq | hq
  · have hq2 : q = [] := List.length_eq_zero.mp hq
    subst hq2
    have hx3 : RuneStart x3 = false := by simpa using h3
    simp [DecodeRune_notStart x3 _ hx3]
  · have : q.length - 1 + (DecodeRune (List.drop (q.length - 1) (q ++ [x3, x2, x1, r]))).2 ≠
        q.length + 4 := by omega
    simp [this]

theorem DecodeRune_single (s0 : Nat) :
    DecodeRune [s0] = if s0 < 0x80 then (s0, 1) else (RuneError, 1) := by
  by_cases h0 : s0 < 0x80
  · simp only [DecodeRune, h0, if_true]
  · simp only [DecodeRune, h0, if_false, List.length_singleton]
    split_ifs <;> rfl

theorem DecodeLastRune_one (r : Nat) :
    DecodeLastRune [r] = if r < 0x80 then (r, 1) else (RuneError, 1) := by
  by_cases hr : r < 0x80
  · simp [DecodeLastRune, RuneSelf, hr]
  · simp [DecodeLastRune, RuneSelf, hr, lastRuneStart, UTFMax, DecodeRune_single]

theorem DecodeLastRune_two (x1 r : Nat) :
    DecodeLastRune [x1, r] =
      if r < 0x80 then (r, 1)
      else if (DecodeRune [x1, r]).2 ≠ 2 then (RuneError, 1) else DecodeRune [x1, r] := by
  by_cases hr : r < 0x80
  · simp [DecodeLastRune, RuneSelf, hr]
  · simp [DecodeLastRune, RuneSelf, hr, lastRuneStart, UTFMax]

theorem DecodeLastRune_three (x2 x1 r : Nat) :
    DecodeLastRune [x2, x1, r] =
      if r < 0x80 then (r, 1)
      else if RuneStart x1 then
        (if (DecodeRune [x1, r]).2 ≠ 2 then (RuneError, 1) else DecodeRune [x1, r])
      else if (DecodeRune [x2, x1, r]).2 ≠ 3 then (RuneError, 1)
      else DecodeRune [x2, x1, r] := by
  by_cases hr : r < 0x80
  · simp [DecodeLastRune, RuneSelf, hr]
  · by_cases h1 : RuneStart x1 = true
    · simp [DecodeLastRune, RuneSelf, hr, lastRuneStart, UTFMax, h1]
      by_cases hd : (DecodeRune [x1, r]).2 = 2
      · simp [hd]
      · have : ¬ 1 + (DecodeRune [x1, r]).2 = 3 := by omega
        simp [hd, this]
    · simp [DecodeLastRune, RuneSelf, hr, lastRuneStart, UTFMax, h1]

theorem last_four (y : GoString) (h : 4 ≤ y.length) :
    ∃ y0 x3 x2 x1 r, y = y0 ++ [x3, x2, x1, r] := by
  have hl : (y.drop (y.length - 4)).length = 4 := by
    simp only [List.length_drop]; omega
  have hy := List.take_append_drop (y.length - 4) y
  rcases hd : y.drop (y.length - 4) with _ | ⟨a, _ | ⟨b, _ | ⟨c, _ | ⟨d, _ | ⟨e, t⟩⟩⟩⟩⟩ <;>
    rw [hd] at hl <;> simp at hl
  exact ⟨y.take (y.length - 4), a, b, c, d, by rw [← hd, hy]⟩

theorem last_two (y : GoString) (h : 2 ≤ y.length) : ∃ y0 a b, y = y0 ++ [a, b] := by
  have hl : (y.drop (y.length - 2)).length = 2 := by
    simp only [List.length_drop]; omega
  have hy := List.take_append_drop (y.length - 2) y
  rcases hd : y.drop (y.length - 2) with _ | ⟨a, _ | ⟨b, _ | ⟨c, t⟩⟩⟩ <;>
    rw [hd] at hl <;> simp at hl
  exact ⟨y.take (y.length - 2), a, b, by rw [← hd, hy]⟩

theorem asciiUpper_cons (b : Nat) (s : GoString) :
    asciiUpper (b :: s) = upperByte b :: asciiUpper s := rfl

theorem upperByte_cases (b : Nat) :
    upperByte b = b ∨ (0x61 ≤ b ∧ b ≤ 0x7A ∧ upperByte b = b - 0x20) := by
  unfold upperByte
  split_ifs with h
  · exact Or.inr ⟨h.1, h.2, rfl⟩
  · exact Or.inl rfl

theorem upperByte_high {b : Nat} (h : 0x80 ≤ b) : upperByte b = b := by
  rcases upperByte_cases b with h1 | h1
  · exact h1
  · omega

theorem upperByte_lt {b : Nat} (h : b < 0x80) : upperByte b < 0x80 := by
  rcases upperByte_cases b with h1 | h1 <;> omega

theorem upperByte_isCont (b : Nat) : isCont (upperByte b) = isCont b := by
  rcases upperByte_cases b with h1 | h1
  · rw [h1]
  · rw [isCont_ascii (show upperByte b < 0x80 by omega), isCont_ascii (show b < 0x80 by omega)]

theorem upperByte_RuneStart (b : Nat) : RuneStart (upperByte b) = RuneStart b := by
  rcases upperByte_cases b with h1 | h1
  · rw [h1]
  · rw [RuneStart_ascii (show upperByte b < 0x80 by omega),
      RuneStart_ascii (show b < 0x80 by omega)]

theorem upperByte_IsSpace (b : Nat) : IsSpace (upperByte b) = IsSpace b := by
  rcases upperByte_cases b with h1 | ⟨h1, h2, h3⟩
  · rw [h1]
  · have e1 : IsSpace (upperByte b) = false := by
      simp only [IsSpace]
      rw [if_pos (by omega)]
      simp only [Bool.or_eq_false_iff, decide_eq_false_iff_not]
      omega
    have e2 : IsSpace b = false := by
      simp only [IsSpace]
      rw [if_pos (by omega)]
      simp only [Bool.or_eq_false_iff, decide_eq_false_iff_not]
      omega
    rw [e1, e2]

theorem toLowerRune_upperByte (rt : GoRuntime) (b : Nat) :
    toLowerRune rt (upperByte b) = toLowerRune rt b := by
  rcases upperByte_cases b with h1 | ⟨h1, h2, h3⟩
  · rw [h1]
  · simp only [toLowerRune]
    rw [if_pos (by omega), if_pos (by omega), if_pos (by omega), if_neg (by omega)]
    omega

theorem takeWhile_isCont_upper (t : GoString) :
    (asciiUpper t).takeWhile isCont = t.takeWhile isCont := by
  induction t with
  | nil => rfl
  | cons x t ih =>
    rw [asciiUpper_cons, List.takeWhile_cons, List.takeWhile_cons, upperByte_isCont]
    cases hx : isCont x with
    | false => simp
    | true => simp [ih, upperByte_high (isCont_true hx).1]

theorem DecodeRune_upper_high (b : Nat) (t : GoString) (h : 0x80 ≤ b) :
    DecodeRune (asciiUpper (b :: t)) = DecodeRune (b :: t) := by
  rw [asciiUpper_cons, upperByte_high h, DecodeRune_headCont, DecodeRune_headCont (b :: t),
    headCont_cons, headCont_cons, takeWhile_isCont_upper]

theorem DecodeRune_upper_ascii (b : Nat) (t : GoString) (h : b < 0x80) :
    DecodeRune (asciiUpper (b :: t)) = (upperByte b, 1) := by
  rw [asciiUpper_cons, DecodeRune_ascii _ _ (upperByte_lt h)]

theorem spaceWidth_upper (s : GoString) : spaceWidth (asciiUpper s) = spaceWidth s := by
  rcases s with _ | ⟨b, t⟩
  · rfl
  by_cases h : b < 0x80
  · simp only [spaceWidth, DecodeRune_upper_ascii b t h, DecodeRune_ascii b t h,
      upperByte_IsSpace]
  · simp only [spaceWidth, DecodeRune_upper_high b t (by omega)]

theorem trimLeft_upper : ∀ (s : GoString) (k : Nat),
    trimLeft k (asciiUpper s) = asciiUpper (trimLeft k s) := by
  intro s
  induction s with
  | nil => intro k; cases k <;> rfl
  | cons b s ih =>
    intro k
    cases k with
    | succ k =>
      rw [asciiUpper_cons]
      simp only [trimLeft]
      exact ih k
    | zero =>
      have hw := spaceWidth_upper (b :: s)
      rw [asciiUpper_cons] at hw ⊢
      simp only [trimLeft, hw]
      by_cases h : spaceWidth (b :: s) = 0
      · simp only [h, if_true, asciiUpper_cons]
      · simp only [h, if_false]
        exact ih _

theorem Map_upper (rt : GoRuntime) : ∀ (s : GoString) (k : Nat),
    Map (toLowerRune rt) k (asciiUpper s) = Map (toLowerRune rt) k s := by
  intro s
  induction s with
  | nil => intro k; cases k <;> rfl
  | cons b s ih =>
    intro k
    cases k with
    | succ k =>
      rw [asciiUpper_cons]
      simp only [Map]
      exact ih k
    | zero =>
      by_cases h : b < 0x80
      · have h1 := DecodeRune_upper_ascii b s h
        rw [asciiUpper_cons] at h1 ⊢
        rw [Map, Map, h1, DecodeRune_ascii b s h, toLowerRune_upperByte, ih]
      · have h1 := DecodeRune_upper_high b s (by omega)
        rw [asciiUpper_cons] at h1 ⊢
        rw [Map, Map, h1, ih]

theorem ToLower_upper (rt : GoRuntime) (s : GoString) :
    ToLower rt (asciiUpper s) = ToLower rt s := Map_upper rt s 0

theorem asciiUpper_length (s : GoString) : (asciiUpper s).length = s.length := by
  simp [asciiUpper]

theorem asciiUpper_drop (s : GoString) (k : Nat) :
    (asciiUpper s).drop k = asciiUpper (s.drop k) := by
  simp [asciiUpper, List.map_drop]

theorem asciiUpper_take (s : GoString) (k : Nat) :
    (asciiUpper s).take k = asciiUpper (s.take k) := by
  simp [asciiUpper, List.map_take]

theorem asciiUpper_getD : ∀ (s : GoString) (i : Nat),
    (asciiUpper s).getD i 0 = upperByte (s.getD i 0) := by
  intro s
  induction s with
  | nil => intro i; rfl
  | cons b s ih =>
    intro i
    cases i with
    | zero => rfl
    | succ i => exact ih i

theorem lastRuneStart_upper (s : GoString) (lim : Nat) : ∀ (n start : Nat),
    lastRuneStart (asciiUpper s) lim n start = lastRuneStart s lim n start := by
  intro n
  induction n with
  | zero => intro start; rfl
  | succ n ih =>
    intro start
    simp only [lastRuneStart, asciiUpper_getD, upperByte_RuneStart, ih]

theorem DecodeRune_upper (s : GoString) :
    (DecodeRune (asciiUpper s)).2 = (DecodeRune s).2 ∧
      IsSpace (DecodeRune (asciiUpper s)).1 = IsSpace (DecodeRune s).1 := by
  rcases s with _ | ⟨b, t⟩
  · exact ⟨rfl, rfl⟩
  by_cases h : b < 0x80
  · rw [DecodeRune_upper_ascii b t h, DecodeRune_ascii b t h]
    exact ⟨rfl, upperByte_IsSpace b⟩
  · rw [DecodeRune_upper_high b t (by omega)]
    exact ⟨rfl, rfl⟩

theorem DecodeLastRune_upper (s : GoString) :
    (DecodeLastRune (asciiUpper s)).2 = (DecodeLastRune s).2 ∧
      IsSpace (DecodeLastRune (asciiUpper s)).1 = IsSpace (DecodeLastRune s).1 := by
  simp only [DecodeLastRune, asciiUpper_length, asciiUpper_getD, lastRuneStart_upper,
    asciiUpper_drop]
  by_cases h0 : s.length = 0
  · simp only [h0, if_true, and_self]
  simp only [h0, if_false]
  by_cases hr : s.getD (s.length - 1) 0 < RuneSelf
  · have hr2 : upperByte (s.getD (s.length - 1) 0) < RuneSelf := upperByte_lt hr
    simp only [hr, hr2, if_true, upperByte_IsSpace, and_self]
  · have hr1 : upperByte (s.getD (s.length - 1) 0) = s.getD (s.length - 1) 0 :=
      upperByte_high (by simp only [RuneSelf] at hr; omega)
    simp only [hr1, hr, if_false]
    have hd := DecodeRune_upper
      (s.drop (lastRuneStart s (s.length - UTFMax) (s.length - 1 - (s.length - UTFMax))
        (s.length - 2)))
    rw [hd.1]
    split_ifs
    · exact ⟨rfl, rfl⟩
    · exact hd

theorem trimRight_upper : ∀ (f : Nat) (s : GoString),
    trimRight f (asciiUpper s) = asciiUpper (trimRight f s) := by
  intro f
  induction f with
  | zero => intro s; rfl
  | succ f ih =>
    intro s
    have hd := DecodeLastRune_upper s
    simp only [trimRight, hd.1, hd.2, asciiUpper_length, asciiUpper_take, ih]
    split_ifs <;> rfl

theorem TrimSpace_upper (s : GoString) : TrimSpace (asciiUpper s) = asciiUpper (TrimSpace s) := by
  simp only [TrimSpace, trimLeft_upper, asciiUpper_length, trimRight_upper]

theorem ToLower_TrimSpace_upper (rt : GoRuntime) (s : GoString) :
    ToLower rt (TrimSpace (asciiUpper s)) = ToLower rt (TrimSpace s) := by
  rw [TrimSpace_upper, ToLower_upper]

/-- The bytes after a rune of two bytes or more that were all read are not read
by `DecodeRune`. -/
theorem DecodeRune_complete (e t : GoString) (h1 : (DecodeRune e).2 = e.length)
    (h2 : 2 ≤ e.length) : DecodeRune (e ++ t) = DecodeRune e := by
  rcases e with _ | ⟨s0, _ | ⟨s1, t1⟩⟩
  · simp at h2
  · simp at h2
  by_cases h0 : s0 < 0x80
  · rw [DecodeRune_ascii s0 _ h0] at h1
    simp at h1
  have hsz : (if s0 < 0xE0 then 2 else if s0 < 0xF0 then 3 else 4) ≤ 4 := by
    split_ifs <;> omega
  have hsz2 : 2 ≤ (if s0 < 0xE0 then 2 else if s0 < 0xF0 then 3 else 4) := by
    split_ifs <;> omega
  rcases t1 with _ | ⟨s2, _ | ⟨s3, _ | ⟨s4, t4⟩⟩⟩ <;>
  · simp only [List.cons_append, List.nil_append]
    simp only [DecodeRune, h0, if_false, List.length_cons, List.length_nil,
      List.length_append] at h1 ⊢
    generalize (if s0 = 0xE0 then 0xA0 else if s0 = 0xF0 then 0x90 else 0x80) = lo at h1 ⊢
    generalize (if s0 = 0xED then 0x9F else if s0 = 0xF4 then 0x8F else 0xBF) = hi at h1 ⊢
    generalize (if s0 < 0xE0 then 2 else if s0 < 0xF0 then 3 else 4) = sz at hsz hsz2 h1 ⊢
    split_ifs at h1 <;> (try dsimp only at h1) <;> (try omega) <;>
      (split_ifs <;> first | omega | rfl)

theorem isCont_notStart {b : Nat} (h : isCont b = true) : RuneStart b = false := by
  obtain ⟨h1, h2⟩ := isCont_true h
  simp only [RuneStart, bne_eq_false_iff_eq]
  interval_cases b <;> decide

theorem RuneStart_notCont {b : Nat} (h : RuneStart b = true) : isCont b = false := by
  cases hc : isCont b with
  | false => rfl
  | true => rw [isCont_notStart hc] at h; exact absurd h (by decide)

/-- The white-space runes of `unicode.IsSpace`. -/
theorem IsSpace_cases {r : Nat} (h : IsSpace r = true) :
    r ∈ [0x09, 0x0A, 0x0B, 0x0C, 0x0D, 0x20, 0x85, 0xA0, 0x1680, 0x2000, 0x2001, 0x2002,
      0x2003, 0x2004, 0x2005, 0x2006, 0x2007, 0x2008, 0x2009, 0x200A, 0x2028, 0x2029, 0x202F,
      0x205F, 0x3000] := by
  simp only [IsSpace] at h
  split_ifs at h
  · simp only [Bool.or_eq_true, decide_eq_true_eq] at h
    rcases h with ((((((h | h) | h) | h) | h) | h) | h) | h <;> subst h <;> decide
  · simp only [Bool.or_eq_true, Bool.and_eq_true, decide_eq_true_eq] at h
    rcases h with (((((h | ⟨h1, h2⟩) | h) | h) | h) | h) | h
    · subst h; decide
    · interval_cases r <;> decide
    all_goals subst h; decide

/-- The encoding of a white-space rune is read back as that rune, whatever
follows it. -/
theorem spaceRune_decode (r : Nat) (hr : IsSpace r = true) (t : GoString) :
    DecodeRune (encodeRune r ++ t) = (r, (encodeRune r).length) := by
  have hc := IsSpace_cases hr
  simp only [List.mem_cons, List.mem_singleton, List.not_mem_nil, or_false] at hc
  rcases hc with h | h | h | h | h | h | h | h | h | h | h | h | h | h | h | h | h | h | h | h |
    h | h | h | h | h <;> subst h
  all_goals first
    | exact DecodeRune_ascii _ _ (by decide)
    | (rw [DecodeRune_complete _ t (by decide) (by decide)]; decide)

/-- The bytes of the encoding of a white-space rune: one ASCII byte, or a rune
start followed by continuation bytes. -/
theorem spaceRune_shape (r : Nat) (hr : IsSpace r = true) :
    (r < 0x80 ∧ encodeRune r = [r]) ∨
      ∃ h m c, encodeRune r = h :: (m ++ [c]) ∧ RuneStart h = true ∧
        (∀ b ∈ m, RuneStart b = false) ∧ m.length ≤ 2 ∧ 0x80 ≤ c ∧ RuneStart c = false := by
  have hc := IsSpace_cases hr
  simp only [List.mem_cons, List.mem_singleton, List.not_mem_nil, or_false] at hc
  rcases hc with h | h | h | h | h | h | h | h | h | h | h | h | h | h | h | h | h | h | h | h |
    h | h | h | h | h <;> subst h
  all_goals first
    | exact Or.inl ⟨by decide, rfl⟩
    | exact Or.inr ⟨_, [], _, rfl, by decide, by decide, by decide, by decide, by decide⟩
    | exact Or.inr ⟨_, [_], _, rfl, by decide, by decide, by decide, by decide, by decide⟩

/-- The result of `DecodeLastRune` when the search for a rune start, back from
the byte before the last, finds `h` within its three steps. -/
theorem DecodeLastRune_found (q : GoString) (h : Nat) (m : GoString) (r : Nat)
    (hr : ¬ r < 0x80) (hh : RuneStart h = true) (hm : ∀ b ∈ m, RuneStart b = false)
    (hl : m.length ≤ 2) :
    DecodeLastRune (q ++ h :: (m ++ [r])) =
      if (DecodeRune (h :: (m ++ [r]))).2 ≠ m.length + 2 then (RuneError, 1)
      else DecodeRune (h :: (m ++ [r])) := by
  rcases m with _ | ⟨m1, _ | ⟨m2, _ | ⟨m3, t⟩⟩⟩
  · rcases q with _ | ⟨p1, _ | ⟨p2, t⟩⟩
    · simp [DecodeLastRune_two, hr]
    · simp [DecodeLastRune_three, hr, hh]
    · obtain ⟨q0, a, b, hq⟩ := last_two (p1 :: p2 :: t) (by simp)
      rw [hq, show q0 ++ [a, b] ++ h :: ([] ++ [r]) = q0 ++ [a, b, h, r] from by simp,
        DecodeLastRune_four]
      simp [hr, hh]
  · have h1 : RuneStart m1 = false := hm m1 (by simp)
    rcases List.eq_nil_or_concat q with hq | ⟨q0, p, hq⟩
    · subst hq
      simp [DecodeLastRune_three, hr, h1]
    · subst hq
      rw [show q0.concat p ++ h :: ([m1] ++ [r]) = q0 ++ [p, h, m1, r] from by simp,
        DecodeLastRune_four]
      simp [hr, hh, h1]
  · have h1 : RuneStart m1 = false := hm m1 (by simp)
    have h2 : RuneStart m2 = false := hm m2 (by simp)
    rw [show q ++ h :: ([m1, m2] ++ [r]) = q ++ [h, m1, m2, r] from by simp,
      DecodeLastRune_four]
    simp [hr, hh, h1, h2]
  · simp at hl

/-- The result of `DecodeLastRune` when the search finds no rune start. -/
theorem DecodeLastRune_notFound (q m : GoString) (r : Nat) (hr : ¬ r < 0x80)
    (hm : ∀ b ∈ m, RuneStart b = false) (hl : 3 ≤ m.length ∨ q = []) :
    DecodeLastRune (q ++ m ++ [r]) = (RuneError, 1) := by
  by_cases h3 : 3 ≤ m.length
  · obtain ⟨m0, a, b, c, d, hd⟩ := last_four (m ++ [r]) (by simp; omega)
    have hr2 : d = r ∧ m = m0 ++ [a, b, c] := by
      have h := congrArg List.reverse hd
      simp only [List.reverse_append, List.reverse_cons, List.reverse_nil, List.nil_append,
        List.cons_append, List.singleton_append, List.cons.injEq] at h
      refine ⟨h.1.symm, ?_⟩
      have h' := congrArg List.reverse h.2
      simpa using h'
    obtain ⟨hd1, hm0⟩ := hr2
    subst hd1
    have ha : RuneStart a = false := hm a (by rw [hm0]; simp)
    have hb : RuneStart b = false := hm b (by rw [hm0]; simp)
    have hc : RuneStart c = false := hm c (by rw [hm0]; simp)
    rw [List.append_assoc, hd, ← List.append_assoc, DecodeLastRune_four]
    simp [hr, ha, hb, hc]
  · have hq : q = [] := by
      rcases hl with h | h
      · exact absurd h h3
      · exact h
    subst hq
    rcases m with _ | ⟨a, _ | ⟨b, _ | ⟨c, t⟩⟩⟩
    · simp [DecodeLastRune_one, hr]
    · have ha : RuneStart a = false := hm a (by simp)
      simp [DecodeLastRune_two, hr, DecodeRune_notStart a _ ha]
    · have ha : RuneStart a = false := hm a (by simp)
      have hb : RuneStart b = false := hm b (by simp)
      simp [DecodeLastRune_three, hr, hb, DecodeRune_notStart a _ ha]
    · simp at h3

theorem last_start (y : GoString) :
    (∀ b ∈ y, RuneStart b = false) ∨
      ∃ y1 s m, y = y1 ++ s :: m ∧ RuneStart s = true ∧ ∀ b ∈ m, RuneStart b = false := by
  induction y with
  | nil => exact Or.inl (fun b hb => absurd hb (List.not_mem_nil b))
  | cons a t ih =>
    rcases ih with h | ⟨y1, s, m, h1, h2, h3⟩
    · cases ha : RuneStart a with
      | true => exact Or.inr ⟨[], a, t, rfl, ha, h⟩
      | false =>
        refine Or.inl (fun b hb => ?_)
        rcases List.mem_cons.mp hb with hb | hb
        · rw [hb]; exact ha
        · exact h b hb
    · exact Or.inr ⟨a :: y1, s, m, by rw [h1]; rfl, h2, h3⟩

/-- What comes before a complete rune, and the rune itself, is not seen by
`DecodeLastRune` on the text after the rune. -/
theorem DecodeLastRune_after_rune (pre : GoString) (h : Nat) (me y : GoString)
    (hh : RuneStart h = true) (hme : ∀ b ∈ me, RuneStart b = false)
    (hw : ∀ t, (DecodeRune (h :: (me ++ t))).2 = me.length + 1) (hy : y ≠ []) :
    DecodeLastRune (pre ++ h :: (me ++ y)) = DecodeLastRune y := by
  rcases List.eq_nil_or_concat y with hy0 | ⟨y0, r, hy0⟩
  · exact absurd hy0 hy
  rw [List.concat_eq_append] at hy0
  subst hy0
  by_cases hr : r < 0x80
  · rw [show pre ++ h :: (me ++ (y0 ++ [r])) = (pre ++ h :: (me ++ y0)) ++ [r] from by simp,
      DecodeLastRune_ascii _ _ hr, DecodeLastRune_ascii _ _ hr]
  rcases last_start y0 with hall | ⟨y1, s, m, h1, h2, h3⟩
  · have hR : DecodeLastRune (y0 ++ [r]) = (RuneError, 1) := by
      have := DecodeLastRune_notFound [] y0 r hr hall (Or.inr rfl)
      simpa using this
    rw [hR]
    have hm : ∀ b ∈ me ++ y0, RuneStart b = false := by
      intro b hb
      rcases List.mem_append.mp hb with hb | hb
      · exact hme b hb
      · exact hall b hb
    by_cases hl : (me ++ y0).length ≤ 2
    · have := DecodeLastRune_found pre h (me ++ y0) r hr hh hm hl
      rw [show pre ++ h :: (me ++ (y0 ++ [r])) = pre ++ h :: (me ++ y0 ++ [r]) from by simp,
        this]
      have hw2 := hw (y0 ++ [r])
      rw [show me ++ (y0 ++ [r]) = me ++ y0 ++ [r] from by simp] at hw2
      rw [if_pos (by rw [hw2]; simp only [List.length_append]; omega)]
    · have := DecodeLastRune_notFound (pre ++ [h]) (me ++ y0) r hr hm (Or.inl (by omega))
      rw [show pre ++ h :: (me ++ (y0 ++ [r])) = pre ++ [h] ++ (me ++ y0) ++ [r] from by simp,
        this]
  · subst h1
    by_cases hl : m.length ≤ 2
    · have e1 := DecodeLastRune_found (pre ++ h :: (me ++ y1)) s m r hr h2 h3 hl
      have e2 := DecodeLastRune_found y1 s m r hr h2 h3 hl
      rw [show pre ++ h :: (me ++ (y1 ++ s :: m ++ [r])) =
          (pre ++ h :: (me ++ y1)) ++ s :: (m ++ [r]) from by simp, e1,
        show y1 ++ s :: m ++ [r] = y1 ++ s :: (m ++ [r]) from by simp, e2]
    · have e1 := DecodeLastRune_notFound (pre ++ h :: (me ++ (y1 ++ [s]))) m r hr h3
        (Or.inl (by omega))
      have e2 := DecodeLastRune_notFound (y1 ++ [s]) m r hr h3 (Or.inl (by omega))
      rw [show pre ++ h :: (me ++ (y1 ++ s :: m ++ [r])) =
          (pre ++ h :: (me ++ (y1 ++ [s]))) ++ m ++ [r] from by simp, e1,
        show y1 ++ s :: m ++ [r] = (y1 ++ [s]) ++ m ++ [r] from by simp, e2]

theorem DecodeLastRune_rune (x : GoString) (h : Nat) (m : GoString) (c : Nat)
    (hh : RuneStart h = true) (hm : ∀ b ∈ m, RuneStart b = false) (hl : m.length ≤ 2)
    (hc : 0x80 ≤ c) (hw : (DecodeRune (h :: (m ++ [c]))).2 = m.length + 2) :
    DecodeLastRune (x ++ h :: (m ++ [c])) = DecodeRune (h :: (m ++ [c])) := by
  rw [DecodeLastRune_found x h m c (by omega) hh hm hl, if_neg (by rw [hw]; simp)]

theorem encodeRunes_nil : encodeRunes [] = [] := rfl

theorem encodeRunes_cons (r : Nat) (rs : List Nat) :
    encodeRunes (r :: rs) = encodeRune r ++ encodeRunes rs := rfl

theorem encodeRunes_append (rs rs' : List Nat) :
    encodeRunes (rs ++ rs') = encodeRunes rs ++ encodeRunes rs' := by
  simp [encodeRunes, List.flatMap_append]

theorem spaceRune_head (r : Nat) (hr : IsSpace r = true) :
    ∃ h me, encodeRune r = h :: me ∧ RuneStart h = true ∧ ∀ b ∈ me, RuneStart b = false := by
  rcases spaceRune_shape r hr with ⟨h1, h2⟩ | ⟨h, m, c, h1, h2, h3, _, _, h6⟩
  · exact ⟨r, [], h2, RuneStart_ascii h1, fun b hb => absurd hb (List.not_mem_nil b)⟩
  · refine ⟨h, m ++ [c], h1, h2, fun b hb => ?_⟩
    rcases List.mem_append.mp hb with hb | hb
    · exact h3 b hb
    · rw [List.mem_singleton.mp hb]; exact h6

theorem trimLeft_skip (y : GoString) : ∀ u : GoString,
    trimLeft u.length (u ++ y) = trimLeft 0 y := by
  intro u
  induction u with
  | nil => rfl
  | cons b u ih =>
    rw [List.cons_append, List.length_cons]
    simp only [trimLeft]
    exact ih

theorem Map_skip (f : Nat → Nat) (y : GoString) : ∀ u : GoString,
    Map f u.length (u ++ y) = Map f 0 y := by
  intro u
  induction u with
  | nil => rfl
  | cons b u ih =>
    rw [List.cons_append, List.length_cons]
    simp only [Map]
    exact ih

theorem fieldsLoop_skip (cur y : GoString) : ∀ u : GoString,
    fieldsLoop u.length cur (u ++ y) = fieldsLoop 0 cur y := by
  intro u
  induction u with
  | nil => rfl
  | cons b u ih =>
    rw [List.cons_append, List.length_cons]
    simp only [fieldsLoop]
    exact ih

theorem trimLeft_rune (r : Nat) (hr : IsSpace r = true) (y : GoString) :
    trimLeft 0 (encodeRune r ++ y) = trimLeft 0 y := by
  obtain ⟨h, me, he, _, _⟩ := spaceRune_head r hr
  have hd := spaceRune_decode r hr y
  rw [he] at hd ⊢
  rw [List.cons_append] at hd ⊢
  rw [trimLeft]
  simp only [spaceWidth, hd, hr, if_true, List.length_cons, Nat.add_sub_cancel]
  rw [if_neg (by omega)]
  exact trimLeft_skip y me

theorem Map_rune (f : Nat → Nat) (r : Nat) (hr : IsSpace r = true) (y : GoString) :
    Map f 0 (encodeRune r ++ y) = encodeRune (f r) ++ Map f 0 y := by
  obtain ⟨h, me, he, _, _⟩ := spaceRune_head r hr
  have hd := spaceRune_decode r hr y
  rw [he] at hd ⊢
  rw [List.cons_append] at hd ⊢
  rw [Map]
  simp only [hd, List.length_cons, Nat.add_sub_cancel]
  rw [Map_skip f y me]

theorem fieldsLoop_rune (r : Nat) (hr : IsSpace r = true) (cur y : GoString) :
    fieldsLoop 0 cur (encodeRune r ++ y) = fieldsLoop 0 cur [] ++ Fields y := by
  obtain ⟨h, me, he, _, _⟩ := spaceRune_head r hr
  have hd := spaceRune_decode r hr y
  rw [he] at hd ⊢
  rw [List.cons_append] at hd ⊢
  conv_lhs => rw [fieldsLoop]
  simp only [spaceWidth, hd, hr, if_true, List.length_cons, Nat.add_sub_cancel]
  rw [if_neg (by omega), fieldsLoop_skip [] y me]
  by_cases hcur : cur = []
  · simp [hcur, fieldsLoop, Fields]
  · simp [hcur, fieldsLoop, Fields]

theorem trimLeft_gap (r : Nat) (hr : IsSpace r = true) (x y : GoString) :
    trimLeft 0 (x ++ encodeRune r ++ y) =
      if trimLeft 0 x = [] then trimLeft 0 y else trimLeft 0 x ++ encodeRune r ++ y := by
  obtain ⟨h, me, he, hh, _⟩ := spaceRune_head r hr
  have h1 := trimLeft_append h (me ++ y) (RuneStart_notCont hh) x 0 (Nat.zero_le _)
  have h2 := trimLeft_rune r hr y
  rw [he] at h2 ⊢
  rw [List.cons_append] at h2
  rw [List.append_assoc, List.cons_append, h1, h2]
  simp

theorem Map_gap (f : Nat → Nat) (r : Nat) (hr : IsSpace r = true) (x y : GoString) :
    Map f 0 (x ++ encodeRune r ++ y) = Map f 0 x ++ encodeRune (f r) ++ Map f 0 y := by
  obtain ⟨h, me, he, hh, _⟩ := spaceRune_head r hr
  have h1 := Map_append f h (me ++ y) (RuneStart_notCont hh) x 0 (Nat.zero_le _)
  have h2 := Map_rune f r hr y
  rw [he] at h2 ⊢
  rw [List.cons_append] at h2
  rw [List.append_assoc, List.cons_append, h1, h2]
  simp

theorem fieldsLoop_gap (r : Nat) (hr : IsSpace r = true) (y : GoString) :
    ∀ (x : GoString) (k : Nat) (cur : GoString), k ≤ x.length →
      fieldsLoop k cur (x ++ encodeRune r ++ y) = fieldsLoop k cur x ++ Fields y := by
  obtain ⟨h, me, he, hh, _⟩ := spaceRune_head r hr
  have hc := RuneStart_notCont hh
  intro x
  induction x with
  | nil =>
    intro k cur hk
    have : k = 0 := by simpa using hk
    subst this
    rw [List.nil_append]
    exact fieldsLoop_rune r hr cur y
  | cons b s ih =>
    intro k cur hk
    cases k with
    | succ k =>
      simp only [List.cons_append]
      simp only [fieldsLoop]
      exact ih k cur (by simpa using hk)
    | zero =>
      have hw := spaceWidth_append (b :: s) h (me ++ y) (List.cons_ne_nil b s) hc
      have hle := spaceWidth_le (b :: s)
      have e : b :: s ++ encodeRune r ++ y = b :: (s ++ encodeRune r ++ y) := by simp
      have e2 : b :: s ++ h :: (me ++ y) = b :: (s ++ encodeRune r ++ y) := by
        rw [he]; simp
      rw [e2] at hw
      rw [e]
      simp only [fieldsLoop, hw]
      by_cases h0 : spaceWidth (b :: s) = 0
      · simp only [h0, if_true]
        exact ih 0 _ (Nat.zero_le _)
      · have hk2 : spaceWidth (b :: s) - 1 ≤ s.length := by
          simp only [List.length_cons] at hle; omega
        by_cases hcur : cur = []
        · simp only [h0, hcur, if_true, if_false]
          exact ih _ _ hk2
        · simp only [h0, hcur, if_false, List.cons_append]
          rw [ih _ _ hk2]

theorem DecodeLastRune_spaceRune (x : GoString) (r : Nat) (hr : IsSpace r = true) :
    DecodeLastRune (x ++ encodeRune r) = (r, (encodeRune r).length) := by
  have hd := spaceRune_decode r hr []
  rw [List.append_nil] at hd
  rcases spaceRune_shape r hr with ⟨h1, h2⟩ | ⟨h, m, c, h1, h2, h3, h4, h5, _⟩
  · rw [h2]
    exact DecodeLastRune_ascii x r h1
  · rw [h1] at hd ⊢
    rw [DecodeLastRune_rune x h m c h2 h3 h4 h5 (by rw [hd]; simp), hd]

theorem trimRight_rune (x : GoString) (r : Nat) (hr : IsSpace r = true) :
    trimRight (x ++ encodeRune r).length (x ++ encodeRune r) = trimRight x.length x := by
  obtain ⟨h, me, he, _, _⟩ := spaceRune_head r hr
  rw [trimRight_length, DecodeLastRune_spaceRune x r hr]
  have hne : (encodeRune r).length ≠ 0 := by rw [he]; simp
  simp [hr, hne]

theorem take_append_gap (x e y : GoString) (w : Nat) (hw : w ≤ y.length) :
    (x ++ e ++ y).take ((x ++ e ++ y).length - w) = x ++ e ++ y.take (y.length - w) := by
  have h1 : (x ++ e ++ y).length - w = (x ++ e).length + (y.length - w) := by
    simp only [List.length_append]; omega
  rw [h1, List.take_append]

/-- The white space at the end of a text is trimmed in the same way with and
without a text and a white-space rune before it. -/
theorem trimRight_gap (x : GoString) (r : Nat) (hr : IsSpace r = true) :
    ∀ (n : Nat) (y : GoString), y.length ≤ n →
      trimRight (x ++ encodeRune r ++ y).length (x ++ encodeRune r ++ y) =
        if trimRight y.length y = [] then trimRight x.length x
        else x ++ encodeRune r ++ trimRight y.length y := by
  obtain ⟨h, me, he, hh, hme⟩ := spaceRune_head r hr
  have hwd : ∀ t, (DecodeRune (h :: (me ++ t))).2 = me.length + 1 := by
    intro t
    have := spaceRune_decode r hr t
    rw [he] at this
    rw [List.cons_append] at this
    rw [this]
    rfl
  intro n
  induction n with
  | zero =>
    intro y hy
    have hs : y = [] := List.length_eq_zero.mp (Nat.le_zero.mp hy)
    subst hs
    rw [List.append_nil, trimRight_rune x r hr]
    simp [trimRight]
  | succ n ih =>
    intro y hy
    by_cases hy0 : y = []
    · subst hy0
      rw [List.append_nil, trimRight_rune x r hr]
      simp [trimRight]
    have hk : DecodeLastRune (x ++ encodeRune r ++ y) = DecodeLastRune y := by
      rw [he, List.append_assoc, List.cons_append]
      exact DecodeLastRune_after_rune x h me y hh hme hwd hy0
    have hw := DecodeLastRune_width y
    rw [trimRight_length (x ++ encodeRune r ++ y), trimRight_length y, hk]
    by_cases hcond : (DecodeLastRune y).2 ≠ 0 ∧ IsSpace (DecodeLastRune y).1 = true
    · rw [if_pos hcond, if_pos hcond, take_append_gap x _ y _ hw]
      have h0 := hcond.1
      exact ih _ (by simp only [List.length_take]; omega)
    · rw [if_neg hcond, if_neg hcond, if_neg hy0]

theorem trimLeft_runes (rs : List Nat) (hs : ∀ r ∈ rs, IsSpace r = true) (y : GoString) :
    trimLeft 0 (encodeRunes rs ++ y) = trimLeft 0 y := by
  induction rs with
  | nil => rfl
  | cons r rs ih =>
    rw [encodeRunes_cons, List.append_assoc, trimLeft_rune r (hs r (List.mem_cons_self r rs)),
      ih (fun q hq => hs q (List.mem_cons_of_mem r hq))]

theorem trimRight_runes (rs : List Nat) (hs : ∀ r ∈ rs, IsSpace r = true) : ∀ x : GoString,
    trimRight (x ++ encodeRunes rs).length (x ++ encodeRunes rs) = trimRight x.length x := by
  induction rs with
  | nil => intro x; rw [encodeRunes_nil, List.append_nil]
  | cons r rs ih =>
    intro x
    rw [encodeRunes_cons, ← List.append_assoc,
      ih (fun q hq => hs q (List.mem_cons_of_mem r hq)) (x ++ encodeRune r),
      trimRight_rune x r (hs r (List.mem_cons_self r rs))]

theorem TrimSpace_runes (rs1 rs2 : List Nat) (t : GoString)
    (h1 : ∀ r ∈ rs1, IsSpace r = true) (h2 : ∀ r ∈ rs2, IsSpace r = true) :
    TrimSpace (encodeRunes rs1 ++ t ++ encodeRunes rs2) = TrimSpace t := by
  simp only [TrimSpace]
  rw [List.append_assoc, trimLeft_runes rs1 h1]
  rcases rs2 with _ | ⟨r, rs2⟩
  · rw [encodeRunes_nil, List.append_nil]
  have hr := h2 r (List.mem_cons_self r rs2)
  have hrs : ∀ q ∈ rs2, IsSpace q = true := fun q hq => h2 q (List.mem_cons_of_mem r hq)
  rw [encodeRunes_cons, ← List.append_assoc, trimLeft_gap r hr t (encodeRunes rs2)]
  by_cases ht : trimLeft 0 t = []
  · rw [if_pos ht, ht]
    have := trimLeft_runes rs2 hrs []
    rw [List.append_nil] at this
    rw [this]
    rfl
  · rw [if_neg ht, List.append_assoc, ← encodeRunes_cons]
    exact trimRight_runes (r :: rs2) h2 _

theorem Fields_runes (rs : List Nat) (hs : ∀ r ∈ rs, IsSpace r = true) (y : GoString) :
    Fields (encodeRunes rs ++ y) = Fields y := by
  induction rs with
  | nil => rfl
  | cons r rs ih =>
    have := fieldsLoop_rune r (hs r (List.mem_cons_self r rs)) [] (encodeRunes rs ++ y)
    rw [encodeRunes_cons, List.append_assoc]
    simp only [Fields] at this ⊢
    rw [this]
    simp only [fieldsLoop, if_true, List.nil_append]
    exact ih (fun q hq => hs q (List.mem_cons_of_mem r hq))

theorem Fields_gap (x y : GoString) (rs : List Nat) (hs : ∀ r ∈ rs, IsSpace r = true)
    (hne : rs ≠ []) : Fields (x ++ encodeRunes rs ++ y) = Fields x ++ Fields y := by
  rcases rs with _ | ⟨r, rs⟩
  · exact absurd rfl hne
  have := fieldsLoop_gap r (hs r (List.mem_cons_self r rs)) (encodeRunes rs ++ y) x 0 []
    (Nat.zero_le _)
  rw [encodeRunes_cons, List.append_assoc, List.append_assoc, ← List.append_assoc]
  simp only [Fields] at this ⊢
  rw [this]
  have h2 := Fields_runes rs (fun q hq => hs q (List.mem_cons_of_mem r hq)) y
  simp only [Fields] at h2
  rw [h2]

theorem ToLower_runes (rt : GoRuntime) (rs : List Nat) (hs : ∀ r ∈ rs, IsSpace r = true)
    (y : GoString) :
    ToLower rt (encodeRunes rs ++ y) = encodeRunes (rs.map (toLowerRune rt)) ++ ToLower rt y := by
  induction rs with
  | nil => rfl
  | cons r rs ih =>
    have := Map_rune (toLowerRune rt) r (hs r (List.mem_cons_self r rs)) (encodeRunes rs ++ y)
    simp only [ToLower] at ih ⊢
    rw [encodeRunes_cons, List.append_assoc, this,
      ih (fun q hq => hs q (List.mem_cons_of_mem r hq)), List.map_cons, encodeRunes_cons,
      List.append_assoc]

theorem ToLower_gap (rt : GoRuntime) (x y : GoString) (rs : List Nat)
    (hs : ∀ r ∈ rs, IsSpace r = true) (hne : rs ≠ []) :
    ToLower rt (x ++ encodeRunes rs ++ y) =
      ToLower rt x ++ encodeRunes (rs.map (toLowerRune rt)) ++ ToLower rt y := by
  rcases rs with _ | ⟨r, rs⟩
  · exact absurd rfl hne
  have h1 := Map_gap (toLowerRune rt) r (hs r (List.mem_cons_self r rs)) x (encodeRunes rs ++ y)
  have h2 := ToLower_runes rt rs (fun q hq => hs q (List.mem_cons_of_mem r hq)) y
  simp only [ToLower] at h2 ⊢
  rw [encodeRunes_cons, List.append_assoc, List.append_assoc, ← List.append_assoc, h1, h2,
    List.map_cons, encodeRunes_cons]
  simp only [List.append_assoc]

/-- The line `a`, white space, `b` once trimmed: `b` trimmed when `a` is white
space only, `a` trimmed when `b` is, else `a` trimmed on the left, the white
space, and `b` trimmed on the right. -/
theorem TrimSpace_gap (a b : GoString) (rs : List Nat) (hs : ∀ r ∈ rs, IsSpace r = true)
    (hne : rs ≠ []) :
    TrimSpace (a ++ encodeRunes rs ++ b) =
      if trimLeft 0 a = [] then TrimSpace b
      else if trimRight b.length b = [] then trimRight (trimLeft 0 a).length (trimLeft 0 a)
      else trimLeft 0 a ++ encodeRunes rs ++ trimRight b.length b := by
  rcases List.eq_nil_or_concat rs with h0 | ⟨rs0, r1, h1⟩
  · exact absurd h0 hne
  rw [List.concat_eq_append] at h1
  have hr1 : IsSpace r1 = true := hs r1 (by rw [h1]; simp)
  have hrs0 : ∀ q ∈ rs0, IsSpace q = true := fun q hq => hs q (by rw [h1]; simp [hq])
  rcases rs with _ | ⟨r, rs2⟩
  · exact absurd rfl hne
  have hr := hs r (List.mem_cons_self r rs2)
  have hrs2 : ∀ q ∈ rs2, IsSpace q = true := fun q hq => hs q (List.mem_cons_of_mem r hq)
  simp only [TrimSpace]
  have e1 : a ++ encodeRunes (r :: rs2) ++ b = a ++ encodeRune r ++ (encodeRunes rs2 ++ b) := by
    rw [encodeRunes_cons]; simp only [List.append_assoc]
  rw [e1, trimLeft_gap r hr a (encodeRunes rs2 ++ b), trimLeft_runes rs2 hrs2 b]
  by_cases ha : trimLeft 0 a = []
  · rw [if_pos ha, if_pos ha]
  · rw [if_neg ha, if_neg ha]
    have e2 : trimLeft 0 a ++ encodeRune r ++ (encodeRunes rs2 ++ b) =
        (trimLeft 0 a ++ encodeRunes rs0) ++ encodeRune r1 ++ b := by
      rw [← List.append_assoc, List.append_assoc (trimLeft 0 a), ← encodeRunes_cons, h1,
        encodeRunes_append, encodeRunes_cons, encodeRunes_nil, List.append_nil]
      simp only [List.append_assoc]
    rw [e2, trimRight_gap _ r1 hr1 b.length b (Nat.le_refl _), trimRight_runes rs0 hrs0]
    by_cases hb : trimRight b.length b = []
    · rw [if_pos hb, if_pos hb]
    · rw [if_neg hb, if_neg hb, h1, encodeRunes_append, encodeRunes_cons, encodeRunes_nil,
        List.append_nil]
      simp only [List.append_assoc]

theorem Map_ne_nil (f : Nat → Nat) (s : GoString) (hs : s ≠ []) : Map f 0 s ≠ [] := by
  rcases s with _ | ⟨b, t⟩
  · exact absurd rfl hs
  rw [Map]
  have : encodeRune (f (DecodeRune (b :: t)).1) ≠ [] := by
    simp only [encodeRune]
    split_ifs <;> simp
  simp [this]

theorem asciiSpace_cases {b : Nat} (h : asciiSpace b = true) :
    b = 0x09 ∨ b = 0x0A ∨ b = 0x0B ∨ b = 0x0C ∨ b = 0x0D ∨ b = 0x20 := by
  simpa only [asciiSpace, Bool.or_eq_true, decide_eq_true_eq, or_assoc] using h

theorem asciiSpace_gapRunes (rt : GoRuntime) (w : GoString) (hne : w ≠ [])
    (hw : w.all asciiSpace = true) : gapRunes rt w = true ∧ encodeRunes w = w := by
  have hb : ∀ b ∈ w, b < 0x80 ∧ IsSpace b = true ∧ toLowerRune rt b = b := by
    intro b hb
    have h := asciiSpace_cases (List.all_eq_true.mp hw b hb)
    have hlt : b < 0x80 := by omega
    refine ⟨hlt, ?_, toLowerRune_fixed rt b hlt (by omega)⟩
    rcases h with h | h | h | h | h | h <;> subst h <;> rfl
  constructor
  · simp only [gapRunes, Bool.and_eq_true, Bool.not_eq_true', List.isEmpty_eq_false,
      List.all_eq_true]
    exact ⟨hne, fun b h => ⟨(hb b h).2.1, by rw [(hb b h).2.2]; exact (hb b h).2.1⟩⟩
  · clear hne hw
    induction w with
    | nil => rfl
    | cons b w ih =>
      rw [encodeRunes_cons, encodeRune_ascii b (hb b (List.mem_cons_self b w)).1,
        ih (fun c hc => hb c (List.mem_cons_of_mem b hc))]
      rfl

theorem gapRunes_spec {rt : GoRuntime} {rs : List Nat} (h : gapRunes rt rs = true) :
    rs ≠ [] ∧ (∀ r ∈ rs, IsSpace r = true) ∧
      (rs.map (toLowerRune rt) ≠ [] ∧ ∀ r ∈ rs.map (toLowerRune rt), IsSpace r = true) := by
  simp only [gapRunes, Bool.and_eq_true, Bool.not_eq_true', List.isEmpty_eq_false,
    List.all_eq_true] at h
  refine ⟨h.1, fun r hr => (h.2 r hr).1, ?_, ?_⟩
  · simpa using h.1
  · intro r hr
    obtain ⟨q, hq, rfl⟩ := List.mem_map.mp hr
    exact (h.2 q hq).2

theorem body_fields (rt : GoRuntime) (k : Nat) (l l' : GoString) (h : Fields l = Fields l') :
    Parser.Next.body rt k l = Parser.Next.body rt k l' := by
  simp only [Parser.Next.body, h]

/-- The outcome of `Parser.Next` on a line depends on the blank-or-comment test
and on the tokens of the trimmed, lower-cased line only. -/
theorem Next_congr (rt : GoRuntime) (t t' : GoString) (rest : List GoString) (n : Nat)
    (hs : skips rt t ↔ skips rt t')
    (hf : Fields (ToLower rt (TrimSpace t)) = Fields (ToLower rt (TrimSpace t'))) :
    Parser.Next rt ⟨t :: rest, n⟩ = Parser.Next rt ⟨t' :: rest, n⟩ := by
  by_cases h : skips rt t
  · rw [Next_skip rt t rest n h, Next_skip rt t' rest n (hs.mp h)]
  · rw [Next_body rt t rest n h, Next_body rt t' rest n (fun h' => h (hs.mpr h')),
      body_fields rt (n + 1) _ _ hf]

theorem Next_same_line (rt : GoRuntime) (t t' : GoString) (rest : List GoString) (n : Nat)
    (h : ToLower rt (TrimSpace t) = ToLower rt (TrimSpace t')) :
    Parser.Next rt ⟨t :: rest, n⟩ = Parser.Next rt ⟨t' :: rest, n⟩ := by
  apply Next_congr
  · simp only [skips, h]
  · rw [h]

/-- Two runs of white space at the same place of a line give lines with the same
blank-or-comment test and the same tokens. -/
theorem gap_line (rt : GoRuntime) (a b : GoString) (rs rs' : List Nat)
    (hw : gapRunes rt rs = true) (hw' : gapRunes rt rs' = true) :
    (skips rt (a ++ encodeRunes rs ++ b) ↔ skips rt (a ++ encodeRunes rs' ++ b)) ∧
      Fields (ToLower rt (TrimSpace (a ++ encodeRunes rs ++ b))) =
        Fields (ToLower rt (TrimSpace (a ++ encodeRunes rs' ++ b))) := by
  obtain ⟨h1, h2, h3, h4⟩ := gapRunes_spec hw
  obtain ⟨h5, h6, h7, h8⟩ := gapRunes_spec hw'
  simp only [skips]
  rw [TrimSpace_gap a b rs h2 h1, TrimSpace_gap a b rs' h6 h5]
  by_cases ha : trimLeft 0 a = []
  · simp only [if_pos ha, and_self]
  by_cases hb : trimRight b.length b = []
  · simp only [if_neg ha, if_pos hb, and_self]
  simp only [if_neg ha, if_neg hb]
  have hA : ToLower rt (trimLeft 0 a) ≠ [] := Map_ne_nil _ _ ha
  rw [ToLower_gap rt _ _ rs h2 h1, ToLower_gap rt _ _ rs' h6 h5, Fields_gap _ _ _ h4 h3,
    Fields_gap _ _ _ h8 h7]
  refine ⟨?_, rfl⟩
  simp only [List.append_assoc, List.append_eq_nil, hA, false_and, false_or,
    List.head?_append_of_ne_nil _ hA]

theorem Next_gap (rt : GoRuntime) (a b : GoString) (rs rs' : List Nat) (rest : List GoString)
    (n : Nat) (hw : gapRunes rt rs = true) (hw' : gapRunes rt rs' = true) :
    Parser.Next rt ⟨(a ++ encodeRunes rs ++ b) :: rest, n⟩ =
      Parser.Next rt ⟨(a ++ encodeRunes rs' ++ b) :: rest, n⟩ :=
  Next_congr rt _ _ rest n (gap_line rt a b rs rs' hw hw').1 (gap_line rt a b rs rs' hw hw').2

theorem layoutLine_append (x t : GoString) (ps : List (GoString × GoString)) :
    x ++ layoutLine t ps = layoutLine (x ++ t) ps := by
  cases ps with
  | nil => rfl
  | cons p ps => simp only [layoutLine, List.append_assoc]

theorem Next_layoutLine (rt : GoRuntime) (rest : List GoString) (n : Nat) :
    ∀ (ps : List (List Nat × List Nat × GoString)) (t0 : GoString),
      (∀ p ∈ ps, gapRunes rt p.1 = true ∧ gapRunes rt p.2.1 = true) →
      Parser.Next rt ⟨layoutLine t0 (ps.map (fun p => (encodeRunes p.1, p.2.2))) :: rest, n⟩ =
        Parser.Next rt
          ⟨layoutLine t0 (ps.map (fun p => (encodeRunes p.2.1, p.2.2))) :: rest, n⟩ := by
  intro ps
  induction ps with
  | nil => intro t0 _; rfl
  | cons p ps ih =>
    intro t0 h
    have hp := h p (List.mem_cons_self p ps)
    simp only [List.map_cons, layoutLine]
    rw [Next_gap rt t0 _ p.1 p.2.1 rest n hp.1 hp.2, layoutLine_append, layoutLine_append]
    exact ih _ (fun q hq => h q (List.mem_cons_of_mem p hq))

/-- C18: `asm.Parser.Next` is insensitive to letter case and to white-space
layout.  For every line `text`, whatever lines follow it and whatever the line
counter, the outcome of the call (the word, or the syntax error with its message
and line number, or the panic, together with the parser after the call) is the
same for `text` with its ASCII letters replaced by their upper-case forms, and
so for any two lines that differ only in the case of ASCII letters; for `text`
with white space added in front and at the end; and for two lines made of the
same texts `t0, t1, ..` with the runs of white space between them replaced, each
by any other non-empty run of white space.  A non-empty run of spaces and tabs,
or of other ASCII white space, is such a run, whatever the case tables. -/
theorem Next_case_layout_insensitive (rt : GoRuntime) (rest : List GoString) (n : Nat) :
    (∀ text : GoString,
      Parser.Next rt ⟨asciiUpper text :: rest, n⟩ = Parser.Next rt ⟨text :: rest, n⟩) ∧
    (∀ text text' : GoString, asciiUpper text = asciiUpper text' →
      Parser.Next rt ⟨text :: rest, n⟩ = Parser.Next rt ⟨text' :: rest, n⟩) ∧
    (∀ (text : GoString) (rs1 rs2 : List Nat), spaceRunes rs1 = true → spaceRunes rs2 = true →
      Parser.Next rt ⟨(encodeRunes rs1 ++ text ++ encodeRunes rs2) :: rest, n⟩ =
        Parser.Next rt ⟨text :: rest, n⟩) ∧
    (∀ (t0 : GoString) (ps : List (List Nat × List Nat × GoString)),
      (∀ p ∈ ps, gapRunes rt p.1 = true ∧ gapRunes rt p.2.1 = true) →
      Parser.Next rt ⟨layoutLine t0 (ps.map (fun p => (encodeRunes p.1, p.2.2))) :: rest, n⟩ =
        Parser.Next rt
          ⟨layoutLine t0 (ps.map (fun p => (encodeRunes p.2.1, p.2.2))) :: rest, n⟩) ∧
    (∀ w : GoString, w ≠ [] → w.all asciiSpace = true →
      gapRunes rt w = true ∧ encodeRunes w = w) := by
  have hup : ∀ text : GoString,
      Parser.Next rt ⟨asciiUpper text :: rest, n⟩ = Parser.Next rt ⟨text :: rest, n⟩ :=
    fun text => Next_same_line rt _ _ rest n (ToLower_TrimSpace_upper rt text)
  refine ⟨hup, ?_, ?_, ?_, ?_⟩
  · intro text text' h
    rw [← hup text, ← hup text', h]
  · intro text rs1 rs2 h1 h2
    simp only [spaceRunes, List.all_eq_true] at h1 h2
    exact Next_same_line rt _ _ rest n (by rw [TrimSpace_runes rs1 rs2 text h1 h2])
  · exact fun t0 ps h => Next_layoutLine rt rest n ps t0 h
  · exact fun w hne hw => asciiSpace_gapRunes rt w hne hw

/-- The line `add r1 r2 r3` in upper case, between white space (a no-break space
among it), and with other runs of white space between its tokens (spaces, tabs,
an ideographic space): the word is `[0x41, 0x23]` each time. -/
theorem Next_case_layout_insensitive_witness :
    asciiUpper (bytes "add r1 r2 r3") = bytes "ADD R1 R2 R3" ∧
    Parser.Next asciiRuntime ⟨[asciiUpper (bytes "add r1 r2 r3")], 0⟩ =
      Parser.Next asciiRuntime ⟨[bytes "add r1 r2 r3"], 0⟩ ∧
    Parser.Next asciiRuntime ⟨[bytes "aDd R1 r2 R3"], 0⟩ =
      Parser.Next asciiRuntime ⟨[bytes "add r1 r2 r3"], 0⟩ ∧
    encodeRunes [0x20, 0xA0, 0x09] = [0x20, 0xC2, 0xA0, 0x09] ∧
    Parser.Next asciiRuntime
        ⟨[encodeRunes [0x20, 0xA0, 0x09] ++ bytes "add r1 r2 r3" ++ encodeRunes [0x20]], 0⟩ =
      Parser.Next asciiRuntime ⟨[bytes "add r1 r2 r3"], 0⟩ ∧
    layoutLine (bytes "add")
        ([([0x20], [0x20, 0x09], bytes "r1"), ([0x20], [0x3000], bytes "r2"),
          ([0x20], [0x09, 0x09], bytes "r3")].map (fun p => (encodeRunes p.1, p.2.2))) =
      bytes "add r1 r2 r3" ∧
    layoutLine (bytes "add")
        ([([0x20], [0x20, 0x09], bytes "r1"), ([0x20], [0x3000], bytes "r2"),
          ([0x20], [0x09, 0x09], bytes "r3")].map (fun p => (encodeRunes p.2.1, p.2.2))) =
      bytes "add" ++ [0x20, 0x09] ++ bytes "r1" ++ [0xE3, 0x80, 0x80] ++ bytes "r2" ++
        [0x09, 0x09] ++ bytes "r3" ∧
    Parser.Next asciiRuntime ⟨[layoutLine (bytes "add")
        ([([0x20], [0x20, 0x09], bytes "r1"), ([0x20], [0x3000], bytes "r2"),
          ([0x20], [0x09, 0x09], bytes "r3")].map (fun p => (encodeRunes p.1, p.2.2)))], 0⟩ =
      Parser.Next asciiRuntime ⟨[layoutLine (bytes "add")
        ([([0x20], [0x20, 0x09], bytes "r1"), ([0x20], [0x3000], bytes "r2"),
          ([0x20], [0x09, 0x09], bytes "r3")].map (fun p => (encodeRunes p.2.1, p.2.2)))], 0⟩ ∧
    (gapRunes asciiRuntime [0x20, 0x09] = true ∧ encodeRunes [0x20, 0x09] = [0x20, 0x09]) ∧
    (Parser.Next asciiRuntime ⟨[bytes "add r1 r2 r3"], 0⟩).1 =
      .ret ⟨[0x41, 0x23], true, none⟩ :=
  ⟨by decide,
    (Next_case_layout_insensitive asciiRuntime [] 0).1 _,
    (Next_case_layout_insensitive asciiRuntime [] 0).2.1 _ _ (by decide),
    by decide,
    (Next_case_layout_insensitive asciiRuntime [] 0).2.2.1 _ _ _ (by decide) (by decide),
    by decide,
    by decide,
    (Next_case_layout_insensitive asciiRuntime [] 0).2.2.2.1 _ _ (by decide),
    (Next_case_layout_insensitive asciiRuntime [] 0).2.2.2.2 _ (by decide) (by decide),
    by decide⟩

/-! ### Index safety of `Parser.Next` -/

theorem DecodeRune_two (s0 s1 : Nat) (t : GoString) (h0 : 0xC2 ≤ s0) (h1 : s0 < 0xE0)
    (h2 : 0x80 ≤ s1) (h3 : s1 ≤ 0xBF) :
    DecodeRune (s0 :: s1 :: t) = (((s0 &&& 0x1F) <<< 6) ||| (s1 &&& 0x3F), 2) := by
  have e1 : ¬ s0 < 0x80 := by omega
  have e2 : ¬ (s0 < 0xC2 ∨ 0xF4 < s0) := by omega
  have e3 : ¬ s0 = 0xE0 := by omega
  have e4 : ¬ s0 = 0xF0 := by omega
  have e5 : ¬ s0 = 0xED := by omega
  have e6 : ¬ s0 = 0xF4 := by omega
  have e7 : ¬ (s1 < 0x80 ∨ 0xBF < s1) := by omega
  have e8 : ¬ (t.length + 1 + 1 < 2) := by omega
  simp only [DecodeRune, e1, e2, e3, e4, e5, e6, e7, e8, h1, if_true, if_false,
    List.length_cons, Nat.le_refl]

theorem DecodeRune_three (s0 s1 s2 : Nat) (t : GoString) (h0 : 0xE0 ≤ s0) (h1 : s0 < 0xF0)
    (hlo : s0 = 0xE0 → 0xA0 ≤ s1) (hhi : s0 = 0xED → s1 ≤ 0x9F)
    (h2 : 0x80 ≤ s1 ∧ s1 ≤ 0xBF) (h3 : 0x80 ≤ s2 ∧ s2 ≤ 0xBF) :
    DecodeRune (s0 :: s1 :: s2 :: t) =
      (((s0 &&& 0x0F) <<< 12) ||| ((s1 &&& 0x3F) <<< 6) ||| (s2 &&& 0x3F), 3) := by
  have e1 : ¬ s0 < 0x80 := by omega
  have e2 : ¬ (s0 < 0xC2 ∨ 0xF4 < s0) := by omega
  have e3 : ¬ s0 < 0xE0 := by omega
  have e4 : ¬ s0 = 0xF0 := by omega
  have e6 : ¬ s0 = 0xF4 := by omega
  have e8 : ¬ (t.length + 1 + 1 + 1 < 3) := by omega
  have e9 : isCont s2 = true := by simp [isCont, h3.1, h3.2]
  have e10 : ¬ (3 ≤ 2) := by omega
  simp only [DecodeRune, e1, e2, e3, e4, e6, e8, e9, e10, h1, if_true, if_false,
    List.length_cons, Nat.le_refl, Bool.not_true, Bool.false_eq_true]
  have e7 : ¬ ((s1 < if s0 = 0xE0 then 0xA0 else 0x80) ∨
      (if s0 = 0xED then 0x9F else 0xBF) < s1) := by
    split_ifs <;> omega
  rw [if_neg e7]

theorem DecodeRune_four (s0 s1 s2 s3 : Nat) (t : GoString) (h0 : 0xF0 ≤ s0) (h1 : s0 ≤ 0xF4)
    (hlo : s0 = 0xF0 → 0x90 ≤ s1) (hhi : s0 = 0xF4 → s1 ≤ 0x8F)
    (h2 : 0x80 ≤ s1 ∧ s1 ≤ 0xBF) (h3 : 0x80 ≤ s2 ∧ s2 ≤ 0xBF) (h4 : 0x80 ≤ s3 ∧ s3 ≤ 0xBF) :
    DecodeRune (s0 :: s1 :: s2 :: s3 :: t) =
      (((s0 &&& 0x07) <<< 18) ||| ((s1 &&& 0x3F) <<< 12) ||| ((s2 &&& 0x3F) <<< 6) |||
        (s3 &&& 0x3F), 4) := by
  have e1 : ¬ s0 < 0x80 := by omega
  have e2 : ¬ (s0 < 0xC2 ∨ 0xF4 < s0) := by omega
  have e3 : ¬ s0 < 0xE0 := by omega
  have e3b : ¬ s0 < 0xF0 := by omega
  have e4 : ¬ s0 = 0xE0 := by omega
  have e6 : ¬ s0 = 0xED := by omega
  have e8 : ¬ (t.length + 1 + 1 + 1 + 1 < 4) := by omega
  have e9 : isCont s2 = true := by simp [isCont, h3.1, h3.2]
  have e9b : isCont s3 = true := by simp [isCont, h4.1, h4.2]
  have e10 : ¬ (4 ≤ 2) := by omega
  have e11 : ¬ (4 ≤ 3) := by omega
  simp only [DecodeRune, e1, e2, e3, e3b, e4, e6, e8, e9, e9b, e10, e11, if_true, if_false,
    List.length_cons, Nat.le_refl, Bool.not_true, Bool.false_eq_true]
  have e7 : ¬ ((s1 < if s0 = 0xF0 then 0x90 else 0x80) ∨
      (if s0 = 0xF4 then 0x8F else 0xBF) < s1) := by
    split_ifs <;> omega
  rw [if_neg e7]


theorem or_c0 : ∀ a < 32, 0xC0 ||| a = 0xC0 + a ∧ (0xC0 + a) &&& 0x1F = a := by decide

theorem or_80 : ∀ c < 64, 0x80 ||| c = 0x80 + c ∧ (0x80 + c) &&& 0x3F = c := by decide

theorem or_e0 : ∀ a < 16, 0xE0 ||| a = 0xE0 + a ∧ (0xE0 + a) &&& 0x0F = a := by decide

theorem or_f0 : ∀ a < 8, 0xF0 ||| a = 0xF0 + a ∧ (0xF0 + a) &&& 0x07 = a := by decide

theorem or_add (x c i : Nat) (hx : x % 2 ^ i = 0) (hc : c < 2 ^ i) : x ||| c = x + c := by
  have h : x = 2 ^ i * (x / 2 ^ i) := by
    have := Nat.div_add_mod x (2 ^ i)
    omega
  rw [h, Nat.mul_add_lt_is_or hc]

theorem shr6 (m : Nat) : m >>> 6 = m / 64 := by rw [Nat.shiftRight_eq_div_pow]

theorem shr12 (m : Nat) : m >>> 12 = m / 4096 := by rw [Nat.shiftRight_eq_div_pow]

theorem shr18 (m : Nat) : m >>> 18 = m / 262144 := by rw [Nat.shiftRight_eq_div_pow]

theorem and3f (m : Nat) : m &&& 0x3F = m % 64 := Nat.and_pow_two_sub_one_eq_mod m 6

theorem shl6 (m : Nat) : m <<< 6 = m * 64 := by rw [Nat.shiftLeft_eq]

theorem shl12 (m : Nat) : m <<< 12 = m * 4096 := by rw [Nat.shiftLeft_eq]

theorem shl18 (m : Nat) : m <<< 18 = m * 262144 := by rw [Nat.shiftLeft_eq]

/-- The round trip of UTF-8: the encoding of a rune is read back as that rune,
or as `RuneError` for a surrogate or a value above `0x10FFFF`, whatever follows
it. -/
theorem DecodeRune_encodeRune (m : Nat) (t : GoString) :
    DecodeRune (encodeRune m ++ t) =
      (if 0x10FFFF < m ∨ (0xD800 ≤ m ∧ m ≤ 0xDFFF) then RuneError else m,
        (encodeRune m).length) := by
  by_cases h1 : m < 0x80
  · have hv : ¬ (0x10FFFF < m ∨ (0xD800 ≤ m ∧ m ≤ 0xDFFF)) := by omega
    simp only [encodeRune, h1, if_true, hv, if_false, List.cons_append, List.nil_append,
      DecodeRune_ascii m t h1, List.length_singleton]
  by_cases h2 : m < 0x800
  · have hv : ¬ (0x10FFFF < m ∨ (0xD800 ≤ m ∧ m ≤ 0xDFFF)) := by omega
    have ha := or_c0 (m / 64) (by omega)
    have hc := or_80 (m % 64) (by omega)
    simp only [encodeRune, h1, h2, if_true, if_false, hv, shr6, and3f, ha.1, hc.1,
      List.cons_append, List.nil_append, List.length_cons, List.length_nil]
    rw [DecodeRune_two _ _ t (by omega) (by omega) (by omega) (by omega), ha.2, and3f,
      shl6, or_add (m / 64 * 64) _ 6 (by omega) (by omega), Prod.mk.injEq]
    constructor <;> omega
  by_cases hv : 0x10FFFF < m ∨ (0xD800 ≤ m ∧ m ≤ 0xDFFF)
  · simp only [encodeRune, h1, h2, hv, if_true, if_false, List.cons_append, List.nil_append,
      List.length_cons, List.length_nil]
    rw [DecodeRune_three _ _ _ t (by decide) (by decide) (by decide) (by decide) (by decide)
      (by decide)]
    rfl
  by_cases h3 : m < 0x10000
  · have ha := or_e0 (m / 4096) (by omega)
    have hb := or_80 (m / 64 % 64) (by omega)
    have hc := or_80 (m % 64) (by omega)
    simp only [encodeRune, h1, h2, h3, hv, if_true, if_false, shr6, shr12, and3f, ha.1, hb.1,
      hc.1, List.cons_append, List.nil_append, List.length_cons, List.length_nil]
    rw [DecodeRune_three _ _ _ t (by omega) (by omega) (by omega) (by omega) (by omega)
      (by omega), ha.2, and3f, and3f, shl12, shl6,
      or_add (m / 4096 * 4096) _ 12 (by omega) (by omega),
      or_add _ _ 6 (by omega) (by omega), Prod.mk.injEq]
    constructor <;> omega
  · have ha := or_f0 (m / 262144) (by omega)
    have hb := or_80 (m / 4096 % 64) (by omega)
    have hc := or_80 (m / 64 % 64) (by omega)
    have hd := or_80 (m % 64) (by omega)
    simp only [encodeRune, h1, h2, h3, hv, if_true, if_false, shr6, shr12, shr18, and3f, ha.1,
      hb.1, hc.1, hd.1, List.cons_append, List.nil_append, List.length_cons, List.length_nil]
    rw [DecodeRune_four _ _ _ _ t (by omega) (by omega) (by omega) (by omega) (by omega)
      (by omega) (by omega), ha.2, and3f, and3f, and3f, shl18, shl12, shl6,
      or_add (m / 262144 * 262144) _ 18 (by omega) (by omega),
      or_add (m / 262144 * 262144 + (128 + m / 4096 % 64) % 64 * 4096) _ 12 (by omega)
        (by omega),
      or_add _ _ 6 (by omega) (by omega), Prod.mk.injEq]
    constructor <;> omega


/-- The bytes after a white-space rune are not read by `DecodeRune`. -/
theorem DecodeRune_space_append (p t : GoString) (h : IsSpace (DecodeRune p).1 = true) :
    DecodeRune (p ++ t) = DecodeRune p := by
  rcases p with _ | ⟨s0, t1⟩
  · exact absurd h (by decide)
  by_cases h0 : s0 < 0x80
  · rw [List.cons_append, DecodeRune_ascii s0 _ h0, DecodeRune_ascii s0 _ h0]
  have hsz : (if s0 < 0xE0 then 2 else if s0 < 0xF0 then 3 else 4) ≤ 4 := by
    split_ifs <;> omega
  have hsz2 : 2 ≤ (if s0 < 0xE0 then 2 else if s0 < 0xF0 then 3 else 4) := by
    split_ifs <;> omega
  have hre : ¬ IsSpace (RuneError, 1).1 = true := by decide
  rcases t1 with _ | ⟨s1, _ | ⟨s2, _ | ⟨s3, t4⟩⟩⟩ <;>
  · simp only [List.cons_append, List.nil_append]
    simp only [DecodeRune, h0, if_false, List.length_cons, List.length_nil,
      List.length_append] at h ⊢
    generalize (if s0 = 0xE0 then 0xA0 else if s0 = 0xF0 then 0x90 else 0x80) = lo at h ⊢
    generalize (if s0 = 0xED then 0x9F else if s0 = 0xF4 then 0x8F else 0xBF) = hi at h ⊢
    generalize (if s0 < 0xE0 then 2 else if s0 < 0xF0 then 3 else 4) = sz at hsz hsz2 h ⊢
    split_ifs at h <;> (try exact absurd h hre) <;> (split_ifs <;> first | omega | rfl)

theorem trimLeft_spaceWidth : ∀ (s : GoString) (k : Nat),
    spaceWidth (trimLeft k s) = 0 := by
  intro s
  induction s with
  | nil => intro k; cases k <;> rfl
  | cons b s ih =>
    intro k
    cases k with
    | succ k =>
      simp only [trimLeft]
      exact ih k
    | zero =>
      simp only [trimLeft]
      by_cases h : spaceWidth (b :: s) = 0
      · simp only [h, if_true]
      · simp only [h, if_false]
        exact ih _

theorem trimRight_prefix : ∀ (f : Nat) (s : GoString), ∃ t, s = trimRight f s ++ t := by
  intro f
  induction f with
  | zero => intro s; exact ⟨[], by simp [trimRight]⟩
  | succ f ih =>
    intro s
    simp only [trimRight]
    split_ifs
    · obtain ⟨t, ht⟩ := ih (s.take (s.length - (DecodeLastRune s).2))
      refine ⟨t ++ s.drop (s.length - (DecodeLastRune s).2), ?_⟩
      rw [← List.append_assoc, ← ht, List.take_append_drop]
    · exact ⟨[], by simp⟩

theorem spaceWidth_prefix (p t : GoString) (h : spaceWidth (p ++ t) = 0) :
    spaceWidth p = 0 := by
  by_contra hc
  have hs : IsSpace (DecodeRune p).1 = true := by
    simp only [spaceWidth] at hc
    by_contra hn
    simp [hn] at hc
  have hd := DecodeRune_space_append p t hs
  simp only [spaceWidth, hd] at h
  simp only [spaceWidth] at hc
  exact hc h

theorem TrimSpace_spaceWidth (text : GoString) : spaceWidth (TrimSpace text) = 0 := by
  simp only [TrimSpace]
  obtain ⟨t, ht⟩ := trimRight_prefix (trimLeft 0 text).length (trimLeft 0 text)
  have h0 := trimLeft_spaceWidth text 0
  rw [ht] at h0
  exact spaceWidth_prefix _ t h0

theorem IsSpace_RuneError : IsSpace RuneError = false := by decide

theorem toLowerRune_notSpace (rt : GoRuntime) (hrt : keepsNonSpace rt) (r : Nat)
    (h : IsSpace r = false) : IsSpace (toLowerRune rt r) = false := by
  simp only [toLowerRune]
  by_cases h1 : r < 0x80
  · by_cases h2 : 0x41 ≤ r ∧ r ≤ 0x5A
    · simp only [h1, h2, and_self, if_true, IsSpace]
      rw [if_pos (by omega)]
      simp only [Bool.or_eq_false_iff, decide_eq_false_iff_not]
      omega
    · simp only [h1, h2, if_true, if_false, h]
  · simp only [h1, if_false]
    cases hc : IsSpace (rt.unicodeToLower r) with
    | false => rfl
    | true => rw [hrt r hc] at h; exact absurd h (by decide)

theorem spaceWidth_encodeRune (m : Nat) (t : GoString) (h : IsSpace m = false) :
    spaceWidth (encodeRune m ++ t) = 0 := by
  simp only [spaceWidth, DecodeRune_encodeRune]
  split_ifs with h1 h2 h3
  · rw [IsSpace_RuneError] at h2; exact absurd h2 (by decide)
  · rfl
  · rw [h] at h3; exact absurd h3 (by decide)
  · rfl

theorem ToLower_spaceWidth (rt : GoRuntime) (hrt : keepsNonSpace rt) (p : GoString)
    (hp : p ≠ []) (h : spaceWidth p = 0) : spaceWidth (ToLower rt p) = 0 := by
  rcases p with _ | ⟨b, s⟩
  · exact absurd rfl hp
  have hw := (DecodeRune_width (b :: s)).2.2 (List.cons_ne_nil b s)
  have hs : IsSpace (DecodeRune (b :: s)).1 = false := by
    simp only [spaceWidth] at h
    cases hc : IsSpace (DecodeRune (b :: s)).1 with
    | false => rfl
    | true => rw [hc] at h; simp only [if_true] at h; omega
  simp only [ToLower]
  rw [Map]
  exact spaceWidth_encodeRune _ _ (toLowerRune_notSpace rt hrt _ hs)

theorem fieldsLoop_ne_nil : ∀ (s : GoString) (k : Nat) (cur : GoString), cur ≠ [] →
    fieldsLoop k cur s ≠ [] := by
  intro s
  induction s with
  | nil =>
    intro k cur hc
    cases k <;> simp [fieldsLoop, hc]
  | cons b s ih =>
    intro k cur hc
    cases k with
    | succ k =>
      simp only [fieldsLoop]
      exact ih k cur hc
    | zero =>
      simp only [fieldsLoop]
      split_ifs with h1
      · exact ih 0 _ (by simp)
      · simp

theorem Fields_ne_nil (x : GoString) (hx : x ≠ []) (h : spaceWidth x = 0) : Fields x ≠ [] := by
  rcases x with _ | ⟨b, s⟩
  · exact absurd rfl hx
  simp only [Fields, fieldsLoop, h, if_true]
  exact fieldsLoop_ne_nil s 0 _ (by simp)

/-- The token list of a line that passes the blank-or-comment test is not
empty. -/
theorem tokens_ne_nil (rt : GoRuntime) (hrt : keepsNonSpace rt) (text : GoString)
    (h : ¬ skips rt text) : Fields (ToLower rt (TrimSpace text)) ≠ [] := by
  have h1 : ToLower rt (TrimSpace text) ≠ [] := fun hc => h (Or.inl hc)
  have h2 : TrimSpace text ≠ [] := by
    intro hc
    rw [hc, ToLower_nil] at h1
    exact h1 rfl
  exact Fields_ne_nil _ h1 (ToLower_spaceWidth rt hrt _ h2 (TrimSpace_spaceWidth text))

theorem compressData_four (d : List Nat) (h : d.length = 4) : compressData d ≠ .panic := by
  rcases d with _ | ⟨d0, _ | ⟨d1, _ | ⟨d2, _ | ⟨d3, _ | ⟨d4, t⟩⟩⟩⟩⟩ <;> simp at h
  simp [compressData]

/-- The loop of `Parser.Next` over a schema that fits the tokens and the buffer:
the buffer keeps its four bytes, and the loop panics only where `parseNumeric`
does, on the first operand that does not parse. -/
theorem loop_safe (rt : GoRuntime) (k : Nat) (tokens : List GoString) :
    ∀ (params : List InstructionParamType) (i : Nat) (data : List Nat),
      data.length = 4 → i + params.length ≤ 3 → tokens.length = i + 1 + params.length →
      (∀ out, Parser.Next.loop rt k tokens params i data = .ret (.inl out) → out.length = 4) ∧
      (Parser.Next.loop rt k tokens params i data = .panic →
        ∃ (j : Nat) (p : InstructionParamType) (token : GoString),
          params[j]? = some p ∧ p ≠ ParamRegister ∧
          tokens[i + j + 1]? = some token ∧ parseNumeric rt token = .panic ∧
          ∀ j0 < j, ∃ (q : InstructionParamType) (t : GoString) (r : Nat),
            params[j0]? = some q ∧ tokens[i + j0 + 1]? = some t ∧ operandParses rt q t r) := by
  intro params
  induction params with
  | nil =>
    intro i data hd _ _
    simp [Parser.Next.loop, hd]
  | cons p ps ih =>
    intro i data hd hi ht
    simp only [List.length_cons] at hi ht
    have hlt : i + 1 < tokens.length := by omega
    have hget : tokens[i + 1]? = some (tokens.get ⟨i + 1, hlt⟩) := by
      simp [List.getElem?_eq_getElem hlt]
    have hdl : i + 1 < data.length := by omega
    have hstep : ∀ (tmp : Nat), operandParses rt p (tokens.get ⟨i + 1, hlt⟩) tmp →
        (∀ out, Parser.Next.loop rt k tokens ps (i + 1) (data.set (i + 1) tmp) =
            .ret (.inl out) → out.length = 4) ∧
        (Parser.Next.loop rt k tokens ps (i + 1) (data.set (i + 1) tmp) = .panic →
          ∃ (j : Nat) (p0 : InstructionParamType) (token : GoString),
            (p :: ps)[j]? = some p0 ∧ p0 ≠ ParamRegister ∧
            tokens[i + j + 1]? = some token ∧ parseNumeric rt token = .panic ∧
            ∀ j0 < j, ∃ (q : InstructionParamType) (t : GoString) (r : Nat),
              (p :: ps)[j0]? = some q ∧ tokens[i + j0 + 1]? = some t ∧
                operandParses rt q t r) := by
      intro tmp hop
      obtain ⟨h1, h2⟩ := ih (i + 1) (data.set (i + 1) tmp) (by simp [hd]) (by omega)
        (by omega)
      refine ⟨h1, fun hpanic => ?_⟩
      obtain ⟨j, q, token, a1, a2, a3, a4, a5⟩ := h2 hpanic
      refine ⟨j + 1, q, token, by simpa using a1, a2,
        by rw [show i + (j + 1) + 1 = i + 1 + j + 1 by omega]; exact a3, a4, ?_⟩
      intro j0 hj0
      cases j0 with
      | zero => exact ⟨p, _, tmp, by simp, hget, hop⟩
      | succ j1 =>
        obtain ⟨q1, t1, r1, b1, b2, b3⟩ := a5 j1 (by omega)
        exact ⟨q1, t1, r1, by simpa using b1,
          by rw [show i + (j1 + 1) + 1 = i + 1 + j1 + 1 by omega]; exact b2, b3⟩
    rw [Parser.Next.loop, hget]
    simp only
    by_cases hp : p = ParamRegister
    · rw [if_pos hp]
      rcases hr : asm.parseRegister (tokens.get ⟨i + 1, hlt⟩) with ⟨tmp, err⟩
      cases err with
      | some e => simp
      | none =>
        simp only [hdl, if_true]
        exact hstep tmp (Or.inl ⟨hp, hr⟩)
    · rw [if_neg hp]
      cases hn : parseNumeric rt (tokens.get ⟨i + 1, hlt⟩) with
      | panic =>
        simp only [true_and]
        refine ⟨fun out h => by simp at h, fun _ => ⟨0, p, _, by simp, hp, hget, hn, ?_⟩⟩
        intro j0 hj0
        exact absurd hj0 (Nat.not_lt_zero j0)
      | ret x =>
        obtain ⟨tmp, err⟩ := x
        cases err with
        | some e => simp
        | none =>
          simp only [hdl, if_true]
          exact hstep tmp (Or.inr ⟨hp, hn⟩)

theorem GetParams_of_GetValue (m : Instruction) (v : Nat)
    (h : Instruction.GetValue m = (v, true)) :
    ∃ s, Instruction.GetParams m = some s ∧ (s.length = 2 ∨ s.length = 3) := by
  have hmem := GetValue_mem m v h
  have hkeys : ∀ p ∈ instructionMap, ∃ s, Instruction.GetParams p.1 = some s ∧
      (s.length = 2 ∨ s.length = 3) := by decide
  exact hkeys _ hmem

/-- A panic of the body of `Parser.Next` on a line with a token is a panic of
`parseNumeric` on an operand token at a position that is not a register. -/
theorem body_safe (rt : GoRuntime) (k : Nat) (line : GoString) (hne : Fields line ≠ [])
    (h : Parser.Next.body rt k line = .panic) :
    ∃ (tok0 : GoString) (ops : List GoString) (params : List InstructionParamType) (j : Nat)
      (p : InstructionParamType) (token : GoString), Fields line = tok0 :: ops ∧
      Instruction.GetParams tok0 = some params ∧ params[j]? = some p ∧ p ≠ ParamRegister ∧
      ops[j]? = some token ∧ parseNumeric rt token = .panic := by
  simp only [Parser.Next.body] at h
  generalize hF : Fields line = tokens at h hne
  cases tokens with
  | nil => exact absurd rfl hne
  | cons tok0 ops =>
    simp only [List.getElem?_cons_zero] at h
    by_cases hv : (Instruction.GetValue tok0).2 = true
    · simp only [hv, Bool.not_true, Bool.false_eq_true, if_false] at h
      cases hp : Instruction.GetParams tok0 with
      | none => rw [hp] at h; simp at h
      | some params =>
        rw [hp] at h
        simp only at h
        have hlen : params.length = 2 ∨ params.length = 3 :=
          (instructionParamMap_facts _ (GetParams_mem tok0 params hp)).1
        by_cases hk : (tok0 :: ops).length - 1 ≠ params.length
        · simp only [hk, if_true, ne_eq, not_false_eq_true] at h
          simp at h
        · simp only [hk, if_false] at h
          simp only [List.length_cons, Nat.add_sub_cancel, ne_eq, not_not] at hk
          obtain ⟨h1, h2⟩ := loop_safe rt k (tok0 :: ops) params 0
            [(Instruction.GetValue tok0).1, 0, 0, 0] rfl (by omega)
            (by simp only [List.length_cons]; omega)
          cases hl : Parser.Next.loop rt k (tok0 :: ops) params 0
              [(Instruction.GetValue tok0).1, 0, 0, 0] with
          | panic =>
            obtain ⟨j, p, token, a1, a2, a3, a4, _⟩ := h2 hl
            refine ⟨tok0, ops, params, j, p, token, rfl, hp, a1, a2, ?_, a4⟩
            simpa using a3
          | ret x =>
            rw [hl] at h
            cases x with
            | inr e => simp at h
            | inl data =>
              simp only at h
              have hd := h1 data hl
              cases hc : compressData data with
              | panic => exact absurd hc (compressData_four data hd)
              | ret w => rw [hc] at h; simp at h
    · simp only [hv, Bool.not_false, if_true] at h
      simp at h

theorem scan_panic (rt : GoRuntime) : ∀ (lines : List GoString) (n : Nat),
    (Parser.Next.scan rt lines n).1 = .panic →
    ∃ k text, text ∈ lines ∧ ¬ skips rt text ∧
      Parser.Next.body rt k (ToLower rt (TrimSpace text)) = .panic := by
  intro lines
  induction lines with
  | nil =>
    intro n h
    simp [Parser.Next.scan] at h
  | cons text rest ih =>
    intro n h
    by_cases hs : skips rt text
    · have hs1 := hs
      unfold skips at hs1
      simp only [Parser.Next.scan, hs1, if_true] at h
      obtain ⟨k, t, h1, h2, h3⟩ := ih (n + 1) h
      exact ⟨k, t, List.mem_cons_of_mem text h1, h2, h3⟩
    · have hs1 := hs
      unfold skips at hs1
      simp only [Parser.Next.scan, hs1, if_false] at h
      exact ⟨n + 1, text, List.mem_cons_self text rest, hs, h⟩

/-- The hypothesis on the case tables is needed in the embedding, which leaves
the tables open: with tables that, unlike those of Go, fold `é` to a space, the
line `é` passes the blank-or-comment test and has no token. -/
theorem tokens_nil_with_folding_tables :
    ¬ keepsNonSpace ⟨fun _ => 0x20, fun r => r, fun s => s⟩ ∧
    ¬ skips ⟨fun _ => 0x20, fun r => r, fun s => s⟩ [0xC3, 0xA9] ∧
    Fields (ToLower ⟨fun _ => 0x20, fun r => r, fun s => s⟩ (TrimSpace [0xC3, 0xA9])) = [] := by
  refine ⟨fun h => ?_, by decide, by decide⟩
  exact absurd (h 0xE9 (by decide)) (by decide)

/-- C21: index safety of `asm.Parser.Next` outside literal parsing.  With case
tables that fold no rune to white space unless it is white space, as those of
Go, every line that passes the blank-or-comment test has a first token, so
`tokens[0]` exists.  `instructionMap` and `instructionParamMap` have the same
keys, so `GetParams` returns a schema, not nil, once `GetValue` succeeds.  Every
schema has length 2 or 3; so, once the number of operands is the length of the
schema, the loop of `Parser.Next` finds every `tokens[i+1]`, writes every
`data[i+1]` inside the buffer, which keeps its four bytes for `compressData`,
and panics only if `parseNumeric` panics on the token of an operand that is
not a register.  A call of `Parser.Next` panics in no other way. -/
theorem Next_index_safe (rt : GoRuntime) :
    (keepsNonSpace rt → ∀ text : GoString, ¬ skips rt text →
      ∃ tok0 ops, Fields (ToLower rt (TrimSpace text)) = tok0 :: ops) ∧
    (∀ m : Instruction,
      m ∈ instructionMap.map Prod.fst ↔ m ∈ instructionParamMap.map Prod.fst) ∧
    (∀ (m : Instruction) (v : Nat), Instruction.GetValue m = (v, true) →
      ∃ s, Instruction.GetParams m = some s) ∧
    (∀ p ∈ instructionParamMap, p.2.length = 2 ∨ p.2.length = 3) ∧
    (∀ (k : Nat) (tok0 : GoString) (ops : List GoString) (params : List InstructionParamType)
        (v : Nat),
      Instruction.GetParams tok0 = some params → ops.length = params.length →
      (∀ i < params.length,
        (∃ t, (tok0 :: ops)[i + 1]? = some t) ∧ i + 1 < [v, 0, 0, 0].length) ∧
      (∀ out, Parser.Next.loop rt k (tok0 :: ops) params 0 [v, 0, 0, 0] = .ret (.inl out) →
        out.length = 4 ∧ compressData out ≠ .panic) ∧
      (Parser.Next.loop rt k (tok0 :: ops) params 0 [v, 0, 0, 0] = .panic →
        ∃ (j : Nat) (p : InstructionParamType) (token : GoString),
          params[j]? = some p ∧ p ≠ ParamRegister ∧ ops[j]? = some token ∧
          parseNumeric rt token = .panic ∧
          ∀ j0 < j, ∃ (q : InstructionParamType) (t : GoString) (r : Nat),
            params[j0]? = some q ∧ ops[j0]? = some t ∧ operandParses rt q t r)) ∧
    (keepsNonSpace rt → ∀ p : Parser, (Parser.Next rt p).1 = .panic →
      ∃ text ∈ p.reader, ∃ (tok0 : GoString) (ops : List GoString)
          (params : List InstructionParamType) (j : Nat) (q : InstructionParamType)
          (token : GoString),
        Fields (ToLower rt (TrimSpace text)) = tok0 :: ops ∧
        Instruction.GetParams tok0 = some params ∧ params[j]? = some q ∧
        q ≠ ParamRegister ∧ ops[j]? = some token ∧ parseNumeric rt token = .panic) := by
  refine ⟨?_, ?_, ?_, ?_, ?_, ?_⟩
  · intro hrt text h
    have hne := tokens_ne_nil rt hrt text h
    cases hF : Fields (ToLower rt (TrimSpace text)) with
    | nil => exact absurd hF hne
    | cons tok0 ops => exact ⟨tok0, ops, rfl⟩
  · have hk : instructionMap.map Prod.fst = instructionParamMap.map Prod.fst := by decide
    intro m
    rw [hk]
  · intro m v h
    obtain ⟨s, hs, _⟩ := GetParams_of_GetValue m v h
    exact ⟨s, hs⟩
  · exact fun p hp => (instructionParamMap_facts p hp).1
  · intro k tok0 ops params v hp hlen
    have hl : params.length = 2 ∨ params.length = 3 :=
      (instructionParamMap_facts _ (GetParams_mem tok0 params hp)).1
    obtain ⟨h1, h2⟩ := loop_safe rt k (tok0 :: ops) params 0 [v, 0, 0, 0] rfl (by omega)
      (by simp only [List.length_cons]; omega)
    refine ⟨fun i hi => ⟨?_, by simp only [List.length_cons, List.length_nil]; omega⟩,
      fun out ho => ⟨h1 out ho, compressData_four out (h1 out ho)⟩, fun hpanic => ?_⟩
    · have hlt : i < ops.length := by omega
      exact ⟨ops.get ⟨i, hlt⟩, by simp [List.getElem?_eq_getElem hlt]⟩
    · obtain ⟨j, p, token, a1, a2, a3, a4, a5⟩ := h2 hpanic
      refine ⟨j, p, token, a1, a2, by simpa using a3, a4, fun j0 hj0 => ?_⟩
      obtain ⟨q, t, r, b1, b2, b3⟩ := a5 j0 hj0
      exact ⟨q, t, r, b1, by simpa using b2, b3⟩
  · intro hrt p h
    obtain ⟨k, text, hmem, hs, hb⟩ := scan_panic rt p.reader p.currentLine h
    obtain ⟨tok0, ops, params, j, q, token, b1, b2, b3, b4, b5, b6⟩ :=
      body_safe rt k _ (tokens_ne_nil rt hrt text hs) hb
    exact ⟨text, hmem, tok0, ops, params, j, q, token, b1, b2, b3, b4, b5, b6⟩

/-- The line `addi r1 r2 5` with the identity for case tables: it has tokens, the
call panics, and it panics in `parseNumeric` on the token `5`. -/
theorem Next_index_safe_witness :
    keepsNonSpace asciiRuntime ∧ ¬ skips asciiRuntime (bytes "addi r1 r2 5") ∧
    (∃ tok0 ops,
      Fields (ToLower asciiRuntime (TrimSpace (bytes "addi r1 r2 5"))) = tok0 :: ops) ∧
    (Parser.Next asciiRuntime ⟨[bytes "addi r1 r2 5"], 0⟩).1 = .panic ∧
    (∃ text ∈ [bytes "addi r1 r2 5"], ∃ (tok0 : GoString) (ops : List GoString)
        (params : List InstructionParamType) (j : Nat) (q : InstructionParamType)
        (token : GoString),
      Fields (ToLower asciiRuntime (TrimSpace text)) = tok0 :: ops ∧
      Instruction.GetParams tok0 = some params ∧ params[j]? = some q ∧
      q ≠ ParamRegister ∧ ops[j]? = some token ∧
      parseNumeric asciiRuntime token = .panic) ∧
    parseNumeric asciiRuntime (bytes "5") = .panic :=
  ⟨fun _ h => h, by decide,
    (Next_index_safe asciiRuntime).1 (fun _ h => h) _ (by decide),
    by decide,
    (Next_index_safe asciiRuntime).2.2.2.2.2 (fun _ h => h) ⟨[bytes "addi r1 r2 5"], 0⟩
      (by decide),
    by decide⟩

/-! ### Whole inputs: the scanner, the words and the driver -/

theorem TrimSpace_dropCR (t : GoString) : TrimSpace (dropCR t) = TrimSpace t := by
  rcases dropCR_cases t with h | h
  · rw [h]
  · have h1 := TrimSpace_runes [] [0x0D] (dropCR t) (by simp) (by decide)
    have h2 : encodeRunes [] ++ dropCR t ++ encodeRunes [0x0D] = dropCR t ++ [0x0D] := rfl
    rw [h2, ← h] at h1
    exact h1.symm

theorem blankOrComment_dropCR (t : GoString) : blankOrComment (dropCR t) ↔ blankOrComment t := by
  unfold blankOrComment
  rw [TrimSpace_dropCR]

theorem Next_dropCR (rt : GoRuntime) (t : GoString) (rest : List GoString) (n : Nat) :
    Parser.Next rt ⟨dropCR t :: rest, n⟩ = Parser.Next rt ⟨t :: rest, n⟩ :=
  Next_same_line rt (dropCR t) t rest n (by rw [TrimSpace_dropCR])

theorem wordOf_dropCR (rt : GoRuntime) (t : GoString) : wordOf rt (dropCR t) = wordOf rt t := by
  unfold wordOf
  rw [Next_dropCR]

theorem goodLine_dropCR (rt : GoRuntime) (t : GoString) (h : goodLine rt t) :
    goodLine rt (dropCR t) := by
  unfold goodLine at h ⊢
  rw [wordOf_dropCR, blankOrComment_dropCR]
  exact h

theorem filterMap_wordOf_dropCR (rt : GoRuntime) (input : List GoString) :
    (input.map dropCR).filterMap (wordOf rt) = input.filterMap (wordOf rt) := by
  induction input with
  | nil => rfl
  | cons t rest ih =>
    rw [List.map_cons]
    cases hw : wordOf rt t with
    | none =>
      rw [List.filterMap_cons_none hw, List.filterMap_cons_none (by rw [wordOf_dropCR, hw]), ih]
    | some w =>
      rw [List.filterMap_cons_some hw, List.filterMap_cons_some (by rw [wordOf_dropCR, hw]), ih]

theorem filter_instruction_dropCR (input : List GoString) :
    ((input.map dropCR).filter (fun t => decide (¬ blankOrComment t))).length =
      (input.filter (fun t => decide (¬ blankOrComment t))).length := by
  induction input with
  | nil => rfl
  | cons t rest ih =>
    rw [List.map_cons]
    by_cases hb : blankOrComment t
    · rw [List.filter_cons_of_neg (by simp [(blankOrComment_dropCR t).mpr hb]),
        List.filter_cons_of_neg (by simp [hb]), ih]
    · rw [List.filter_cons_of_pos (by
          simp only [decide_not, Bool.not_eq_true', decide_eq_false_iff_not]
          exact fun h => hb ((blankOrComment_dropCR t).mp h)),
        List.filter_cons_of_pos (by simp [hb]),
        List.length_cons, List.length_cons, ih]

theorem TrimSpace_spaces (n : Nat) : TrimSpace (List.replicate n 0x20) = [] := by
  have hs : ∀ r ∈ List.replicate n 0x20, IsSpace r = true := by
    intro r hr
    rw [List.eq_of_mem_replicate hr]
    rfl
  have he : encodeRunes (List.replicate n 0x20) = List.replicate n 0x20 := by
    induction n with
    | zero => rfl
    | succ k ih =>
      rw [List.replicate_succ, encodeRunes_cons, encodeRune_ascii 0x20 (by decide),
        ih (fun r hr => by rw [List.eq_of_mem_replicate hr]; rfl)]
      rfl
  have h1 := TrimSpace_runes (List.replicate n 0x20) [] [] hs (by simp)
  rw [he] at h1
  have h2 : List.replicate n 0x20 ++ ([] : GoString) ++ encodeRunes [] =
      List.replicate n 0x20 := by
    rw [encodeRunes_nil, List.append_nil, List.append_nil]
  rw [h2] at h1
  rw [h1]
  rfl

theorem blankOrComment_spaces (n : Nat) : blankOrComment (List.replicate n 0x20) :=
  Or.inl (TrimSpace_spaces n)

theorem NewScanner_spaces (n : Nat) (hn : MaxScanTokenSize ≤ n) (rest : List GoString) :
    NewScanner (List.replicate n 0x20 :: rest) = [] :=
  NewScanner_long _ rest (by rw [List.length_replicate]; exact hn)

/-- The word of a line whose tokens are a catalog mnemonic and operand tokens
that resolve to 4-bit values. -/
theorem body_word (rt : GoRuntime) (k : Nat) (line m : GoString) (ts : List GoString)
    (rs : List Nat) (v : Nat) (s : List InstructionParamType) (ht : Fields line = m :: ts)
    (hv : Instruction.GetValue m = (v, true)) (hs : Instruction.GetParams m = some s)
    (hp : operandsParse rt s ts rs) (hr : ∀ r ∈ rs, r < 16) :
    Parser.Next.body rt k line =
      .ret ⟨[v ||| rs.getD 0 0, (rs.getD 1 0 <<< 4) ||| rs.getD 2 0], true, none⟩ := by
  obtain ⟨_, _, hv0⟩ := instructionMap_facts _ (GetValue_mem m v hv)
  simp only at hv0
  obtain ⟨hlen, _⟩ := instructionParamMap_facts _ (GetParams_mem m s hs)
  simp only at hlen
  obtain ⟨hl1, hl2⟩ := operandsParse_length rt s ts rs hp
  rw [body_operands rt k line m ts v s ht hv hs hl1]
  rw [loop_fill rt k (m :: ts) s ts rs 0 [v, 0, 0, 0] hp (by simp)
    (by simp only [List.length_cons, List.length_nil]; omega)]
  have hsl : ∀ x : Nat, x < 16 → x <<< 4 < 256 := by decide
  rcases hlen with h2 | h3
  · match rs, hl2, hr with
    | [r1, r2], _, hr =>
      have hr1 := land_0f_nibble r1 (hr r1 (by simp))
      have hr2 := land_0f_nibble r2 (hr r2 (by simp))
      have hs2 := hsl r2 (hr r2 (by simp))
      simp [fill, compressData, hv0, hr1, hr2, hs2, Nat.mod_eq_of_lt hs2]
    | [], h, _ => simp [h2] at h
    | [_], h, _ => simp [h2] at h
    | _ :: _ :: _ :: _, h, _ => simp [h2] at h
  · match rs, hl2, hr with
    | [r1, r2, r3], _, hr =>
      have hr1 := land_0f_nibble r1 (hr r1 (by simp))
      have hr2 := land_0f_nibble r2 (hr r2 (by simp))
      have hr3 := land_0f_nibble r3 (hr r3 (by simp))
      have hs2 := hsl r2 (hr r2 (by simp))
      simp [fill, compressData, hv0, hr1, hr2, hr3, hs2, Nat.mod_eq_of_lt hs2]
    | [], h, _ => simp [h3] at h
    | [_], h, _ => simp [h3] at h
    | [_, _], h, _ => simp [h3] at h
    | _ :: _ :: _ :: _ :: _, h, _ => simp [h3] at h

theorem body_unknown (rt : GoRuntime) (k : Nat) (line tok0 : GoString) (ops : List GoString)
    (ht : Fields line = tok0 :: ops) (hv : (Instruction.GetValue tok0).2 = false) :
    Parser.Next.body rt k line =
      .ret ⟨[], true, some ⟨bytes "Invalid instruction provided '" ++ ToUpper rt tok0 ++
        bytes "'", k⟩⟩ := by
  simp [Parser.Next.body, ht, hv]

/-- An instruction line is not blank and not a comment, and the word of the line
is the word of the bit layout for its opcode and operand values. -/
theorem instructionLine_word (rt : GoRuntime) (text m : GoString) (v : Nat)
    (s : List InstructionParamType) (ts : List GoString) (rs : List Nat)
    (ht : Fields (ToLower rt (TrimSpace text)) = m :: ts)
    (hv : Instruction.GetValue m = (v, true)) (hs : Instruction.GetParams m = some s)
    (hops : operandTokens s ts rs) :
    ¬ blankOrComment text ∧
      wordOf rt text = some [v ||| rs.getD 0 0, (rs.getD 1 0 <<< 4) ||| rs.getD 2 0] := by
  have hns := not_skips_of_mnemonic rt text m ts v ht hv
  obtain ⟨p1, _, p3⟩ := operandTokens_parse rt s ts rs hops
  exact ⟨fun hb => hns (blankOrComment_skips rt text hb),
    wordOf_body rt text _ 0 hns (body_word rt 0 _ m ts rs v s ht hv hs p1 p3)⟩

theorem instructionLine_good (rt : GoRuntime) (text : GoString)
    (h : blankOrComment text ∨ instructionLine rt text) : goodLine rt text := by
  rcases h with h | ⟨m, v, s, ts, rs, ht, hv, hs, hops⟩
  · exact Or.inl h
  · right
    rw [(instructionLine_word rt text m v s ts rs ht hv hs hops).2]
    rfl

/-- The calls of `Parser.Next` and the loop of the driver on delivered texts
that are blank, comments or texts with a word. -/
theorem words_of_good_lines (rt : GoRuntime) (lines : List GoString)
    (hg : ∀ t ∈ lines, goodLine rt t) :
    (∀ j (hj : j < (lines.filterMap (wordOf rt)).length),
      (Parser.Next rt (afterCalls rt j ⟨lines, 0⟩)).1 =
        .ret ⟨(lines.filterMap (wordOf rt))[j], true, none⟩) ∧
    (Parser.Next rt (afterCalls rt (lines.filterMap (wordOf rt)).length ⟨lines, 0⟩)).1 =
      .ret ⟨[], false, none⟩ := by
  have hcall : ∀ j, (Parser.Next rt (afterCalls rt j ⟨lines, 0⟩)).1 =
      match ((lines.filterMap (wordOf rt)).drop j).head? with
      | some w => .ret ⟨w, true, none⟩
      | none => .ret ⟨[], false, none⟩ := by
    intro j
    obtain ⟨lines1, n1, h1, h2, h3⟩ := afterCalls_good rt lines 0 hg j
    obtain ⟨lines2, n2, _, _, g3⟩ := Next_good rt lines1 n1 h2
    rw [h1, g3, h3]
  refine ⟨?_, ?_⟩
  · intro j hj
    rw [hcall j, List.head?_drop, List.getElem?_eq_getElem hj]
  · rw [hcall, List.drop_length]
    rfl

theorem mov_line (rt : GoRuntime) :
    ¬ skips rt (bytes "mov r0 r1") ∧
      ∀ k, Parser.Next.body rt k (ToLower rt (TrimSpace (bytes "mov r0 r1"))) =
        .ret ⟨[0x00, 0x10], true, none⟩ := by
  have hj : bytes "mov r0 r1" = joinTokens [bytes "mov", bytes "r0", bytes "r1"] := by decide
  have hall : ∀ t ∈ [bytes "mov", bytes "r0", bytes "r1"], plain t = true := by decide
  refine ⟨?_, fun k => ?_⟩
  · rw [hj]
    exact not_skips_joinTokens rt (bytes "mov") [bytes "r0", bytes "r1"] (by decide) (by decide)
      (by decide)
  · exact body_word rt k _ (bytes "mov") [bytes "r0", bytes "r1"] [0, 1] 0x00
      [ParamRegister, ParamRegister] (by rw [hj]; exact (line_joinTokens rt _ hall).2)
      (by decide) (by decide) ⟨Or.inl ⟨rfl, by decide⟩, Or.inl ⟨rfl, by decide⟩, trivial⟩
      (by decide)

theorem jmp_line (rt : GoRuntime) :
    ¬ skips rt (bytes "jmp r0") ∧
      ∀ k, Parser.Next.body rt k (ToLower rt (TrimSpace (bytes "jmp r0"))) =
        .ret ⟨[], true, some ⟨bytes "Invalid instruction provided 'JMP'", k⟩⟩ := by
  have hj : bytes "jmp r0" = joinTokens [bytes "jmp", bytes "r0"] := by decide
  have hall : ∀ t ∈ [bytes "jmp", bytes "r0"], plain t = true := by decide
  refine ⟨?_, fun k => ?_⟩
  · rw [hj]
    exact not_skips_joinTokens rt (bytes "jmp") [bytes "r0"] (by decide) (by decide) (by decide)
  · rw [body_unknown rt k _ (bytes "jmp") [bytes "r0"]
      (by rw [hj]; exact (line_joinTokens rt _ hall).2) (by decide),
      ToUpper_ascii rt (bytes "jmp") (by decide)]
    rfl

/-- A line of `n` spaces, `n` not below `MaxScanTokenSize`, in front of
`mov r0 r1`: the scanner delivers nothing. -/
theorem long_line_first (rt : GoRuntime) (n : Nat) (hn : MaxScanTokenSize ≤ n) :
    Parser.Next rt (NewParser [List.replicate n 0x20, bytes "mov r0 r1"]) =
        (.ret ⟨[], false, none⟩, ⟨[], 0⟩) ∧
      runRootCommand rt (fun _ => none) [List.replicate n 0x20, bytes "mov r0 r1"] =
        some ⟨[.Write [], .Close], .returned⟩ := by
  constructor
  · rw [NewParser, NewScanner_spaces n hn]
    rfl
  · rw [runRootCommand_runLines, NewScanner_spaces n hn]
    rfl

/-- A line of `n` spaces, `n` not below `MaxScanTokenSize`, between `mov r0 r1`
and `jmp r0`: the driver writes the word of the first line. -/
theorem long_line_second (rt : GoRuntime) (n : Nat) (hn : MaxScanTokenSize ≤ n) :
    runRootCommand rt (fun _ => none)
        [bytes "mov r0 r1", List.replicate n 0x20, bytes "jmp r0"] =
      some ⟨[.Write [0x00, 0x10], .Close], .returned⟩ := by
  rw [runRootCommand_runLines,
    NewScanner_short (bytes "mov r0 r1") _ (by decide), NewScanner_spaces n hn,
    show dropCR (bytes "mov r0 r1") = bytes "mov r0 r1" from rfl]
  simp only [runLines, (mov_line rt).1, if_false, (mov_line rt).2]
  rfl

/-- C7: when a call of `Parser.Next` on an input returns a `SyntaxError`, its
`LineNumber` is the 1-based position in the whole input of the line that was
parsed (the lines before it, blank and comment lines included, are the ones the
parser has consumed, and the scanner goes on with the lines after it); and a
blank line or a line whose first byte after the leading white space is `#`
yields neither a word nor an error: the call moves on to the next line, with the
counter incremented. -/
theorem syntaxError_lineNumber (rt : GoRuntime) (input : List GoString) (j : Nat)
    (r : NextResult) (e : SyntaxError) (text : GoString) (rest : List GoString) (n : Nat)
    (hr : (Parser.Next rt (afterCalls rt j (NewParser input))).1 = .ret r)
    (he : r.err = some e) (hb : blankOrComment text) :
    (1 ≤ e.LineNumber ∧ e.LineNumber ≤ input.length ∧
      (Parser.Next rt (afterCalls rt j (NewParser input))).2 =
        ⟨NewScanner (input.drop e.LineNumber), e.LineNumber⟩ ∧
      ∃ line, input[e.LineNumber - 1]? = some line ∧ ¬ blankOrComment line ∧
        Parser.Next.body rt e.LineNumber (ToLower rt (TrimSpace line)) = .ret r) ∧
    Parser.Next rt ⟨text :: rest, n⟩ = Parser.Next rt ⟨rest, n + 1⟩ ∧
    Parser.Next rt ⟨[text], n⟩ = (.ret ⟨[], false, none⟩, ⟨[], n + 1⟩) := by
  have hskip := blankOrComment_skips rt text hb
  refine ⟨?_, Next_skip rt text rest n hskip, by rw [Next_skip rt text [] n hskip, Next_end]⟩
  obtain ⟨i1, i2⟩ := afterCalls_inv rt input j
  obtain ⟨h1, h2, h3⟩ := scan_spec rt (NewScanner input) _ _ i2 i1
  obtain ⟨g1, g2, text1, g3, g4, g5⟩ := h3 r e hr he
  obtain ⟨line, k1, _, k3⟩ := NewScanner_getElem input _ text1 g3
  have hle : e.LineNumber ≤ (NewScanner input).length := by rw [g2]; exact h1
  refine ⟨g1, le_trans hle (NewScanner_length input), ?_, line, k1, ?_, ?_⟩
  · rw [← NewScanner_drop input e.LineNumber hle, g2, h2]
    rfl
  · intro hbl
    apply g4
    rw [k3]
    exact blankOrComment_skips rt _ ((blankOrComment_dropCR line).mpr hbl)
  · rw [k3, TrimSpace_dropCR] at g5
    exact g5

/-- Witness of C7: after a comment, a blank line and `mov r0 r1`, the error of
`jmp r0` carries line 4. -/
theorem syntaxError_lineNumber_witness :
    (Parser.Next asciiRuntime (afterCalls asciiRuntime 1 (NewParser
        [bytes "# comment", bytes "", bytes "mov r0 r1", bytes "jmp r0"]))).2 =
        ⟨[], 4⟩ ∧
      Parser.Next asciiRuntime ⟨[bytes "  # note"], 7⟩ = (.ret ⟨[], false, none⟩, ⟨[], 8⟩) :=
  have h := syntaxError_lineNumber asciiRuntime
    [bytes "# comment", bytes "", bytes "mov r0 r1", bytes "jmp r0"] 1
    ⟨[], true, some ⟨bytes "Invalid instruction provided 'JMP'", 4⟩⟩
    ⟨bytes "Invalid instruction provided 'JMP'", 4⟩ (bytes "  # note") [] 7
    (by decide) rfl (by decide)
  ⟨h.1.2.2.1, h.2.2⟩

/-- C8, the code at the failing inputs.  On the one-line input `addi r1 r2 5`, a
valid instruction, `Parser.Next` panics and returns no word.  On the input made
of a blank line of 70000 spaces and the line `mov r0 r1`, the scanner stops at
the first line: the first call of `Parser.Next` returns `(nil, false, nil)`, the
buffer the driver writes is empty, and no word is returned for `mov r0 r1`,
whose word on its own is `[0x00, 0x10]`.  On an input whose lines are shorter
than `MaxScanTokenSize` bytes and are blank, comments or instruction lines with
hexadecimal immediates, the successive calls of `Next` return the words of the
non-blank, non-comment lines, one per line and in source order, each of two
bytes and each the word of its line read alone, and then `(nil, false, nil)`;
the buffer of the driver is the concatenation of these words, of length twice
the number of instruction lines, and it is what the driver writes.  The word of
an instruction line is the word of the bit layout. -/
theorem Next_words_missing (rt : GoRuntime) :
    Parser.Next rt (NewParser [bytes "addi r1 r2 5"]) = (.panic, ⟨[], 1⟩) ∧
    (blankOrComment (List.replicate 70000 0x20) ∧
      Parser.Next rt (NewParser [List.replicate 70000 0x20, bytes "mov r0 r1"]) =
        (.ret ⟨[], false, none⟩, ⟨[], 0⟩) ∧
      runRootCommand rt (fun _ => none) [List.replicate 70000 0x20, bytes "mov r0 r1"] =
        some ⟨[.Write [], .Close], .returned⟩ ∧
      Parser.Next rt (NewParser [bytes "mov r0 r1"]) =
        (.ret ⟨[0x00, 0x10], true, none⟩, ⟨[], 1⟩)) ∧
    (∀ input : List GoString, (∀ t ∈ input, t.length < MaxScanTokenSize) →
      (∀ t ∈ input, blankOrComment t ∨ instructionLine rt t) →
      (∀ j (hj : j < (input.filterMap (wordOf rt)).length),
        (Parser.Next rt (afterCalls rt j (NewParser input))).1 =
          .ret ⟨(input.filterMap (wordOf rt))[j], true, none⟩) ∧
      (Parser.Next rt (afterCalls rt (input.filterMap (wordOf rt)).length
        (NewParser input))).1 = .ret ⟨[], false, none⟩ ∧
      (∀ w ∈ input.filterMap (wordOf rt), w.length = 2) ∧
      (input.filterMap (wordOf rt)).length =
        (input.filter (fun t => decide (¬ blankOrComment t))).length ∧
      runRootCommand.loop rt (input.length + 1) (NewParser input) [] =
        some (.ret (.inl (input.filterMap (wordOf rt)).flatten)) ∧
      (input.filterMap (wordOf rt)).flatten.length =
        2 * (input.filter (fun t => decide (¬ blankOrComment t))).length ∧
      runRootCommand rt (fun _ => none) input =
        some ⟨[.Write (input.filterMap (wordOf rt)).flatten, .Close], .returned⟩) ∧
    (∀ (text m : GoString) (v : Nat) (s : List InstructionParamType) (ts : List GoString)
      (rs : List Nat), Fields (ToLower rt (TrimSpace text)) = m :: ts →
      Instruction.GetValue m = (v, true) → Instruction.GetParams m = some s →
      operandTokens s ts rs →
      ¬ blankOrComment text ∧
        wordOf rt text = some [v ||| rs.getD 0 0, (rs.getD 1 0 <<< 4) ||| rs.getD 2 0]) := by
  have hlong : MaxScanTokenSize ≤ 70000 := by decide
  refine ⟨Next_addi_short_panics rt, ⟨blankOrComment_spaces 70000,
    (long_line_first rt 70000 hlong).1, (long_line_first rt 70000 hlong).2, ?_⟩, ?_,
    fun text m v s ts rs ht hv hs hops => instructionLine_word rt text m v s ts rs ht hv hs hops⟩
  · rw [show NewParser [bytes "mov r0 r1"] = ⟨[bytes "mov r0 r1"], 0⟩ from rfl,
      Next_body rt _ [] 0 (mov_line rt).1, (mov_line rt).2]
  · intro input hshort hvalid
    have hN : NewParser input = ⟨input.map dropCR, 0⟩ := by
      rw [NewParser, NewScanner_all_short input hshort]
    have hg : ∀ t ∈ input.map dropCR, goodLine rt t := by
      intro t ht
      obtain ⟨u, hu, hut⟩ := List.mem_map.mp ht
      rw [← hut]
      exact goodLine_dropCR rt u (instructionLine_good rt u (hvalid u hu))
    obtain ⟨w1, w2⟩ := words_of_good_lines rt _ hg
    obtain ⟨c1, c2, c3⟩ := words_count rt _ hg
    have hrl := runLines_good rt _ 0 [] hg
    rw [filterMap_wordOf_dropCR] at w1 w2 c1 c2 c3 hrl
    rw [filter_instruction_dropCR] at c1 c2
    rw [List.nil_append] at hrl
    refine ⟨?_, ?_, c3, c1, ?_, c2, ?_⟩
    · rw [hN]; exact w1
    · rw [hN]; exact w2
    · rw [hN, loop_eq_runLines rt _ 0 [] _ (by simp), hrl]
    · rw [runRootCommand_runLines, NewScanner_all_short input hshort, hrl]

/-- Witness of C8: a comment, a blank line and two instructions give the two
words in order. -/
theorem Next_words_missing_witness :
    runRootCommand.loop asciiRuntime 5
        (NewParser [bytes "# start", bytes "", bytes "mov r0 r1", bytes "add r2 r3 r4"]) [] =
      some (.ret (.inl [0x00, 0x10, 0x42, 0x34])) :=
  ((Next_words_missing asciiRuntime).2.2.1
    [bytes "# start", bytes "", bytes "mov r0 r1", bytes "add r2 r3 r4"] (by decide)
    (by
      intro t ht
      simp only [List.mem_cons, List.mem_singleton, List.not_mem_nil, or_false] at ht
      rcases ht with h | h | h | h
      · rw [h]; exact Or.inl (by decide)
      · rw [h]; exact Or.inl (by decide)
      · rw [h]
        exact Or.inr ⟨bytes "mov", 0x00, [ParamRegister, ParamRegister],
          [bytes "r0", bytes "r1"], [0, 1], by decide, by decide, by decide,
          Or.inl ⟨rfl, by decide⟩, Or.inl ⟨rfl, by decide⟩, trivial⟩
      · rw [h]
        exact Or.inr ⟨bytes "add", 0x40, [ParamRegister, ParamRegister, ParamRegister],
          [bytes "r2", bytes "r3", bytes "r4"], [2, 3, 4], by decide, by decide, by decide,
          Or.inl ⟨rfl, by decide⟩, Or.inl ⟨rfl, by decide⟩, Or.inl ⟨rfl, by decide⟩,
          trivial⟩)).2.2.2.2.1

/-- C9, the code at the failing input.  On the input `mov r0 r1`, a line of
70000 spaces, `jmp r0`, the scanner stops at the second line: the driver calls
`writer.Write` with the word `[0x00, 0x10]` of the first line and returns,
although the third line is a syntax error (read on its own it makes
`Parser.Next` return the `SyntaxError` of an invalid instruction, and with an
empty second line the run ends in `log.Fatalln` with nothing written).  On an
input whose lines are all shorter than `MaxScanTokenSize` bytes: when a line
makes `Parser.Next` return a `SyntaxError`, the run of the driver does not
return normally and makes no call of `writer.Write`; a call `writer.Write(b)` is
made only when `Parser.Next` reports neither an error nor a panic on any line,
and `b` is then the concatenation of the words of the lines.  The run of the
driver ends on every input. -/
theorem driver_writes_at_long_line (rt : GoRuntime) :
    runRootCommand rt (fun _ => none)
        [bytes "mov r0 r1", List.replicate 70000 0x20, bytes "jmp r0"] =
      some ⟨[.Write [0x00, 0x10], .Close], .returned⟩ ∧
    Parser.Next rt (NewParser [bytes "jmp r0"]) =
      (.ret ⟨[], true, some ⟨bytes "Invalid instruction provided 'JMP'", 1⟩⟩, ⟨[], 1⟩) ∧
    runRootCommand rt (fun _ => none) [bytes "mov r0 r1", bytes "", bytes "jmp r0"] =
      some ⟨[], .fatal (bytes "Syntax error on line 3: Invalid instruction provided 'JMP'")⟩ ∧
    (∀ (writerWrite : List Nat → Option GoString) (input : List GoString) (text : GoString)
      (e : SyntaxError), (∀ t ∈ input, t.length < MaxScanTokenSize) → text ∈ input →
      (Parser.Next rt (NewParser [text])).1 = .ret ⟨[], true, some e⟩ →
      ∃ res, runRootCommand rt writerWrite input = some res ∧ res.exit ≠ .returned ∧
        ∀ b, WriterCall.Write b ∉ res.calls) ∧
    (∀ (writerWrite : List Nat → Option GoString) (input : List GoString) (res : RunResult)
      (b : List Nat), (∀ t ∈ input, t.length < MaxScanTokenSize) →
      runRootCommand rt writerWrite input = some res → WriterCall.Write b ∈ res.calls →
      (∀ t ∈ input, ∃ r, (Parser.Next rt (NewParser [t])).1 = .ret r ∧ r.err = none) ∧
        b = (input.filterMap (wordOf rt)).flatten) ∧
    (∀ (writerWrite : List Nat → Option GoString) (input : List GoString),
      (runRootCommand rt writerWrite input).isSome = true) := by
  have hlong : MaxScanTokenSize ≤ 70000 := by decide
  have hsingle : ∀ (input : List GoString) (t : GoString),
      (∀ u ∈ input, u.length < MaxScanTokenSize) → t ∈ input →
      NewParser [t] = ⟨[dropCR t], 0⟩ := by
    intro input t hshort ht
    rw [NewParser, NewScanner_short t [] (hshort t ht), NewScanner_nil]
  refine ⟨long_line_second rt 70000 hlong, ?_, ?_, ?_, ?_, ?_⟩
  · rw [show NewParser [bytes "jmp r0"] = ⟨[bytes "jmp r0"], 0⟩ from rfl,
      Next_body rt _ [] 0 (jmp_line rt).1, (jmp_line rt).2]
  · rw [runRootCommand_runLines,
      show NewScanner [bytes "mov r0 r1", bytes "", bytes "jmp r0"] =
        [bytes "mov r0 r1", bytes "", bytes "jmp r0"] from rfl]
    have hblank : skips rt (bytes "") := blankOrComment_skips rt _ (by decide)
    simp only [runLines, (mov_line rt).1, if_false, (mov_line rt).2, hblank, if_true,
      (jmp_line rt).1, (jmp_line rt).2]
    rfl
  · intro writerWrite input text e hshort hmem hfail
    rw [runRootCommand_runLines, NewScanner_all_short input hshort]
    cases hl : runLines rt (input.map dropCR) 0 [] with
    | panic => exact ⟨_, rfl, by simp, by simp⟩
    | ret x =>
      cases x with
      | inr msg => exact ⟨_, rfl, by simp, by simp⟩
      | inl buf =>
        obtain ⟨r, h1, h2⟩ := (runLines_buffer rt _ 0 [] buf hl).1 (dropCR text)
          (List.mem_map_of_mem dropCR hmem)
        rw [hsingle input text hshort hmem, h1] at hfail
        simp only [Run.ret.injEq] at hfail
        rw [hfail] at h2
        simp at h2
  · intro writerWrite input res b hshort hres hb
    rw [runRootCommand_runLines, NewScanner_all_short input hshort] at hres
    cases hl : runLines rt (input.map dropCR) 0 [] with
    | panic =>
      rw [hl] at hres
      simp only [Option.some.injEq] at hres
      rw [← hres] at hb
      simp at hb
    | ret x =>
      cases x with
      | inr msg =>
        rw [hl] at hres
        simp only [Option.some.injEq] at hres
        rw [← hres] at hb
        simp at hb
      | inl buf =>
        obtain ⟨g1, g2⟩ := runLines_buffer rt _ 0 [] buf hl
        rw [hl] at hres
        simp only at hres
        have hbuf : b = buf := by
          cases hw : writerWrite buf with
          | some err =>
            rw [hw] at hres
            simp only [Option.some.injEq] at hres
            rw [← hres] at hb
            simpa using hb
          | none =>
            rw [hw] at hres
            simp only [Option.some.injEq] at hres
            rw [← hres] at hb
            simpa using hb
        refine ⟨?_, ?_⟩
        · intro t ht
          rw [hsingle input t hshort ht]
          exact g1 (dropCR t) (List.mem_map_of_mem dropCR ht)
        · rw [hbuf, g2, filterMap_wordOf_dropCR]
          rfl
  · intro writerWrite input
    rw [runRootCommand_runLines]
    cases runLines rt (NewScanner input) 0 [] with
    | panic => rfl
    | ret x =>
      cases x with
      | inr msg => rfl
      | inl buf =>
        simp only
        cases writerWrite buf <;> rfl

/-- Witness of C9: with lines shorter than the limit of the scanner, the
out-of-range immediate on the second line ends the run with the text of its
syntax error and nothing is written, although the first line was encoded. -/
theorem driver_writes_at_long_line_witness :
    ∃ res, runRootCommand asciiRuntime (fun _ => none)
        [bytes "mov r0 r1", bytes "addi r1 r2 0x10"] = some res ∧
      res.exit ≠ .returned ∧ ∀ b, WriterCall.Write b ∉ res.calls :=
  (driver_writes_at_long_line asciiRuntime).2.2.2.1 (fun _ => none)
    [bytes "mov r0 r1", bytes "addi r1 r2 0x10"] (bytes "addi r1 r2 0x10")
    ⟨bytes "Invalid numeric value provided '0x10': Value must be between 0 and 15 inclusive", 1⟩
    (by decide) (by decide) (by decide)

end Csc364
